import Mathlib

/-!
Verification development for the PriusExtract archive tool.

Bytes are modelled as `Nat` values and byte buffers as `List Nat`.
All numeric fields are little-endian, as in the on-disk format.
-/

namespace Prius

/-- Little-endian 32-bit read at `off`, out-of-range bytes read as 0
(mirrors `readU32` over `Buffer.readUInt32LE`). -/
def readU32LE (b : List Nat) (off : Nat) : Nat :=
  b.getD off 0 + 256 * b.getD (off + 1) 0 + 65536 * b.getD (off + 2) 0 +
    16777216 * b.getD (off + 3) 0

/-- Little-endian 32-bit encode (mirrors `Buffer.writeUInt32LE` after `>>> 0`). -/
def writeU32LE (n : Nat) : List Nat :=
  [n % 256, n / 256 % 256, n / 65536 % 256, n / 16777216 % 256]

/-- Little-endian 64-bit encode (mirrors `Buffer.writeBigUInt64LE`). -/
def writeU64LE (n : Nat) : List Nat :=
  [n % 256, n / 256 % 256, n / 65536 % 256, n / 16777216 % 256,
   n / 4294967296 % 256, n / 1099511627776 % 256,
   n / 281474976710656 % 256, n / 72057594037927936 % 256]

/-- The constant Windows FILETIME sentinel written into every wrapper header. -/
def FILETIME : Nat := 0x01ca8b14a4e00000

/-- Size of the wrapper header preceding each file payload. -/
def FILE_WRAPPER_HEADER_SIZE : Nat := 0x20

theorem readU32LE_writeU32LE (n : Nat) (h : n < 4294967296) :
    readU32LE (writeU32LE n) 0 = n := by
  simp [readU32LE, writeU32LE, List.getD]
  omega

theorem writeU32LE_length (n : Nat) : (writeU32LE n).length = 4 := rfl

theorem writeU64LE_length (n : Nat) : (writeU64LE n).length = 8 := rfl

/-! ## Block codec (`buildFileWrapper` / `decodeFilePayload`)

`deflate`/`inflate` are the external zlib primitives; they are parameters of
the embedding, constrained only by the zlib round-trip law where needed. -/

/-- The 32-byte wrapper header: `type=1`, the declared decompressed size, and
three FILETIME sentinel fields. -/
def wrapperHeader (declaredSize : Nat) : List Nat :=
  writeU32LE 1 ++ writeU32LE declaredSize ++
    writeU64LE FILETIME ++ writeU64LE FILETIME ++ writeU64LE FILETIME

/-- Embeds `buildFileWrapper` from `src/core/prius_parallel_compress.ts`:
32-byte header followed by the deflated bytes. -/
def buildFileWrapper (deflate : Nat → List Nat → List Nat) (rawData : List Nat)
    (compressLevel : Nat) : List Nat :=
  wrapperHeader (rawData.length % 4294967296) ++ deflate compressLevel rawData

theorem wrapperHeader_length (sz : Nat) : (wrapperHeader sz).length = 32 := by
  simp [wrapperHeader, writeU32LE, writeU64LE]

theorem wrapperHeader_append_drop (sz : Nat) (c : List Nat) :
    (wrapperHeader sz ++ c).drop 32 = c := by
  simp [wrapperHeader, writeU32LE, writeU64LE]

theorem wrapperHeader_append_type (sz : Nat) (c : List Nat) :
    readU32LE (wrapperHeader sz ++ c) 0 = 1 := by
  simp [wrapperHeader, writeU32LE, writeU64LE, readU32LE, List.getD]

theorem wrapperHeader_append_size (sz : Nat) (c : List Nat) (h : sz < 4294967296) :
    readU32LE (wrapperHeader sz ++ c) 4 = sz := by
  simp [wrapperHeader, writeU32LE, writeU64LE, readU32LE, List.getD]
  omega

/-- Error kinds raised by `decodeFilePayload`. -/
inductive WrapErr where
  | truncated : WrapErr
  | sizeMismatch : WrapErr
  | typeAndSizeMismatch : WrapErr
  deriving DecidableEq, Repr

/-- Embeds `PriusArchive.decodeFilePayload`: when `type == 1` inflate and check
the declared size (only when nonzero); when `type != 1` return the post-header
bytes, failing only when the declared size is nonzero and differs. -/
def decodeFilePayload (inflate : List Nat → List Nat) (raw : List Nat) :
    Except WrapErr (List Nat) :=
  if raw.length < FILE_WRAPPER_HEADER_SIZE then
    .error .truncated
  else
    let typ := readU32LE raw 0
    let declaredSize := readU32LE raw 4
    let payload := raw.drop FILE_WRAPPER_HEADER_SIZE
    if typ = 1 then
      let out := inflate payload
      if declaredSize ≠ 0 ∧ out.length ≠ declaredSize then .error .sizeMismatch
      else .ok out
    else
      if declaredSize ≠ 0 ∧ payload.length ≠ declaredSize then
        .error .typeAndSizeMismatch
      else .ok payload

/-- C2: for every byte buffer and compression level 1..9, decoding the wrapped
buffer produced by the encoder returns the raw bytes exactly: the 32-byte
header declares `type=1` and `decompressed_size = len(raw)`, and the decoder
inflates the post-header bytes and accepts because the lengths agree. -/
theorem decode_encode_roundtrip (deflate : Nat → List Nat → List Nat)
    (inflate : List Nat → List Nat)
    (hzlib : ∀ lvl raw, inflate (deflate lvl raw) = raw)
    (compressLevel : Nat) (hlo : 1 ≤ compressLevel) (hhi : compressLevel ≤ 9)
    (raw : List Nat) (hlen : raw.length < 4294967296) :
    decodeFilePayload inflate (buildFileWrapper deflate raw compressLevel) =
      Except.ok raw := by
  have hmod : raw.length % 4294967296 = raw.length := Nat.mod_eq_of_lt hlen
  rw [decodeFilePayload, buildFileWrapper]
  rw [if_neg (by simp [wrapperHeader_length, FILE_WRAPPER_HEADER_SIZE])]
  simp only [wrapperHeader_append_type, wrapperHeader_append_size _ _
    (hmod ▸ hlen), FILE_WRAPPER_HEADER_SIZE]
  rw [if_pos trivial]
  show (if raw.length % 4294967296 ≠ 0 ∧
      (inflate ((wrapperHeader (raw.length % 4294967296) ++
        deflate compressLevel raw).drop 32)).length ≠ raw.length % 4294967296 then
      (Except.error WrapErr.sizeMismatch : Except WrapErr (List Nat))
    else Except.ok (inflate ((wrapperHeader (raw.length % 4294967296) ++
      deflate compressLevel raw).drop 32))) = Except.ok raw
  rw [wrapperHeader_append_drop, hzlib, hmod]
  simp

/-- C2 witness: a concrete instantiation of the round-trip theorem. -/
theorem decode_encode_roundtrip_witness :
    decodeFilePayload id
        (buildFileWrapper (fun _ raw => raw) [65, 66, 67] 6) =
      Except.ok [65, 66, 67] :=
  decode_encode_roundtrip (fun _ raw => raw) id (fun _ _ => rfl) 6
    (by decide) (by decide) [65, 66, 67] (by decide)

/-- C6 counterexample: a wrapper with `type = 0`, declared size 0 and a
1-byte payload is accepted and returned unchanged even though the post-header
length (1) differs from the declared size (0), contradicting the claim that
the decoder fails whenever the lengths differ. -/
theorem decode_nontype1_zero_declared_counterexample :
    readU32LE (List.replicate 32 0 ++ [5]) 0 ≠ 1 ∧
      ((List.replicate 32 0 ++ [5]).drop 32).length ≠
        readU32LE (List.replicate 32 0 ++ [5]) 4 ∧
      decodeFilePayload id (List.replicate 32 0 ++ [5]) = Except.ok [5] := by
  refine ⟨by decide, by decide, ?_⟩
  rfl

/-- C6 amended: for a wrapper whose header declares `type != 1`, the decoder
returns the post-header bytes unchanged when the declared size is zero or
equals the post-header length, and fails with a CorruptWrapper error exactly
when the declared size is nonzero and differs from the post-header length. -/
theorem decode_nontype1_characterization (inflate : List Nat → List Nat)
    (raw : List Nat) (hlen : 32 ≤ raw.length) (htyp : readU32LE raw 0 ≠ 1) :
    (readU32LE raw 4 = 0 ∨ (raw.drop 32).length = readU32LE raw 4 →
      decodeFilePayload inflate raw = Except.ok (raw.drop 32)) ∧
    (readU32LE raw 4 ≠ 0 ∧ (raw.drop 32).length ≠ readU32LE raw 4 →
      decodeFilePayload inflate raw = Except.error WrapErr.typeAndSizeMismatch) := by
  rw [decodeFilePayload, if_neg (by simp [FILE_WRAPPER_HEADER_SIZE]; omega)]
  simp only [if_neg htyp, FILE_WRAPPER_HEADER_SIZE]
  constructor
  · intro h
    rw [if_neg]
    rcases h with h | h
    · simp [h]
    · simp [h]
  · intro h
    rw [if_pos h]

/-- C6 amended witness: declared size 3 equal to the payload length. -/
theorem decode_nontype1_characterization_witness :
    decodeFilePayload id
        ([2, 0, 0, 0] ++ [3, 0, 0, 0] ++ List.replicate 24 0 ++ [9, 9, 9]) =
      Except.ok [9, 9, 9] := by
  have h := decode_nontype1_characterization id
    ([2, 0, 0, 0] ++ [3, 0, 0, 0] ++ List.replicate 24 0 ++ [9, 9, 9])
    (by decide) (by decide)
  have h2 := h.1 (by decide)
  simpa using h2

/-! ## Striped page layout: page-size inference (`PriusIdx.inferPageSize`) -/

/-- The candidate page sizes probed when opening an index file. -/
def pageSizeCandidates : List Nat := [0x200, 0x400, 0x800, 0x1000, 0x2000, 0x4000, 0x8000]

/-- Embeds the per-candidate viability test inside `PriusIdx.inferPageSize`
(`src/unnamed/part_004`): the candidate divides the file length, leaves at
least two pages, the data pages split evenly into stripes, and every channel
fits within its capacity. Channels are `(pagesPerStripe, sizeBytes)` pairs. -/
def viableFor (fileSize : Nat) (channels : List (Nat × Nat)) (pageSize : Nat) : Bool :=
  let sumPages := (channels.map Prod.fst).sum
  if fileSize % pageSize ≠ 0 then false
  else
    let totalPages := fileSize / pageSize
    if totalPages < 2 then false
    else
      let dataPages := totalPages - 1
      if dataPages % sumPages ≠ 0 then false
      else
        let stripes := dataPages / sumPages
        channels.all fun ch => ch.2 ≤ stripes * ch.1 * pageSize

/-- Embeds `PriusIdx.inferPageSize`: filter the candidates by viability,
prefer 4096, otherwise fall back to the smallest survivor (`Math.min`). -/
def inferPageSize (fileSize : Nat) (channels : List (Nat × Nat)) :
    Except String Nat :=
  let sumPages := (channels.map Prod.fst).sum
  if sumPages = 0 then .error "Invalid pages-per-stripe configuration"
  else
    match pageSizeCandidates.filter (viableFor fileSize channels) with
    | [] => .error "Could not infer idx page size"
    | v :: vs =>
      if (v :: vs).contains 0x1000 then .ok 0x1000
      else .ok (vs.foldl min v)

/-- The claim's wording of a surviving candidate: evenly divides the file
length, leaves at least two pages, `(total_pages - 1) mod sum(pps) == 0`, and
every channel capacity `stripes * pps[c] * page_size` covers `size_bytes[c]`. -/
def specSurvives (fileSize : Nat) (channels : List (Nat × Nat)) (pageSize : Nat) :
    Prop :=
  pageSize ∣ fileSize ∧ 2 ≤ fileSize / pageSize ∧
    (fileSize / pageSize - 1) % (channels.map Prod.fst).sum = 0 ∧
    ∀ ch ∈ channels,
      ch.2 ≤ (fileSize / pageSize - 1) / (channels.map Prod.fst).sum * ch.1 * pageSize

instance (fileSize : Nat) (channels : List (Nat × Nat)) (pageSize : Nat) :
    Decidable (specSurvives fileSize channels pageSize) := by
  unfold specSurvives; infer_instance

theorem viableFor_eq_specSurvives (fileSize : Nat) (channels : List (Nat × Nat))
    (pageSize : Nat) :
    viableFor fileSize channels pageSize = true ↔
      specSurvives fileSize channels pageSize := by
  rw [viableFor, specSurvives]
  by_cases h1 : fileSize % pageSize = 0
  · have hdvd : pageSize ∣ fileSize := Nat.dvd_of_mod_eq_zero h1
    rw [if_neg (not_not_intro h1)]
    by_cases h2 : fileSize / pageSize < 2
    · rw [if_pos h2]
      exact iff_of_false (by decide) (fun h => absurd h.2.1 (by omega))
    · rw [if_neg h2]
      by_cases h3 : (fileSize / pageSize - 1) % (channels.map Prod.fst).sum = 0
      · rw [if_neg (not_not_intro h3)]
        rw [List.all_eq_true]
        constructor
        · intro h
          exact ⟨hdvd, by omega, h3, fun ch hch => by simpa using h ch hch⟩
        · intro h ch hch
          simpa using h.2.2.2 ch hch
      · rw [if_pos h3]
        exact iff_of_false (by decide) (fun h => h3 h.2.2.1)
  · rw [if_pos h1]
    exact iff_of_false (by decide) (fun h => h1 (Nat.dvd_iff_mod_eq_zero.mp h.1))

theorem foldl_min_mem : ∀ (vs : List Nat) (v : Nat), vs.foldl min v ∈ v :: vs
  | [], v => by simp
  | x :: xs, v => by
    have h := foldl_min_mem xs (min v x)
    rcases List.mem_cons.mp h with h | h
    · rcases min_choice v x with hm | hm <;> rw [List.foldl_cons, h, hm] <;> simp
    · simp [List.foldl_cons, List.mem_cons.mpr (Or.inr (List.mem_cons_of_mem _ h))]

theorem foldl_min_le : ∀ (vs : List Nat) (v q : Nat), q ∈ v :: vs →
    vs.foldl min v ≤ q
  | [], v, q, hq => by
    simp at hq
    simp [List.foldl_nil, hq]
  | x :: xs, v, q, hq => by
    rw [List.foldl_cons]
    rcases List.mem_cons.mp hq with h | h
    · subst h
      exact le_trans (foldl_min_le xs _ _ (List.mem_cons_self _ _)) (min_le_left _ _)
    · rcases List.mem_cons.mp h with h | h
      · subst h
        exact le_trans (foldl_min_le xs _ _ (List.mem_cons_self _ _))
          (min_le_right _ _)
      · exact foldl_min_le xs _ _ (List.mem_cons_of_mem _ h)

/-- C7: opening an index file infers the page size by keeping the candidates
in `{512, ..., 32768}` that satisfy the claim's four conditions; the result is
4096 when 4096 survives, otherwise the smallest survivor; when no candidate
survives, inference fails. -/
theorem inferPageSize_characterization (fileSize : Nat)
    (channels : List (Nat × Nat)) (hsum : (channels.map Prod.fst).sum ≠ 0) :
    ((∀ q ∈ pageSizeCandidates, ¬ specSurvives fileSize channels q) →
      inferPageSize fileSize channels = .error "Could not infer idx page size") ∧
    (specSurvives fileSize channels 4096 →
      inferPageSize fileSize channels = .ok 4096) ∧
    (∀ p ∈ pageSizeCandidates, specSurvives fileSize channels p →
      ¬ specSurvives fileSize channels 4096 →
      ∃ r, inferPageSize fileSize channels = .ok r ∧ r ∈ pageSizeCandidates ∧
        specSurvives fileSize channels r ∧
        ∀ q ∈ pageSizeCandidates, specSurvives fileSize channels q → r ≤ q) := by
  have hmem : ∀ p, p ∈ pageSizeCandidates.filter (viableFor fileSize channels) ↔
      p ∈ pageSizeCandidates ∧ specSurvives fileSize channels p := by
    intro p
    rw [List.mem_filter, viableFor_eq_specSurvives]
  refine ⟨?_, ?_, ?_⟩
  · intro hall
    have hnil : pageSizeCandidates.filter (viableFor fileSize channels) = [] := by
      rw [List.filter_eq_nil_iff]
      intro a ha
      rw [Bool.not_eq_true, ← Bool.not_eq_true, viableFor_eq_specSurvives]
      exact hall a ha
    rw [inferPageSize, if_neg hsum, hnil]
  · intro h4096
    have h4m : (4096 : Nat) ∈ pageSizeCandidates.filter (viableFor fileSize channels) :=
      (hmem 4096).mpr ⟨by decide, h4096⟩
    rw [inferPageSize, if_neg hsum]
    cases hS : pageSizeCandidates.filter (viableFor fileSize channels) with
    | nil => rw [hS] at h4m; cases h4m
    | cons v vs =>
      rw [hS] at h4m
      simp only
      rw [if_pos (by simpa using h4m)]
  · intro p hp hps hn4096
    have hpm : p ∈ pageSizeCandidates.filter (viableFor fileSize channels) :=
      (hmem p).mpr ⟨hp, hps⟩
    rw [inferPageSize, if_neg hsum]
    cases hS : pageSizeCandidates.filter (viableFor fileSize channels) with
    | nil => rw [hS] at hpm; cases hpm
    | cons v vs =>
      have hnc : ¬ (v :: vs).contains 4096 = true := by
        intro hc
        have : (4096 : Nat) ∈ v :: vs := by simpa using hc
        exact hn4096 ((hmem 4096).mp (hS ▸ this)).2
      simp only
      rw [if_neg hnc]
      refine ⟨vs.foldl min v, rfl, ?_, ?_, ?_⟩
      · exact ((hmem _).mp (hS ▸ foldl_min_mem vs v)).1
      · exact ((hmem _).mp (hS ▸ foldl_min_mem vs v)).2
      · intro q hq hqs
        exact foldl_min_le vs v q (hS ▸ (hmem q).mpr ⟨hq, hqs⟩)

/-- C7 witness: a concrete 18-page file where 4096 survives. -/
theorem inferPageSize_characterization_witness :
    inferPageSize 73728 [(4, 100), (8, 100), (1, 5), (4, 8)] = .ok 4096 :=
  (inferPageSize_characterization 73728 [(4, 100), (8, 100), (1, 5), (4, 8)]
    (by decide)).2.1 (by decide)

/-! ## String table (`StringTableBuilder.add` / `PriusArchive.stringBytes`) -/

/-- Record size of the string table. -/
def STRING_RECORD_SIZE : Nat := 0x40

/-- Payload bytes per string-table record. -/
def STRING_PAYLOAD_SIZE : Nat := 0x3c

/-- Builder state: the emitted 64-byte records and the path cache
(`src/repack/string_table.ts`). -/
structure StringTableBuilder where
  records : List (List Nat)
  cache : List (List Nat × Nat)

/-- The freshly constructed builder: the sentinel record 0 holds a dot. -/
def StringTableBuilder.init : StringTableBuilder :=
  { records := [writeU32LE 0x80000000 ++ (0x2e :: List.replicate 59 0)],
    cache := [] }

/-- Slices `text` into 60-byte chunks; the fuel argument only drives the
recursion and is irrelevant once it covers `text.length`. -/
def chunksOfAux : Nat → List Nat → List (List Nat)
  | _, [] => []
  | 0, _ :: _ => []
  | fuel + 1, b :: rest =>
    (b :: rest).take STRING_PAYLOAD_SIZE ::
      chunksOfAux fuel ((b :: rest).drop STRING_PAYLOAD_SIZE)

/-- The 60-byte chunks of `text`, mirroring the slicing loop in `add`. -/
def chunksOf (text : List Nat) : List (List Nat) :=
  chunksOfAux text.length text

/-- One emitted record: header `0x8000_0000 | next_index`, then the chunk
padded with zeros to 60 bytes. -/
def stringRecord (nextIdx : Nat) (chunk : List Nat) : List Nat :=
  writeU32LE (nextIdx ||| 0x80000000) ++
    (chunk ++ List.replicate (STRING_PAYLOAD_SIZE - chunk.length) 0)

/-- The records emitted for a chunk list: record `firstIdx + i` links to
`firstIdx + i + 1`, except the last which links to 0. -/
def buildRecords (chunks : List (List Nat)) (firstIdx i : Nat) : List (List Nat) :=
  match chunks with
  | [] => []
  | c :: rest =>
    stringRecord (if rest.isEmpty then 0 else firstIdx + i + 1) c ::
      buildRecords rest firstIdx (i + 1)

/-- Cache lookup (mirrors the `Map` keyed by the canonical path string). -/
def lookupCache (cache : List (List Nat × Nat)) (k : List Nat) : Option Nat :=
  match cache with
  | [] => none
  | (k2, v) :: rest => if k2 = k then some v else lookupCache rest k

/-- Embeds `StringTableBuilder.add`: empty text returns index 0, a cached key
returns the cached index, otherwise one record per 60-byte chunk is appended
and the first record index returned. -/
def StringTableBuilder.add (st : StringTableBuilder) (text cacheKey : List Nat) :
    StringTableBuilder × Nat :=
  if text.isEmpty then (st, 0)
  else
    match lookupCache st.cache cacheKey with
    | some cached => (st, cached)
    | none =>
      let firstIdx := st.records.length
      ({ records := st.records ++ buildRecords (chunksOf text) firstIdx 0,
         cache := (cacheKey, firstIdx) :: st.cache }, firstIdx)

/-- Embeds `StringTableBuilder.build` (`Buffer.concat` of the records). -/
def StringTableBuilder.build (st : StringTableBuilder) : List Nat :=
  st.records.flatten

/-- Errors of the string-table reader. -/
inductive StrErr where
  | loop : StrErr
  | range : StrErr
  | fuel : StrErr
  deriving DecidableEq, Repr

/-- First NUL position in a chunk (mirrors `chunk.indexOf(0)`, with `none`
for "not found"). -/
def firstNul : List Nat → Option Nat
  | [] => none
  | b :: rest => if b = 0 then some 0 else (firstNul rest).map (· + 1)

/-- Embeds the chain walk of `PriusArchive.stringBytes`: visited-set guard,
range check, next pointer from the low 31 header bits, stop at a NUL inside
the chunk or at next index 0. The fuel bound stands in for the unbounded
`while`; the visited-set guard bounds real executions the same way. -/
def stringBytesAux (strings : List Nat) :
    Nat → List Nat → List Nat → Nat → Except StrErr (List Nat)
  | 0, _, _, _ => .error .fuel
  | fuel + 1, seen, acc, idx =>
    if idx ∈ seen then .error .loop
    else
      let off := idx * STRING_RECORD_SIZE
      if strings.length < off + STRING_RECORD_SIZE then .error .range
      else
        let header := readU32LE strings off
        let nxt := header &&& 0x7fffffff
        let chunk := (strings.drop (off + 4)).take STRING_PAYLOAD_SIZE
        match firstNul chunk with
        | some nul => .ok (acc ++ chunk.take nul)
        | none =>
          if nxt = 0 then .ok (acc ++ chunk)
          else stringBytesAux strings fuel (idx :: seen) (acc ++ chunk) nxt

/-- Embeds `PriusArchive.stringBytes` from a starting record index. -/
def stringBytes (strings : List Nat) (stringIndex : Nat) :
    Except StrErr (List Nat) :=
  stringBytesAux strings (strings.length + 1) [] [] stringIndex

theorem chunksOfAux_congr : ∀ (fuel fuel2 : Nat) (text : List Nat),
    text.length ≤ fuel → text.length ≤ fuel2 →
    chunksOfAux fuel text = chunksOfAux fuel2 text := by
  intro fuel
  induction fuel with
  | zero =>
    intro fuel2 text h1 _
    have : text = [] := List.length_eq_zero.mp (Nat.le_zero.mp h1)
    subst this
    cases fuel2 <;> rfl
  | succ n ih =>
    intro fuel2 text h1 h2
    cases text with
    | nil => cases fuel2 <;> rfl
    | cons b rest =>
      cases fuel2 with
      | zero => simp at h2
      | succ m =>
        rw [chunksOfAux, chunksOfAux]
        congr 1
        apply ih
        · simp only [List.length_drop, STRING_PAYLOAD_SIZE]
          simp at h1 ⊢
          omega
        · simp only [List.length_drop, STRING_PAYLOAD_SIZE]
          simp at h2 ⊢
          omega

theorem chunksOf_cons (text : List Nat) (h : text ≠ []) :
    chunksOf text = text.take STRING_PAYLOAD_SIZE ::
      chunksOf (text.drop STRING_PAYLOAD_SIZE) := by
  cases text with
  | nil => exact absurd rfl h
  | cons b rest =>
    rw [chunksOf, chunksOf]
    rw [show (b :: rest).length = rest.length + 1 from rfl, chunksOfAux]
    congr 1
    apply chunksOfAux_congr
    · simp only [List.length_drop, STRING_PAYLOAD_SIZE, List.length_cons]
      omega
    · exact le_refl _

theorem chunksOf_nil : chunksOf [] = [] := rfl

theorem lor_high_extract (a : Nat) (h : a < 2147483648) :
    (a ||| 0x80000000) &&& 0x7fffffff = a := by
  have h31 : (0x7fffffff : Nat) = 2 ^ 31 - 1 := by norm_num
  have e1 : (a ||| 0x80000000) &&& 0x7fffffff =
      (a &&& 0x7fffffff) ||| (0x80000000 &&& 0x7fffffff) := by
    apply Nat.eq_of_testBit_eq
    intro i
    simp [Nat.testBit_land, Nat.testBit_lor, Bool.and_or_distrib_right]
  rw [e1, h31, Nat.and_pow_two_sub_one_eq_mod, Nat.and_pow_two_sub_one_eq_mod]
  norm_num [Nat.mod_eq_of_lt h]

theorem lor_high_lt (a : Nat) (h : a < 2147483648) :
    (a ||| 0x80000000) < 4294967296 := by
  have h32 : (4294967296 : Nat) = 2 ^ 32 := by norm_num
  rw [h32]
  exact Nat.or_lt_two_pow (by omega) (by norm_num)

theorem getD_drop (b : List Nat) (off k : Nat) :
    (b.drop off).getD k 0 = b.getD (off + k) 0 := by
  simp [List.getD_eq_getElem?_getD, List.getElem?_drop]

theorem readU32LE_drop (b : List Nat) (off : Nat) :
    readU32LE (b.drop off) 0 = readU32LE b off := by
  simp [readU32LE, getD_drop, Nat.zero_add]

theorem readU32LE_writeU32LE_append (h : Nat) (rest : List Nat)
    (hlt : h < 4294967296) :
    readU32LE (writeU32LE h ++ rest) 0 = h := by
  simp [readU32LE, writeU32LE, List.getD]
  omega

theorem join_length_of_uniform (rs : List (List Nat)) (n : Nat)
    (h : ∀ r ∈ rs, r.length = n) : rs.flatten.length = n * rs.length := by
  induction rs with
  | nil => simp
  | cons r rest ih =>
    simp only [List.flatten_cons, List.length_append, List.length_cons]
    rw [h r (List.mem_cons_self _ _), ih (fun x hx => h x (List.mem_cons_of_mem _ hx))]
    ring

theorem buildRecords_shift : ∀ (cs : List (List Nat)) (f i : Nat),
    buildRecords cs f i = buildRecords cs (f + i) 0
  | [], _, _ => rfl
  | c :: rest, f, i => by
    rw [buildRecords, buildRecords]
    simp only [Nat.add_zero, Nat.zero_add]
    rw [buildRecords_shift rest f (i + 1), buildRecords_shift rest (f + i) 1]
    rw [show f + (i + 1) = f + i + 1 from by omega]

theorem stringRecord_length (nxt : Nat) (chunk : List Nat)
    (h : chunk.length ≤ STRING_PAYLOAD_SIZE) :
    (stringRecord nxt chunk).length = STRING_RECORD_SIZE := by
  simp only [stringRecord, List.length_append, List.length_replicate,
    writeU32LE_length, STRING_PAYLOAD_SIZE, STRING_RECORD_SIZE] at h ⊢
  omega

theorem firstNul_eq_none (l : List Nat) (h : ∀ b ∈ l, b ≠ 0) :
    firstNul l = none := by
  induction l with
  | nil => rfl
  | cons b rest ih =>
    rw [firstNul, if_neg (h b (List.mem_cons_self _ _))]
    rw [ih (fun x hx => h x (List.mem_cons_of_mem _ hx))]
    rfl

theorem firstNul_append_zero (l : List Nat) (h : ∀ b ∈ l, b ≠ 0)
    (rest : List Nat) :
    firstNul (l ++ 0 :: rest) = some l.length := by
  induction l with
  | nil => simp [firstNul]
  | cons b bs ih =>
    rw [List.cons_append, firstNul, if_neg (h b (List.mem_cons_self _ _))]
    rw [ih (fun x hx => h x (List.mem_cons_of_mem _ hx))]
    simp

/-- The chain walk over a table whose suffix at record `s` holds exactly the
records built for the chunks of `text` returns `acc ++ text`. -/
theorem stringBytesAux_built : ∀ (fuel : Nat) (text T seen acc : List Nat)
    (s : Nat), text ≠ [] → (∀ b ∈ text, b ≠ 0) →
    s + (chunksOf text).length < 2 ^ 31 →
    T.drop (s * STRING_RECORD_SIZE) = (buildRecords (chunksOf text) s 0).flatten →
    (∀ x ∈ seen, x < s) →
    (chunksOf text).length < fuel →
    stringBytesAux T fuel seen acc s = .ok (acc ++ text) := by
  intro fuel
  induction fuel with
  | zero =>
    intro text T seen acc s _ _ _ _ _ hfuel
    omega
  | succ n ih =>
    intro text T seen acc s hne hnul hfit hT hseen hfuel
    have hs_not : s ∉ seen := fun hc => absurd (hseen s hc) (lt_irrefl s)
    set c0 := text.take STRING_PAYLOAD_SIZE with hc0
    set trest := text.drop STRING_PAYLOAD_SIZE with htrest
    have hchunks : chunksOf text = c0 :: chunksOf trest := chunksOf_cons text hne
    have hc0le : c0.length ≤ STRING_PAYLOAD_SIZE := by
      simp [hc0, List.length_take]
    by_cases hlast : trest = []
    · -- single (final) chunk: the record links to 0 and the text is under 61 bytes
      have hlen60 : text.length ≤ STRING_PAYLOAD_SIZE := by
        have hd := List.length_drop STRING_PAYLOAD_SIZE text
        rw [← htrest, hlast] at hd
        simp at hd
        omega
      have hc0text : c0 = text := by
        rw [hc0, List.take_of_length_le hlen60]
      have hrecs : buildRecords (chunksOf text) s 0 = [stringRecord 0 text] := by
        rw [hchunks, hlast, chunksOf_nil]
        simp [buildRecords, hc0text]
      set payload := text ++ List.replicate (STRING_PAYLOAD_SIZE - text.length) 0
        with hpayload
      have hpaylen : payload.length = STRING_PAYLOAD_SIZE := by
        simp only [hpayload, List.length_append, List.length_replicate]
        omega
      have hTs : T.drop (s * STRING_RECORD_SIZE) =
          writeU32LE (0 ||| 0x80000000) ++ payload := by
        rw [hT, hrecs]
        simp [stringRecord, hpayload]
      have hTlen : ¬ (T.length < s * STRING_RECORD_SIZE + STRING_RECORD_SIZE) := by
        have h1 : (T.drop (s * STRING_RECORD_SIZE)).length =
            T.length - s * STRING_RECORD_SIZE := List.length_drop _ _
        rw [hTs] at h1
        simp only [List.length_append, writeU32LE_length, hpaylen] at h1
        simp only [STRING_RECORD_SIZE, STRING_PAYLOAD_SIZE] at h1 ⊢
        omega
      have hheader : readU32LE T (s * STRING_RECORD_SIZE) = (0 ||| 0x80000000) := by
        rw [← readU32LE_drop, hTs,
          readU32LE_writeU32LE_append _ _ (lor_high_lt 0 (by norm_num))]
      have hchunk : (T.drop (s * STRING_RECORD_SIZE + 4)).take STRING_PAYLOAD_SIZE
          = payload := by
        have hdd : T.drop (s * STRING_RECORD_SIZE + 4) =
            (T.drop (s * STRING_RECORD_SIZE)).drop 4 := by
          rw [List.drop_drop]
        rw [hdd, hTs]
        rw [show (writeU32LE (0 ||| 0x80000000) ++ payload).drop 4 = payload from by
          rw [← writeU32LE_length (0 ||| 0x80000000), List.drop_left]]
        rw [← hpaylen, List.take_length]
      rw [stringBytesAux, if_neg hs_not, if_neg hTlen]
      simp only [hheader, hchunk, lor_high_extract 0 (by norm_num)]
      by_cases hfull : text.length = STRING_PAYLOAD_SIZE
      · have hpad : payload = text := by
          rw [hpayload, hfull]
          simp
        rw [hpad, firstNul_eq_none text hnul]
        simp
      · have hfn : firstNul payload = some text.length := by
          rw [hpayload, show STRING_PAYLOAD_SIZE - text.length =
            (STRING_PAYLOAD_SIZE - text.length - 1) + 1 from by omega,
            List.replicate_succ]
          exact firstNul_append_zero text hnul _
        rw [hfn]
        show Except.ok (acc ++ payload.take text.length) = Except.ok (acc ++ text)
        rw [hpayload, List.take_left]
    · -- a full 60-byte chunk followed by more chunks
      have hlen60 : STRING_PAYLOAD_SIZE < text.length := by
        rcases Nat.lt_or_ge STRING_PAYLOAD_SIZE text.length with h | h
        · exact h
        · exact absurd (htrest ▸ List.drop_eq_nil_of_le h) hlast
      have hc0len : c0.length = STRING_PAYLOAD_SIZE := by
        rw [hc0, List.length_take]
        omega
      have hrestne : ¬ (chunksOf trest).isEmpty := by
        rw [chunksOf_cons trest hlast]
        simp
      have hrecs : buildRecords (chunksOf text) s 0 =
          stringRecord (s + 1) c0 :: buildRecords (chunksOf trest) s 1 := by
        rw [hchunks, buildRecords, if_neg (by simpa using hrestne)]
      have hpad : c0 ++ List.replicate (STRING_PAYLOAD_SIZE - c0.length) 0 = c0 := by
        rw [hc0len]
        simp
      have hrec_eq : stringRecord (s + 1) c0 =
          writeU32LE ((s + 1) ||| 0x80000000) ++ c0 := by
        rw [stringRecord, hpad]
      set joinRest := (buildRecords (chunksOf trest) s 1).flatten with hjoin
      have hTs : T.drop (s * STRING_RECORD_SIZE) =
          writeU32LE ((s + 1) ||| 0x80000000) ++ (c0 ++ joinRest) := by
        rw [hT, hrecs, List.flatten_cons, hrec_eq, List.append_assoc]
      have hnextlt : s + 1 < 2147483648 := by
        rw [hchunks] at hfit
        simp only [List.length_cons] at hfit
        omega
      have hTlen : ¬ (T.length < s * STRING_RECORD_SIZE + STRING_RECORD_SIZE) := by
        have h1 : (T.drop (s * STRING_RECORD_SIZE)).length =
            T.length - s * STRING_RECORD_SIZE := List.length_drop _ _
        rw [hTs] at h1
        simp only [List.length_append, writeU32LE_length, hc0len] at h1
        simp only [STRING_RECORD_SIZE, STRING_PAYLOAD_SIZE] at h1 ⊢
        omega
      have hheader : readU32LE T (s * STRING_RECORD_SIZE) =
          ((s + 1) ||| 0x80000000) := by
        rw [← readU32LE_drop, hTs,
          readU32LE_writeU32LE_append _ _ (lor_high_lt _ hnextlt)]
      have hchunk : (T.drop (s * STRING_RECORD_SIZE + 4)).take STRING_PAYLOAD_SIZE
          = c0 := by
        have hdd : T.drop (s * STRING_RECORD_SIZE + 4) =
            (T.drop (s * STRING_RECORD_SIZE)).drop 4 := by
          rw [List.drop_drop]
        rw [hdd, hTs]
        rw [show (writeU32LE ((s + 1) ||| 0x80000000) ++ (c0 ++ joinRest)).drop 4
            = c0 ++ joinRest from by
          rw [← writeU32LE_length ((s + 1) ||| 0x80000000), List.drop_left]]
        rw [← hc0len, List.take_left]
      rw [stringBytesAux, if_neg hs_not, if_neg hTlen]
      simp only [hheader, hchunk, lor_high_extract _ hnextlt]
      have hnonul : firstNul c0 = none :=
        firstNul_eq_none _ (fun b hb => hnul b (List.mem_of_mem_take hb))
      rw [hnonul]
      rw [if_neg (by omega)]
      have hdrop_next : T.drop ((s + 1) * STRING_RECORD_SIZE) =
          (buildRecords (chunksOf trest) (s + 1) 0).flatten := by
        have hdd : T.drop ((s + 1) * STRING_RECORD_SIZE) =
            (T.drop (s * STRING_RECORD_SIZE)).drop STRING_RECORD_SIZE := by
          rw [List.drop_drop]
          congr 1
          ring
        have hlen64 : (writeU32LE ((s + 1) ||| 0x80000000) ++ c0).length =
            STRING_RECORD_SIZE := by
          simp only [List.length_append, writeU32LE_length, hc0len]
          rfl
        rw [hdd, hTs, ← List.append_assoc, ← hlen64, List.drop_left, hjoin,
          buildRecords_shift]
      have happly := ih trest T (s :: seen) (acc ++ c0) (s + 1) hlast
        (fun b hb => hnul b (List.mem_of_mem_drop hb))
        (by rw [hchunks] at hfit; simp only [List.length_cons] at hfit; omega)
        hdrop_next
        (fun x hx => by
          rcases List.mem_cons.mp hx with h | h
          · omega
          · exact Nat.lt_succ_of_lt (hseen x h))
        (by rw [hchunks] at hfuel; simp only [List.length_cons] at hfuel; omega)
      rw [happly, List.append_assoc, hc0, htrest, List.take_append_drop]

theorem buildRecords_length : ∀ (cs : List (List Nat)) (f i : Nat),
    (buildRecords cs f i).length = cs.length
  | [], _, _ => rfl
  | c :: rest, f, i => by
    rw [buildRecords, List.length_cons, List.length_cons,
      buildRecords_length rest f (i + 1)]

theorem mem_buildRecords : ∀ (cs : List (List Nat)) (f i : Nat) (r : List Nat),
    r ∈ buildRecords cs f i → ∃ nxt c, r = stringRecord nxt c
  | [], _, _, r, hr => absurd hr (List.not_mem_nil r)
  | c :: rest, f, i, r, hr => by
    rw [buildRecords] at hr
    rcases List.mem_cons.mp hr with h | h
    · exact ⟨_, _, h⟩
    · exact mem_buildRecords rest f (i + 1) r h

theorem stringRecord_pos (nxt : Nat) (c : List Nat) :
    1 ≤ (stringRecord nxt c).length := by
  simp only [stringRecord, List.length_append, writeU32LE_length]
  omega

theorem flatten_length_ge : ∀ (rs : List (List Nat)),
    (∀ r ∈ rs, 1 ≤ r.length) → rs.length ≤ rs.flatten.length
  | [], _ => le_refl 0
  | r :: rest, h => by
    rw [List.length_cons, List.flatten_cons, List.length_append]
    have h1 := h r (List.mem_cons_self _ _)
    have h2 := flatten_length_ge rest (fun x hx => h x (List.mem_cons_of_mem _ hx))
    omega

/-- C8: for every non-empty NUL-free byte string, adding it to the string
table builder and then decoding the returned first-record index against the
built table yields the original byte string. The hypotheses say the builder
state is well-formed (64-byte records), the key is not already cached, and
the record indices fit in the 31-bit next-pointer field. -/
theorem stringTable_roundtrip (st : StringTableBuilder) (text cacheKey : List Nat)
    (hrec : ∀ r ∈ st.records, r.length = STRING_RECORD_SIZE)
    (hcache : lookupCache st.cache cacheKey = none)
    (hne : text ≠ []) (hnul : ∀ b ∈ text, b ≠ 0)
    (hfit : st.records.length + (chunksOf text).length < 2 ^ 31) :
    stringBytes (st.add text cacheKey).1.build (st.add text cacheKey).2 =
      Except.ok text := by
  have hie : ¬ text.isEmpty := by
    cases text with
    | nil => exact absurd rfl hne
    | cons b rest => simp
  rw [StringTableBuilder.add, if_neg (by simpa using hie), hcache]
  simp only [StringTableBuilder.build]
  set n := st.records.length with hn
  set T := (st.records ++ buildRecords (chunksOf text) n 0).flatten with hTdef
  have hpre : st.records.flatten.length = n * STRING_RECORD_SIZE := by
    rw [join_length_of_uniform st.records STRING_RECORD_SIZE hrec]
    ring
  have hsplit : T = st.records.flatten ++ (buildRecords (chunksOf text) n 0).flatten := by
    rw [hTdef, List.flatten_append]
  have hdrop : T.drop (n * STRING_RECORD_SIZE) =
      (buildRecords (chunksOf text) n 0).flatten := by
    rw [hsplit, ← hpre, List.drop_left]
  have hcnt : (chunksOf text).length < T.length + 1 := by
    have h1 : (buildRecords (chunksOf text) n 0).length ≤
        (buildRecords (chunksOf text) n 0).flatten.length := by
      apply flatten_length_ge
      intro r hr
      obtain ⟨nxt, c, rfl⟩ := mem_buildRecords _ _ _ r hr
      exact stringRecord_pos nxt c
    rw [buildRecords_length] at h1
    have h2 : (buildRecords (chunksOf text) n 0).flatten.length ≤ T.length := by
      rw [hsplit, List.length_append]
      omega
    omega
  rw [stringBytes]
  rw [stringBytesAux_built (T.length + 1) text T [] [] n hne hnul (by omega) hdrop
    (fun x hx => absurd hx (List.not_mem_nil x)) hcnt]
  rfl

/-- C8 witness: the path bytes of `"ab"` added to a fresh builder decode back. -/
theorem stringTable_roundtrip_witness :
    stringBytes ((StringTableBuilder.init.add [97, 98] [97, 98]).1.build)
      ((StringTableBuilder.init.add [97, 98] [97, 98]).2) = Except.ok [97, 98] := by
  apply stringTable_roundtrip
  · intro r hr
    simp only [StringTableBuilder.init] at hr
    rcases List.mem_cons.mp hr with h | h
    · subst h; rfl
    · exact absurd h (List.not_mem_nil r)
  · rfl
  · simp
  · decide
  · have : chunksOf [97, 98] = [[97, 98]] := rfl
    rw [this]
    simp [StringTableBuilder.init]

/-! ## Repack pipeline: FAT/start-block accounting and meta records
(`repack` phases 3 and 4 in `src/repack/repack_engine.ts`) -/

/-- Block size of the data file. -/
def DAT_BLOCK_SIZE : Nat := 0x200

/-- A 16-byte meta record as a tuple of its four u32 fields. -/
structure MetaRecord where
  flags : Nat
  size : Nat
  startBlock : Nat
  extra : Nat
  deriving DecidableEq, Repr

/-- The FAT entries pushed for one file's block range: each entry points to
the next block except the last, which holds `0xFFFF_FFFF` (the inner `for b`
loop of repack phase 3). -/
def fatEntriesFor (currentBlock blocksNeeded : Nat) : List Nat :=
  (List.range blocksNeeded).map fun b =>
    if b < blocksNeeded - 1 then currentBlock + b + 1 else 0xffffffff

/-- Phase-3 streaming state: the next free block, the FAT entry list (seeded
with the reserved entry 0), and the per-original-index start block and
wrapped size slots. -/
structure Phase3State where
  currentBlock : Nat
  fatEntries : List Nat
  startBlocks : List (Option Nat)
  wrappedSizes : List (Option Nat)

/-- Embeds the phase-3 handling of one completed compression result
`(originalIndex, wrappedSize)`: record the start block and wrapped size in
the original-order slots, append that file's FAT entries, and advance the
block cursor. -/
def processResult (st : Phase3State) (result : Nat × Nat) : Phase3State :=
  let blocksNeeded := (result.2 + DAT_BLOCK_SIZE - 1) / DAT_BLOCK_SIZE
  { currentBlock := st.currentBlock + blocksNeeded,
    fatEntries := st.fatEntries ++ fatEntriesFor st.currentBlock blocksNeeded,
    startBlocks := st.startBlocks.set result.1 (some st.currentBlock),
    wrappedSizes := st.wrappedSizes.set result.1 (some result.2) }

/-- The state at the start of phase 3: block 0 reserved, FAT seeded with `[0]`. -/
def initialPhase3State (n : Nat) : Phase3State :=
  { currentBlock := 1, fatEntries := [0],
    startBlocks := List.replicate n none, wrappedSizes := List.replicate n none }

/-- Embeds phase 3: fold the completed results (in arrival order) over the
streaming state. -/
def runPhase3 (n : Nat) (results : List (Nat × Nat)) : Phase3State :=
  results.foldl processResult (initialPhase3State n)

/-- Embeds phase 4: one meta record per file,
`(flags=1, size=wrapped_size[i], start_block=start_block[i], extra=0)`. -/
def phase4Meta (st : Phase3State) : List MetaRecord :=
  (List.range st.startBlocks.length).map fun i =>
    { flags := 1, size := (st.wrappedSizes.getD i none).getD 0,
      startBlock := (st.startBlocks.getD i none).getD 0, extra := 0 }

/-- The claim's FAT chain shape: `nb` consecutive entries from `sb`, each
pointing at the next block, the last holding the end-of-chain marker. -/
def ChainOk (fat : List Nat) (sb nb : Nat) : Prop :=
  (∀ b, b + 1 < nb → fat.getD (sb + b) 0 = sb + b + 1) ∧
    fat.getD (sb + nb - 1) 0 = 0xffffffff

theorem fatEntriesFor_length (cb nb : Nat) : (fatEntriesFor cb nb).length = nb := by
  simp [fatEntriesFor]

theorem getD_append_lt (l l2 : List Nat) (i d : Nat) (h : i < l.length) :
    (l ++ l2).getD i d = l.getD i d := by
  simp [List.getD_eq_getElem?_getD, List.getElem?_append, h]

theorem getD_append_ge (l l2 : List Nat) (i d : Nat) (h : l.length ≤ i) :
    (l ++ l2).getD i d = l2.getD (i - l.length) d := by
  simp [List.getD_eq_getElem?_getD, List.getElem?_append, Nat.not_lt.mpr h]

theorem getD_range_map {α : Type} (n i : Nat) (f : Nat → α) (d : α) (h : i < n) :
    (((List.range n).map f).getD i d) = f i := by
  simp [List.getD_eq_getElem?_getD, List.getElem?_map, List.getElem?_range h]

theorem chainOk_append (fat more : List Nat) (sb nb : Nat) (hnb : 0 < nb)
    (hbound : sb + nb ≤ fat.length) (h : ChainOk fat sb nb) :
    ChainOk (fat ++ more) sb nb := by
  refine ⟨fun b hb => ?_, ?_⟩
  · rw [getD_append_lt _ _ _ _ (by omega)]
    exact h.1 b hb
  · rw [getD_append_lt _ _ _ _ (by omega)]
    exact h.2

/-- One phase-3 step establishes the chain for the processed file. -/
theorem processResult_chain (st : Phase3State) (i s : Nat)
    (hlen : st.fatEntries.length = st.currentBlock) (hpos : 0 < s) :
    let nb := (s + DAT_BLOCK_SIZE - 1) / DAT_BLOCK_SIZE
    ChainOk (processResult st (i, s)).fatEntries st.currentBlock nb ∧
      st.currentBlock + nb ≤ (processResult st (i, s)).fatEntries.length := by
  intro nb
  have hnb : 0 < nb := by
    show 0 < (s + DAT_BLOCK_SIZE - 1) / DAT_BLOCK_SIZE
    rw [DAT_BLOCK_SIZE]
    omega
  have hflen : (processResult st (i, s)).fatEntries.length =
      st.currentBlock + nb := by
    show (st.fatEntries ++ fatEntriesFor st.currentBlock nb).length = _
    rw [List.length_append, fatEntriesFor_length, hlen]
  refine ⟨⟨fun b hb => ?_, ?_⟩, by omega⟩
  · show (st.fatEntries ++ fatEntriesFor st.currentBlock nb).getD
      (st.currentBlock + b) 0 = st.currentBlock + b + 1
    rw [getD_append_ge _ _ _ _ (by omega), hlen]
    rw [show st.currentBlock + b - st.currentBlock = b from by omega]
    rw [fatEntriesFor, getD_range_map _ _ _ _ (by omega), if_pos (by omega)]
  · show (st.fatEntries ++ fatEntriesFor st.currentBlock nb).getD
      (st.currentBlock + nb - 1) 0 = 0xffffffff
    rw [getD_append_ge _ _ _ _ (by omega), hlen]
    rw [show st.currentBlock + nb - 1 - st.currentBlock = nb - 1 from by omega]
    rw [fatEntriesFor, getD_range_map _ _ _ _ (by omega), if_neg (by omega)]

/-- Fold invariant for phase 3: facts established for already-processed files
persist, and each file in the remaining result list gets its slot and chain. -/
theorem phase3_fold_inv : ∀ (rs : List (Nat × Nat)) (st : Phase3State)
    (ws : List Nat),
    st.fatEntries.length = st.currentBlock →
    1 ≤ st.currentBlock →
    st.startBlocks.length = ws.length →
    st.wrappedSizes.length = ws.length →
    (∀ p ∈ rs, p.1 < ws.length) →
    (∀ p ∈ rs, p.2 = ws.getD p.1 0) →
    (∀ p ∈ rs, 0 < p.2) →
    (rs.map Prod.fst).Nodup →
    (rs.foldl processResult st).fatEntries.length =
        (rs.foldl processResult st).currentBlock ∧
    1 ≤ (rs.foldl processResult st).currentBlock ∧
    (rs.foldl processResult st).startBlocks.length = ws.length ∧
    (rs.foldl processResult st).wrappedSizes.length = ws.length ∧
    st.fatEntries.length ≤ (rs.foldl processResult st).fatEntries.length ∧
    (∃ tail, (rs.foldl processResult st).fatEntries = st.fatEntries ++ tail) ∧
    (∀ i, i ∉ rs.map Prod.fst →
      (rs.foldl processResult st).startBlocks.getD i none =
        st.startBlocks.getD i none ∧
      (rs.foldl processResult st).wrappedSizes.getD i none =
        st.wrappedSizes.getD i none) ∧
    (∀ sb nb, 0 < nb → sb + nb ≤ st.fatEntries.length →
      ChainOk st.fatEntries sb nb →
      ChainOk (rs.foldl processResult st).fatEntries sb nb) ∧
    (∀ p ∈ rs, ∃ sb,
      (rs.foldl processResult st).startBlocks.getD p.1 none = some sb ∧
      (rs.foldl processResult st).wrappedSizes.getD p.1 none = some p.2 ∧
      ChainOk (rs.foldl processResult st).fatEntries sb
        ((p.2 + DAT_BLOCK_SIZE - 1) / DAT_BLOCK_SIZE))
  | [], st, ws => by
    intro h1 h2 h3 h4 _ _ _ _
    refine ⟨h1, h2, h3, h4, le_refl _, ⟨[], by simp⟩, fun i _ => ⟨rfl, rfl⟩,
      fun sb nb _ _ h => h, fun p hp => absurd hp (List.not_mem_nil p)⟩
  | (i, s) :: rest, st, ws => by
    intro h1 h2 h3 h4 hidx hsz hpos hnodup
    have hilt : i < ws.length := hidx (i, s) (List.mem_cons_self _ _)
    have hspos : 0 < s := hpos (i, s) (List.mem_cons_self _ _)
    obtain ⟨hchain_new, hbound_new⟩ := processResult_chain st i s h1 hspos
    have hnodup_rest : (rest.map Prod.fst).Nodup := by
      rw [List.map_cons] at hnodup
      exact hnodup.of_cons
    have hi_not_rest : i ∉ rest.map Prod.fst := by
      rw [List.map_cons] at hnodup
      exact (List.nodup_cons.mp hnodup).1
    set st1 := processResult st (i, s) with hst1
    have h1n : st1.fatEntries.length = st1.currentBlock := by
      show (st.fatEntries ++ fatEntriesFor st.currentBlock _).length = _
      rw [List.length_append, fatEntriesFor_length, h1]
      rfl
    have h2n : 1 ≤ st1.currentBlock := by
      show 1 ≤ st.currentBlock + ((s + DAT_BLOCK_SIZE - 1) / DAT_BLOCK_SIZE)
      exact le_trans h2 (Nat.le_add_right _ _)
    have h3n : st1.startBlocks.length = ws.length := by
      show (st.startBlocks.set i (some st.currentBlock)).length = _
      rw [List.length_set, h3]
    have h4n : st1.wrappedSizes.length = ws.length := by
      show (st.wrappedSizes.set i (some s)).length = _
      rw [List.length_set, h4]
    have ih := phase3_fold_inv rest st1 ws h1n h2n h3n h4n
      (fun p hp => hidx p (List.mem_cons_of_mem _ hp))
      (fun p hp => hsz p (List.mem_cons_of_mem _ hp))
      (fun p hp => hpos p (List.mem_cons_of_mem _ hp)) hnodup_rest
    obtain ⟨i1, i2, i3, i4, i5, itail, i6, i7, i8⟩ := ih
    have hfoldeq : ((i, s) :: rest).foldl processResult st =
        rest.foldl processResult st1 := rfl
    rw [hfoldeq]
    have hgrow : st.fatEntries.length ≤ st1.fatEntries.length := by
      show st.fatEntries.length ≤
        (st.fatEntries ++ fatEntriesFor st.currentBlock _).length
      rw [List.length_append]
      omega
    refine ⟨i1, i2, i3, i4, le_trans hgrow i5, ?_, ?_, ?_, ?_⟩
    · obtain ⟨t, ht⟩ := itail
      refine ⟨fatEntriesFor st.currentBlock ((s + DAT_BLOCK_SIZE - 1) / DAT_BLOCK_SIZE)
        ++ t, ?_⟩
      rw [ht, ← List.append_assoc]
      rfl
    · intro j hj
      have hjne : j ∉ rest.map Prod.fst := by
        intro hc
        exact hj (List.mem_cons_of_mem _ hc)
      have hjnei : j ≠ i := by
        intro hc
        subst hc
        exact hj (List.mem_cons_self _ _)
      obtain ⟨e1, e2⟩ := i6 j hjne
      constructor
      · rw [e1]
        show (st.startBlocks.set i (some st.currentBlock)).getD j none = _
        simp [List.getD_eq_getElem?_getD, List.getElem?_set_ne (Ne.symm hjnei)]
      · rw [e2]
        show (st.wrappedSizes.set i (some s)).getD j none = _
        simp [List.getD_eq_getElem?_getD, List.getElem?_set_ne (Ne.symm hjnei)]
    · intro sb nb hnb hbound hchain
      apply i7 sb nb hnb (le_trans hbound hgrow)
      exact chainOk_append _ _ _ _ hnb hbound hchain
    · intro p hp
      rcases List.mem_cons.mp hp with hpe | hpr
      · subst hpe
        obtain ⟨e1, e2⟩ := i6 i hi_not_rest
        refine ⟨st.currentBlock, ?_, ?_, ?_⟩
        · rw [e1]
          show (st.startBlocks.set i (some st.currentBlock)).getD i none = _
          simp [List.getD_eq_getElem?_getD, List.getElem?_set_self, h3 ▸ hilt]
        · rw [e2]
          show (st.wrappedSizes.set i (some s)).getD i none = _
          simp [List.getD_eq_getElem?_getD, List.getElem?_set_self, h4 ▸ hilt]
        · apply i7 st.currentBlock _ _ hbound_new hchain_new
          show 0 < (s + DAT_BLOCK_SIZE - 1) / DAT_BLOCK_SIZE
          rw [DAT_BLOCK_SIZE]
          omega
      · exact i8 p hpr

/-- C3: for every archive produced by the repack pipeline from `n` input
files (whatever order the compression results arrive in): FAT entry 0 is 0;
for each file `i` the FAT chain from its recorded start block consists of
exactly `ceil(wrapped_size/512)` consecutive entries each pointing at the
next block except the last which holds `0xFFFF_FFFF`; and meta record `i` is
`(flags=1, size=wrapped_size_i, start_block=start_block_i, extra=0)`. -/
theorem repack_fat_meta_invariant (n : Nat) (ws : List Nat)
    (results : List (Nat × Nat))
    (hws : ws.length = n)
    (hperm : (results.map Prod.fst).Perm (List.range n))
    (hsz : ∀ p ∈ results, p.2 = ws.getD p.1 0)
    (hpos : ∀ s ∈ ws, 0 < s) :
    (runPhase3 n results).fatEntries.getD 0 0 = 0 ∧
    (∀ i, i < n → ∃ sb,
      (runPhase3 n results).startBlocks.getD i none = some sb ∧
      ChainOk (runPhase3 n results).fatEntries sb
        ((ws.getD i 0 + DAT_BLOCK_SIZE - 1) / DAT_BLOCK_SIZE) ∧
      (phase4Meta (runPhase3 n results)).getD i
          ⟨0, 0, 0, 0⟩ =
        ⟨1, ws.getD i 0, sb, 0⟩) := by
  have hnodup : (results.map Prod.fst).Nodup :=
    hperm.nodup_iff.mpr (List.nodup_range n)
  have hidx : ∀ p ∈ results, p.1 < ws.length := by
    intro p hp
    have : p.1 ∈ results.map Prod.fst := List.mem_map_of_mem _ hp
    have : p.1 ∈ List.range n := hperm.mem_iff.mp this
    rw [hws]
    exact List.mem_range.mp this
  have hpos2 : ∀ p ∈ results, 0 < p.2 := by
    intro p hp
    rw [hsz p hp]
    apply hpos
    rw [List.getD_eq_getElem ws 0 (hidx p hp)]
    exact List.getElem_mem (hidx p hp)
  have hinv := phase3_fold_inv results (initialPhase3State n) ws
    (by rfl) (by rfl)
    (by simp [initialPhase3State, hws]) (by simp [initialPhase3State, hws])
    hidx hsz hpos2 hnodup
  obtain ⟨i1, i2, i3, i4, i5, itail, i6, i7, i8⟩ := hinv
  constructor
  · obtain ⟨t, ht⟩ := itail
    rw [runPhase3, ht]
    rw [getD_append_lt _ _ _ _ (by simp [initialPhase3State])]
    rfl
  · intro i hi
    have hmem : i ∈ results.map Prod.fst := hperm.mem_iff.mpr
      (List.mem_range.mpr hi)
    obtain ⟨p, hp, hpi⟩ := List.mem_map.mp hmem
    obtain ⟨sb, e1, e2, e3⟩ := i8 p hp
    refine ⟨sb, by rw [← hpi]; exact e1, ?_, ?_⟩
    · rw [show ws.getD i 0 = p.2 from by rw [hsz p hp, hpi]]
      exact e3
    · have hlen : (runPhase3 n results).startBlocks.length = n := by
        rw [show (runPhase3 n results).startBlocks =
          (results.foldl processResult (initialPhase3State n)).startBlocks from rfl]
        rw [i3, hws]
      rw [phase4Meta, hlen, getD_range_map n i _ _ hi]
      rw [show (runPhase3 n results).wrappedSizes =
        (results.foldl processResult (initialPhase3State n)).wrappedSizes from rfl]
      rw [show (runPhase3 n results).startBlocks =
        (results.foldl processResult (initialPhase3State n)).startBlocks from rfl]
      rw [← hpi, e1, e2]
      rw [hsz p hp, hpi]
      simp

/-- C3 witness: two files of wrapped sizes 700 and 100 bytes whose
compression results arrive out of order. -/
theorem repack_fat_meta_invariant_witness :
    (runPhase3 2 [(1, 100), (0, 700)]).fatEntries.getD 0 0 = 0 ∧
    (∀ i, i < 2 → ∃ sb,
      (runPhase3 2 [(1, 100), (0, 700)]).startBlocks.getD i none = some sb ∧
      ChainOk (runPhase3 2 [(1, 100), (0, 700)]).fatEntries sb
        (([700, 100].getD i 0 + DAT_BLOCK_SIZE - 1) / DAT_BLOCK_SIZE) ∧
      (phase4Meta (runPhase3 2 [(1, 100), (0, 700)])).getD i ⟨0, 0, 0, 0⟩ =
        ⟨1, [700, 100].getD i 0, sb, 0⟩) :=
  repack_fat_meta_invariant 2 [700, 100] [(1, 100), (0, 700)]
    (by decide) (by decide) (by decide) (by decide)

/-! ## DAT/FAT payload reader (`PriusArchive.readRawMetaBytes`) -/

/-- Errors of the payload reader. -/
inductive DatErr where
  | invalidStartBlock : DatErr
  | shortRead : DatErr
  | endOfChain : DatErr
  | sizeMismatch : DatErr
  deriving DecidableEq, Repr

/-- The block-reading loop of `readRawMetaBytes`: per iteration read
`min(512, remaining)` bytes of the current block, stop when the remaining
count hits zero, otherwise consult the FAT to advance (erroring on the
end-of-chain marker). The countdown mirrors `for (i = 0; i < blockCount)`;
the post-loop `remaining !== 0` check is the fuel-0 case. -/
def readRawAux (fat : Nat → Nat) (datLen : Nat) (dat : Nat → Nat) :
    Nat → Nat → Nat → List Nat → Except DatErr (List Nat)
  | 0, remaining, _, acc =>
    if remaining ≠ 0 then .error .sizeMismatch else .ok acc
  | count + 1, remaining, block, acc =>
    let take := if remaining ≥ 0x200 then 0x200 else remaining
    if datLen < block * 0x200 + take then .error .shortRead
    else
      let acc2 := acc ++ (List.range take).map fun t => dat (block * 0x200 + t)
      let remaining2 := remaining - take
      if remaining2 = 0 then .ok acc2
      else
        let nxt := fat block
        if nxt = 0xffffffff then .error .endOfChain
        else readRawAux fat datLen dat count remaining2 nxt acc2

/-- Embeds `PriusArchive.readRawMetaBytes`: empty for size 0, reject the
end-of-chain marker as a start block, then run the block loop for
`ceil(size/512)` blocks. The data file is a byte store `dat` of length
`datLen`. -/
def readRawMetaBytes (fat : Nat → Nat) (datLen : Nat) (dat : Nat → Nat)
    (size startBlock : Nat) : Except DatErr (List Nat) :=
  if size = 0 then .ok []
  else if startBlock = 0xffffffff then .error .invalidStartBlock
  else readRawAux fat datLen dat ((size + 0x1ff) / 0x200) size startBlock []

/-- The `j`-th block of the FAT chain starting at `sb`. -/
def chainBlock (fat : Nat → Nat) (sb : Nat) : Nat → Nat
  | 0 => sb
  | j + 1 => fat (chainBlock fat sb j)

theorem chainBlock_shift (fat : Nat → Nat) (sb : Nat) :
    ∀ j, chainBlock fat (fat sb) j = chainBlock fat sb (j + 1)
  | 0 => rfl
  | j + 1 => by
    rw [chainBlock, chainBlock, chainBlock_shift fat sb j]

theorem readRawAux_congr : ∀ (count : Nat) (fat fat2 : Nat → Nat)
    (datLen : Nat) (dat : Nat → Nat) (remaining block : Nat) (acc : List Nat),
    remaining ≤ count * 0x200 →
    (∀ j, j + 1 < count →
      fat (chainBlock fat block j) = fat2 (chainBlock fat block j)) →
    readRawAux fat datLen dat count remaining block acc =
      readRawAux fat2 datLen dat count remaining block acc
  | 0, fat, fat2, datLen, dat, remaining, block, acc => by
    intro _ _
    rfl
  | count + 1, fat, fat2, datLen, dat, remaining, block, acc => by
    intro hrem hagree
    rw [readRawAux, readRawAux]
    by_cases hshort : datLen < block * 0x200 +
        (if remaining ≥ 0x200 then 0x200 else remaining)
    · rw [if_pos hshort, if_pos hshort]
    · rw [if_neg hshort, if_neg hshort]
      by_cases hdone : remaining - (if remaining ≥ 0x200 then 0x200 else remaining) = 0
      · rw [if_pos hdone, if_pos hdone]
      · rw [if_neg hdone, if_neg hdone]
        have htake : (if remaining ≥ 0x200 then 0x200 else remaining) = 0x200 := by
          by_cases h : remaining ≥ 0x200
          · rw [if_pos h]
          · rw [if_neg h] at hdone
            omega
        have hcount1 : 1 ≤ count := by
          rw [htake] at hdone
          by_contra hc
          push_neg at hc
          interval_cases count
          omega
        have hfb : fat block = fat2 block := by
          have := hagree 0 (by omega)
          simpa [chainBlock] using this
        rw [← hfb]
        by_cases heoc : fat block = 0xffffffff
        · rw [if_pos heoc, if_pos heoc]
        · rw [if_neg heoc, if_neg heoc]
          apply readRawAux_congr count fat fat2 datLen dat _ _ _
          · rw [htake] at hdone ⊢
            omega
          · intro j hj
            rw [chainBlock_shift]
            exact hagree (j + 1) (by omega)

theorem readRawAux_eoc : ∀ (count : Nat) (fat : Nat → Nat) (datLen : Nat)
    (dat : Nat → Nat) (remaining block : Nat) (acc : List Nat),
    remaining ≤ count * 0x200 →
    readRawAux fat datLen dat count remaining block acc =
      .error DatErr.endOfChain →
    ∃ j, j + 1 < count ∧ fat (chainBlock fat block j) = 0xffffffff
  | 0, fat, datLen, dat, remaining, block, acc => by
    intro _ hres
    rw [readRawAux] at hres
    split at hres <;> cases hres
  | count + 1, fat, datLen, dat, remaining, block, acc => by
    intro hrem hres
    rw [readRawAux] at hres
    by_cases hshort : datLen < block * 0x200 +
        (if remaining ≥ 0x200 then 0x200 else remaining)
    · rw [if_pos hshort] at hres
      cases hres
    · rw [if_neg hshort] at hres
      by_cases hdone : remaining - (if remaining ≥ 0x200 then 0x200 else remaining) = 0
      · rw [if_pos hdone] at hres
        cases hres
      · rw [if_neg hdone] at hres
        have htake : (if remaining ≥ 0x200 then 0x200 else remaining) = 0x200 := by
          by_cases h : remaining ≥ 0x200
          · rw [if_pos h]
          · rw [if_neg h] at hdone
            omega
        have hcount1 : 1 ≤ count := by
          rw [htake] at hdone
          by_contra hc
          push_neg at hc
          interval_cases count
          omega
        by_cases heoc : fat block = 0xffffffff
        · exact ⟨0, by omega, heoc⟩
        · rw [if_neg heoc] at hres
          obtain ⟨j, hj, hjeoc⟩ := readRawAux_eoc count fat datLen dat _ _ _
            (by rw [htake] at hdone ⊢; omega) hres
          refine ⟨j + 1, by omega, ?_⟩
          rw [← chainBlock_shift]
          exact hjeoc

/-- C10: the payload reader consults the FAT only to advance between blocks,
never on the final block of the chain: (1) the result is unchanged under any
modification of the FAT outside the first `ceil(size/512) - 1` chain entries
(in particular the final block's entry, so a chain not ending in 0xFFFFFFFF
reads the same), and (2) `UnexpectedEndOfChain` arises only when some
non-final chain entry holds 0xFFFFFFFF. -/
theorem readRaw_final_fat_entry_never_read (datLen size startBlock : Nat)
    (dat : Nat → Nat) :
    (∀ fat fat2 : Nat → Nat,
      (∀ j, j + 1 < (size + 0x1ff) / 0x200 →
        fat (chainBlock fat startBlock j) = fat2 (chainBlock fat startBlock j)) →
      readRawMetaBytes fat datLen dat size startBlock =
        readRawMetaBytes fat2 datLen dat size startBlock) ∧
    (∀ fat : Nat → Nat,
      readRawMetaBytes fat datLen dat size startBlock =
        .error DatErr.endOfChain →
      ∃ j, j + 1 < (size + 0x1ff) / 0x200 ∧
        fat (chainBlock fat startBlock j) = 0xffffffff) := by
  constructor
  · intro fat fat2 hagree
    rw [readRawMetaBytes, readRawMetaBytes]
    by_cases h0 : size = 0
    · rw [if_pos h0, if_pos h0]
    · rw [if_neg h0, if_neg h0]
      by_cases hsb : startBlock = 0xffffffff
      · rw [if_pos hsb, if_pos hsb]
      · rw [if_neg hsb, if_neg hsb]
        exact readRawAux_congr _ fat fat2 datLen dat size startBlock []
          (by omega) hagree
  · intro fat hres
    rw [readRawMetaBytes] at hres
    by_cases h0 : size = 0
    · rw [if_pos h0] at hres
      cases hres
    · rw [if_neg h0] at hres
      by_cases hsb : startBlock = 0xffffffff
      · rw [if_pos hsb] at hres
        cases hres
      · rw [if_neg hsb] at hres
        exact readRawAux_eoc _ fat datLen dat size startBlock [] (by omega) hres

/-- C10 witness: a two-block chain whose final block's FAT entry differs
between the two tables; the reads agree. -/
theorem readRaw_final_fat_entry_never_read_witness :
    readRawMetaBytes (fun b => if b = 1 then 2 else 0xffffffff) 2048
        (fun _ => 7) 700 1 =
      readRawMetaBytes (fun b => if b = 1 then 2 else 0) 2048
        (fun _ => 7) 700 1 :=
  (readRaw_final_fat_entry_never_read 2048 700 1 (fun _ => 7)).1
    (fun b => if b = 1 then 2 else 0xffffffff)
    (fun b => if b = 1 then 2 else 0)
    (by
      intro j hj
      have hj0 : j = 0 := by
        norm_num at hj
        omega
      subst hj0
      rfl)

/-! ## Patch pipeline control flow (`patchFiles` in `src/patch/patch_engine.ts`)

External effects (filesystem sizes, compression, write success, verify
mismatches) are oracle inputs; the model mirrors the early returns, the
preflight checks, the `datAppended`/`idxUpdated` flags, the
`rolledBack` variable and the catch-block rollback of `patchFiles`. -/

/-- The outcome fields of `PatchStats` returned by `patchFiles`. -/
structure PatchStats where
  patched : Nat
  notFound : Nat
  deduped : Nat
  errors : Nat
  wouldPatch : Option Nat
  rolledBack : Option Bool
  deriving DecidableEq, Repr

/-- Failure categories surfaced by `patchFiles`. -/
inductive PatchErr where
  | inconsistentArchive : PatchErr
  | prepareFailed : PatchErr
  | datAppendFailed : PatchErr
  | idxUpdateFailed : PatchErr
  | verificationFailed : PatchErr
  deriving DecidableEq, Repr

/-- Oracle for the external effects of one `patchFiles` run. -/
structure PatchOracle where
  patches : Nat
  notFound : Nat
  deduped : Nat
  dryRun : Bool
  datSize : Nat
  fatEntryCount : Nat
  fatSizeBytes : Nat
  prepareOk : Bool
  datAppendOk : Bool
  idxUpdateOk : Bool
  verifyErrors : Nat

/-- Observable outcome of one `patchFiles` run: the value returned or the
error thrown, whether the catch-block rollback ran, the `datAppended` and
`idxUpdated` flags, and whether any byte of either file was written. -/
structure PatchOutcome where
  result : Except PatchErr PatchStats
  rollbackRan : Bool
  datAppended : Bool
  idxUpdated : Bool
  anyWrite : Bool
  deriving Repr

/-- Embeds the control flow of `patchFiles`: empty target list and dry runs
return early; the preflight checks run in order and throw before any write;
phase-2 failures abort before touching any file; the commit phases set
`datAppended`/`idxUpdated`; any error after at least one completed phase
triggers rollback and rethrows the error (the `rolledBack = true` assignment
is followed by `throw e`, so the stats value never reaches the caller). -/
def patchFilesModel (o : PatchOracle) : PatchOutcome :=
  if o.patches = 0 then
    { result := .ok ⟨0, o.notFound, o.deduped, 0, none, none⟩,
      rollbackRan := false, datAppended := false, idxUpdated := false,
      anyWrite := false }
  else if o.dryRun then
    { result := .ok ⟨0, o.notFound, o.deduped, 0, some o.patches, none⟩,
      rollbackRan := false, datAppended := false, idxUpdated := false,
      anyWrite := false }
  else if o.datSize % DAT_BLOCK_SIZE ≠ 0 then
    { result := .error .inconsistentArchive, rollbackRan := false,
      datAppended := false, idxUpdated := false, anyWrite := false }
  else if o.datSize / DAT_BLOCK_SIZE ≠ o.fatEntryCount then
    { result := .error .inconsistentArchive, rollbackRan := false,
      datAppended := false, idxUpdated := false, anyWrite := false }
  else if o.fatSizeBytes ≠ o.fatEntryCount * 4 then
    { result := .error .inconsistentArchive, rollbackRan := false,
      datAppended := false, idxUpdated := false, anyWrite := false }
  else if ¬ o.prepareOk then
    { result := .error .prepareFailed, rollbackRan := false,
      datAppended := false, idxUpdated := false, anyWrite := false }
  else if ¬ o.datAppendOk then
    { result := .error .datAppendFailed, rollbackRan := false,
      datAppended := false, idxUpdated := false, anyWrite := true }
  else if ¬ o.idxUpdateOk then
    { result := .error .idxUpdateFailed, rollbackRan := true,
      datAppended := true, idxUpdated := false, anyWrite := true }
  else if o.verifyErrors ≠ 0 then
    { result := .error .verificationFailed, rollbackRan := true,
      datAppended := true, idxUpdated := true, anyWrite := true }
  else
    { result := .ok ⟨o.patches, o.notFound, o.deduped, 0, none, some false⟩,
      rollbackRan := false, datAppended := true, idxUpdated := true,
      anyWrite := true }

set_option maxHeartbeats 1000000 in
/-- C5 (code bug): whenever the pipeline performs a rollback, the outcome
reported to the caller is the rethrown error, never a `PatchStats`; and no
`PatchStats` the function ever returns carries `rolled_back = true`. The
claim (and the spec's "Rollback is reported as `rolled_back = true`") is
therefore not met: the `rolledBack = true` assignment in the catch block is
dead because `throw e` follows it. -/
theorem patch_rollback_never_reported (o : PatchOracle) :
    ((patchFilesModel o).rollbackRan = true →
      ∃ e, (patchFilesModel o).result = .error e) ∧
    (∀ stats, (patchFilesModel o).result = .ok stats →
      stats.rolledBack ≠ some true) := by
  rw [patchFilesModel]
  constructor
  · split_ifs <;> intro hrb <;>
      first
        | exact absurd hrb (by decide)
        | exact ⟨_, rfl⟩
  · split_ifs <;> intro stats hstats <;>
      first
        | (injection hstats with h2; subst h2; simp)
        | simp at hstats

/-- C5 witness: a run whose verify phase fails after both commit phases: the
rollback runs and the caller sees the thrown error, not a stats record. -/
theorem patch_rollback_never_reported_witness :
    (patchFilesModel ⟨1, 0, 0, false, 512, 1, 4, true, true, true, 1⟩).rollbackRan
        = true ∧
      ∃ e, (patchFilesModel
        ⟨1, 0, 0, false, 512, 1, 4, true, true, true, 1⟩).result =
          .error e :=
  ⟨rfl, (patch_rollback_never_reported
    ⟨1, 0, 0, false, 512, 1, 4, true, true, true, 1⟩).1 rfl⟩

/-- C9: with resolved targets and no dry run, the preflight rejects the run
with a fatal InconsistentArchive error whenever any of the three conditions
(`dat_size mod 512 == 0`, `dat_size / 512 == fat_entry_count`,
`fat channel size_bytes == fat_entry_count * 4`) fails, before any byte of
either file is written and without running rollback. -/
theorem patch_preflight_rejects (o : PatchOracle)
    (hp : o.patches ≠ 0) (hd : o.dryRun = false)
    (hbad : ¬ (o.datSize % DAT_BLOCK_SIZE = 0 ∧
      o.datSize / DAT_BLOCK_SIZE = o.fatEntryCount ∧
      o.fatSizeBytes = o.fatEntryCount * 4)) :
    (patchFilesModel o).result = .error PatchErr.inconsistentArchive ∧
    (patchFilesModel o).anyWrite = false ∧
    (patchFilesModel o).rollbackRan = false := by
  rw [patchFilesModel, if_neg hp, if_neg (by rw [hd]; simp)]
  by_cases h1 : o.datSize % DAT_BLOCK_SIZE = 0
  · by_cases h2 : o.datSize / DAT_BLOCK_SIZE = o.fatEntryCount
    · by_cases h3 : o.fatSizeBytes = o.fatEntryCount * 4
      · exact absurd ⟨h1, h2, h3⟩ hbad
      · rw [if_neg (not_not_intro h1), if_neg (not_not_intro h2), if_pos h3]
        exact ⟨rfl, rfl, rfl⟩
    · rw [if_neg (not_not_intro h1), if_pos h2]
      exact ⟨rfl, rfl, rfl⟩
  · rw [if_pos h1]
    exact ⟨rfl, rfl, rfl⟩

/-- C9 witness: a data file of 513 bytes (not a block multiple). -/
theorem patch_preflight_rejects_witness :
    (patchFilesModel ⟨1, 0, 0, false, 513, 1, 4, true, true, true, 0⟩).result =
        .error PatchErr.inconsistentArchive ∧
      (patchFilesModel ⟨1, 0, 0, false, 513, 1, 4, true, true, true, 0⟩).anyWrite
        = false ∧
      (patchFilesModel
        ⟨1, 0, 0, false, 513, 1, 4, true, true, true, 0⟩).rollbackRan = false :=
  patch_preflight_rejects ⟨1, 0, 0, false, 513, 1, 4, true, true, true, 0⟩
    (by decide) rfl (by decide)

/-! ## Striped layout writes and patch rollback
(`writeIdxChannelBytes`, `rollbackPatch`)

The index file is a byte store `Nat → Nat`; the data file stays a byte list
because truncation and append act on its length. -/

/-- Meta record size on disk. -/
def META_SIZE : Nat := 0x10

/-- Overwrite `data.length` bytes of the store `f` starting at `off`
(the effect of one `fs.writeSync(fd, data, 0, len, off)`). -/
def writeBytes (f : Nat → Nat) (off : Nat) (data : List Nat) : Nat → Nat :=
  fun a => if off ≤ a ∧ a < off + data.length then data.getD (a - off) 0 else f a

/-- Read `len` bytes of the store `f` starting at `off`. -/
def readBytes (f : Nat → Nat) (off len : Nat) : List Nat :=
  (List.range len).map fun t => f (off + t)

/-- Sum of pages-per-stripe over channels before `c`
(`chanPrefixPages` in `PriusIdx`). -/
def chanPrefix (pps : List Nat) (c : Nat) : Nat := (pps.take c).sum

/-- Embeds `PriusIdx.physOffsetForChannelPage`. -/
def physOffsetForChannelPage (pageSize : Nat) (pps : List Nat)
    (channel channelPage : Nat) : Nat :=
  let p := pps.getD channel 0
  let stripe := channelPage / p
  let pageInStripe := channelPage % p
  let physPage := stripe * pps.sum + chanPrefix pps channel + pageInStripe
  pageSize + physPage * pageSize

/-- Embeds `PriusIdx.channelOffsetToFileOffset`. -/
def channelOffsetToFileOffset (pageSize : Nat) (pps : List Nat)
    (channel channelOffset : Nat) : Nat :=
  physOffsetForChannelPage pageSize pps channel (channelOffset / pageSize) +
    channelOffset % pageSize

/-- The page-segmented scatter-write loop of `writeIdxChannelBytes`: each
segment stays within one logical page. Fuel is the remaining byte count. -/
def writeIdxChannelBytesAux (pageSize : Nat) (pps : List Nat) (channel : Nat) :
    Nat → (Nat → Nat) → Nat → List Nat → (Nat → Nat)
  | 0, f, _, _ => f
  | fuel + 1, f, off, data =>
    if data.isEmpty then f
    else
      let fileOff := channelOffsetToFileOffset pageSize pps channel off
      let room := pageSize - off % pageSize
      let take := min room data.length
      writeIdxChannelBytesAux pageSize pps channel fuel
        (writeBytes f fileOff (data.take take)) (off + take) (data.drop take)

/-- Embeds `writeIdxChannelBytes` from `src/unnamed/part_004`. -/
def writeIdxChannelBytes (pageSize : Nat) (pps : List Nat) (f : Nat → Nat)
    (channel channelOffset : Nat) (data : List Nat) : Nat → Nat :=
  writeIdxChannelBytesAux pageSize pps channel data.length f channelOffset data

/-- Truncate-or-extend a byte list to length `n` (`fs.ftruncateSync`). -/
def ftruncate (dat : List Nat) (n : Nat) : List Nat :=
  dat.take n ++ List.replicate (n - dat.length) 0

/-- Embeds `rollbackPatch` from `src/patch/patch_engine.ts`: truncate the
data file to its pre-patch length, rewrite every touched meta slot from the
captured old bytes, and restore the FAT channel's `size_bytes` header word. -/
def rollbackPatch (pageSize : Nat) (pps : List Nat)
    (dat : List Nat) (idx : Nat → Nat)
    (originalDatSize originalFatSize : Nat)
    (metaOldRecords : List (Nat × List Nat))
    (metaChannel fatChannel : Nat) : List Nat × (Nat → Nat) :=
  let dat2 := ftruncate dat originalDatSize
  let idx2 := metaOldRecords.foldl
    (fun f rec =>
      writeIdxChannelBytes pageSize pps f metaChannel (rec.1 * META_SIZE) rec.2)
    idx
  let fatSizeHeaderOffset := 8 + fatChannel * 8 + 4
  let idx3 := writeBytes idx2 fatSizeHeaderOffset (writeU32LE originalFatSize)
  (dat2, idx3)

theorem readBytes_writeBytes_eq (f : Nat → Nat) (off : Nat) (data : List Nat) :
    readBytes (writeBytes f off data) off data.length = data := by
  apply List.ext_getElem
  · simp [readBytes]
  · intro i h1 h2
    simp only [readBytes, writeBytes, List.getElem_map, List.getElem_range]
    simp only [readBytes, List.length_map, List.length_range] at h1
    rw [if_pos (by omega)]
    rw [show off + i - off = i from by omega]
    exact List.getD_eq_getElem data 0 h2

theorem readBytes_writeBytes_disjoint (f : Nat → Nat) (off off2 len : Nat)
    (data : List Nat)
    (hdisj : off2 + len ≤ off ∨ off + data.length ≤ off2) :
    readBytes (writeBytes f off data) off2 len = readBytes f off2 len := by
  apply List.ext_getElem
  · simp [readBytes]
  · intro i h1 h2
    simp only [readBytes, List.getElem_map, List.getElem_range, writeBytes]
    simp only [readBytes, List.length_map, List.length_range] at h1
    rw [if_neg (by omega)]

theorem divmod_unique (n q1 r1 q2 r2 : Nat) (h1 : r1 < n) (h2 : r2 < n)
    (he : q1 * n + r1 = q2 * n + r2) : q1 = q2 ∧ r1 = r2 := by
  have hn : 0 < n := lt_of_le_of_lt (Nat.zero_le _) h1
  have e1 : (q1 * n + r1) / n = q1 := by
    rw [mul_comm, Nat.mul_add_div hn, Nat.div_eq_of_lt h1, Nat.add_zero]
  have e2 : (q2 * n + r2) / n = q2 := by
    rw [mul_comm, Nat.mul_add_div hn, Nat.div_eq_of_lt h2, Nat.add_zero]
  have hq : q1 = q2 := by rw [← e1, ← e2, he]
  subst hq
  exact ⟨rfl, by omega⟩

theorem same_page_shift (pageSize off t : Nat) (hps : 0 < pageSize)
    (ht : off % pageSize + t < pageSize) :
    (off + t) / pageSize = off / pageSize ∧
      (off + t) % pageSize = off % pageSize + t := by
  have h1 : off + t = pageSize * (off / pageSize) + (off % pageSize + t) := by
    rw [← Nat.add_assoc, Nat.div_add_mod]
  constructor
  · rw [h1, Nat.mul_add_div hps, Nat.div_eq_of_lt ht, Nat.add_zero]
  · rw [h1, Nat.mul_add_mod, Nat.mod_eq_of_lt ht]

theorem coff_shift (pageSize : Nat) (pps : List Nat) (c off t : Nat)
    (hps : 0 < pageSize) (ht : off % pageSize + t < pageSize) :
    channelOffsetToFileOffset pageSize pps c (off + t) =
      channelOffsetToFileOffset pageSize pps c off + t := by
  obtain ⟨hdiv, hmod⟩ := same_page_shift pageSize off t hps ht
  rw [channelOffsetToFileOffset, channelOffsetToFileOffset, hdiv, hmod]
  omega

theorem coff_ge_pageSize (pageSize : Nat) (pps : List Nat) (c off : Nat) :
    pageSize ≤ channelOffsetToFileOffset pageSize pps c off := by
  rw [channelOffsetToFileOffset, physOffsetForChannelPage]
  omega

theorem prefix_add_le_sum (pps : List Nat) (c : Nat) (hc : c < pps.length) :
    chanPrefix pps c + pps.getD c 0 ≤ pps.sum := by
  rw [chanPrefix]
  rw [← List.sum_take_add_sum_drop pps c]
  have hdrop : pps.drop c = pps.getD c 0 :: pps.drop (c + 1) := by
    rw [List.getD_eq_getElem pps 0 hc]
    exact (List.drop_eq_getElem_cons hc).symm ▸ rfl
  rw [hdrop, List.sum_cons]
  omega

theorem coff_closed (pageSize : Nat) (pps : List Nat) (c L : Nat) :
    channelOffsetToFileOffset pageSize pps c L =
      (1 + (L / pageSize / pps.getD c 0 * pps.sum + chanPrefix pps c +
        L / pageSize % pps.getD c 0)) * pageSize + L % pageSize := by
  simp only [channelOffsetToFileOffset, physOffsetForChannelPage]
  ring

theorem coff_injective (pageSize : Nat) (pps : List Nat) (c L1 L2 : Nat)
    (hps : 0 < pageSize) (hc : c < pps.length) (hppsc : 0 < pps.getD c 0)
    (heq : channelOffsetToFileOffset pageSize pps c L1 =
      channelOffsetToFileOffset pageSize pps c L2) : L1 = L2 := by
  rw [coff_closed, coff_closed] at heq
  have hmod1 : L1 % pageSize < pageSize := Nat.mod_lt _ hps
  have hmod2 : L2 % pageSize < pageSize := Nat.mod_lt _ hps
  obtain ⟨hpp, hin⟩ := divmod_unique pageSize _ _ _ _ hmod1 hmod2 heq
  have hrem1 : chanPrefix pps c + L1 / pageSize % pps.getD c 0 < pps.sum := by
    have hA := prefix_add_le_sum pps c hc
    have hB := Nat.mod_lt (L1 / pageSize) hppsc
    omega
  have hrem2 : chanPrefix pps c + L2 / pageSize % pps.getD c 0 < pps.sum := by
    have hA := prefix_add_le_sum pps c hc
    have hB := Nat.mod_lt (L2 / pageSize) hppsc
    omega
  have hpp2 : L1 / pageSize / pps.getD c 0 * pps.sum +
      (chanPrefix pps c + L1 / pageSize % pps.getD c 0) =
      L2 / pageSize / pps.getD c 0 * pps.sum +
      (chanPrefix pps c + L2 / pageSize % pps.getD c 0) := by omega
  obtain ⟨hstripe, hpis⟩ := divmod_unique pps.sum _ _ _ _ hrem1 hrem2 hpp2
  have hPeq : L1 / pageSize = L2 / pageSize := by
    have d1 := Nat.div_add_mod (L1 / pageSize) (pps.getD c 0)
    have d2 := Nat.div_add_mod (L2 / pageSize) (pps.getD c 0)
    rw [hstripe] at d1
    omega
  have e1 := Nat.div_add_mod L1 pageSize
  have e2 := Nat.div_add_mod L2 pageSize
  rw [hPeq] at e1
  omega

theorem writeIdxChannelBytesAux_nil (pageSize : Nat) (pps : List Nat)
    (c : Nat) (fuel : Nat) (f : Nat → Nat) (off : Nat) :
    writeIdxChannelBytesAux pageSize pps c fuel f off [] = f := by
  cases fuel <;> rfl

/-- A write that fits within the current logical page is a single plain
byte-range write at the mapped file offset. -/
theorem writeIdxChannelBytes_single (pageSize : Nat) (pps : List Nat)
    (f : Nat → Nat) (c off : Nat) (data : List Nat)
    (hroom : data.length ≤ pageSize - off % pageSize) :
    writeIdxChannelBytes pageSize pps f c off data =
      writeBytes f (channelOffsetToFileOffset pageSize pps c off) data := by
  cases data with
  | nil =>
    rw [writeIdxChannelBytes, List.length_nil, writeIdxChannelBytesAux]
    funext a
    rw [writeBytes]
    exact (if_neg (by simp only [List.length_nil]; omega)).symm
  | cons b rest =>
    rw [writeIdxChannelBytes, List.length_cons, writeIdxChannelBytesAux]
    rw [if_neg (by simp)]
    have htake : min (pageSize - off % pageSize) (b :: rest).length =
        (b :: rest).length := by
      rw [List.length_cons] at hroom ⊢
      omega
    show writeIdxChannelBytesAux pageSize pps c rest.length
        (writeBytes f (channelOffsetToFileOffset pageSize pps c off)
          (List.take (min (pageSize - off % pageSize) (b :: rest).length)
            (b :: rest)))
        (off + min (pageSize - off % pageSize) (b :: rest).length)
        (List.drop (min (pageSize - off % pageSize) (b :: rest).length)
          (b :: rest)) =
      writeBytes f (channelOffsetToFileOffset pageSize pps c off) (b :: rest)
    rw [htake, List.take_length, List.drop_length, writeIdxChannelBytesAux_nil]

/-- Meta slots lie within a single page: `16` divides both the page size and
the slot offset. -/
theorem metaSlot_room (pageSize mi : Nat) (hps16 : pageSize % META_SIZE = 0)
    (hps : 0 < pageSize) :
    (mi * META_SIZE) % pageSize + META_SIZE ≤ pageSize := by
  obtain ⟨k, hk⟩ : ∃ k, pageSize = META_SIZE * k := by
    refine ⟨pageSize / META_SIZE, ?_⟩
    have := Nat.div_add_mod pageSize META_SIZE
    omega
  have hkpos : 0 < k := by
    by_contra hc
    push_neg at hc
    interval_cases k
    simp [hk] at hps
  rw [hk, mul_comm mi META_SIZE, Nat.mul_mod_mul_left]
  have : mi % k < k := Nat.mod_lt _ hkpos
  have h16 : (META_SIZE : Nat) = 16 := rfl
  rw [h16] at *
  calc 16 * (mi % k) + 16 = 16 * (mi % k + 1) := by ring
  _ ≤ 16 * k := by
    apply Nat.mul_le_mul_left
    omega

/-- Distinct meta indices map to disjoint 16-byte file ranges. -/
theorem metaSlot_disjoint (pageSize : Nat) (pps : List Nat) (c mi mj : Nat)
    (hps16 : pageSize % META_SIZE = 0) (hps : 0 < pageSize)
    (hc : c < pps.length) (hppsc : 0 < pps.getD c 0) (hne : mi ≠ mj) :
    channelOffsetToFileOffset pageSize pps c (mi * META_SIZE) + META_SIZE ≤
        channelOffsetToFileOffset pageSize pps c (mj * META_SIZE) ∨
      channelOffsetToFileOffset pageSize pps c (mj * META_SIZE) + META_SIZE ≤
        channelOffsetToFileOffset pageSize pps c (mi * META_SIZE) := by
  by_contra hcon
  push_neg at hcon
  obtain ⟨hlt1, hlt2⟩ := hcon
  rcases Nat.le_total (channelOffsetToFileOffset pageSize pps c (mi * META_SIZE))
    (channelOffsetToFileOffset pageSize pps c (mj * META_SIZE)) with hle | hle
  · set t := channelOffsetToFileOffset pageSize pps c (mj * META_SIZE) -
      channelOffsetToFileOffset pageSize pps c (mi * META_SIZE) with htdef
    have htlt : t < META_SIZE := by omega
    have hshift : channelOffsetToFileOffset pageSize pps c (mi * META_SIZE + t) =
        channelOffsetToFileOffset pageSize pps c (mj * META_SIZE) := by
      rw [coff_shift pageSize pps c _ t hps]
      · omega
      · have := metaSlot_room pageSize mi hps16 hps
        omega
    have := coff_injective pageSize pps c _ _ hps hc hppsc hshift
    have h16 : (META_SIZE : Nat) = 16 := rfl
    rw [h16] at this htlt
    omega
  · set t := channelOffsetToFileOffset pageSize pps c (mi * META_SIZE) -
      channelOffsetToFileOffset pageSize pps c (mj * META_SIZE) with htdef
    have htlt : t < META_SIZE := by omega
    have hshift : channelOffsetToFileOffset pageSize pps c (mj * META_SIZE + t) =
        channelOffsetToFileOffset pageSize pps c (mi * META_SIZE) := by
      rw [coff_shift pageSize pps c _ t hps]
      · omega
      · have := metaSlot_room pageSize mj hps16 hps
        omega
    have := coff_injective pageSize pps c _ _ hps hc hppsc hshift
    have h16 : (META_SIZE : Nat) = 16 := rfl
    rw [h16] at this htlt
    omega

/-- One meta-slot write is a single-segment plain write. -/
theorem metaSlot_write (pageSize : Nat) (pps : List Nat) (f : Nat → Nat)
    (c mi : Nat) (bytes : List Nat) (hps16 : pageSize % META_SIZE = 0)
    (hps : 0 < pageSize) (hlen : bytes.length = META_SIZE) :
    writeIdxChannelBytes pageSize pps f c (mi * META_SIZE) bytes =
      writeBytes f (channelOffsetToFileOffset pageSize pps c (mi * META_SIZE))
        bytes := by
  apply writeIdxChannelBytes_single
  have := metaSlot_room pageSize mi hps16 hps
  omega

theorem fold_meta_preserves (pageSize : Nat) (pps : List Nat) (c : Nat)
    (hps16 : pageSize % META_SIZE = 0) (hps : 0 < pageSize) :
    ∀ (recs : List (Nat × List Nat)) (f : Nat → Nat) (off2 len : Nat),
    (∀ r ∈ recs, r.2.length = META_SIZE) →
    (∀ r ∈ recs,
      channelOffsetToFileOffset pageSize pps c (r.1 * META_SIZE) + META_SIZE ≤
        off2 ∨
      off2 + len ≤ channelOffsetToFileOffset pageSize pps c (r.1 * META_SIZE)) →
    readBytes (recs.foldl (fun g rec =>
        writeIdxChannelBytes pageSize pps g c (rec.1 * META_SIZE) rec.2) f)
      off2 len = readBytes f off2 len
  | [], f, off2, len => by
    intro _ _
    rfl
  | r :: rest, f, off2, len => by
    intro hlen hdisj
    rw [List.foldl_cons]
    rw [fold_meta_preserves pageSize pps c hps16 hps rest _ off2 len
      (fun q hq => hlen q (List.mem_cons_of_mem _ hq))
      (fun q hq => hdisj q (List.mem_cons_of_mem _ hq))]
    rw [metaSlot_write pageSize pps f c r.1 r.2 hps16 hps
      (hlen r (List.mem_cons_self _ _))]
    apply readBytes_writeBytes_disjoint
    rw [hlen r (List.mem_cons_self _ _)]
    exact (hdisj r (List.mem_cons_self _ _)).symm

theorem fold_meta_reads (pageSize : Nat) (pps : List Nat) (c : Nat)
    (hps16 : pageSize % META_SIZE = 0) (hps : 0 < pageSize)
    (hc : c < pps.length) (hppsc : 0 < pps.getD c 0) :
    ∀ (recs : List (Nat × List Nat)) (f : Nat → Nat),
    (∀ r ∈ recs, r.2.length = META_SIZE) →
    (recs.map Prod.fst).Nodup →
    ∀ r ∈ recs,
    readBytes (recs.foldl (fun g rec =>
        writeIdxChannelBytes pageSize pps g c (rec.1 * META_SIZE) rec.2) f)
      (channelOffsetToFileOffset pageSize pps c (r.1 * META_SIZE)) META_SIZE =
      r.2
  | [], f => by
    intro _ _ r hr
    exact absurd hr (List.not_mem_nil r)
  | r0 :: rest, f => by
    intro hlen hnodup r hr
    rw [List.foldl_cons]
    have hr0len : r0.2.length = META_SIZE := hlen r0 (List.mem_cons_self _ _)
    rcases List.mem_cons.mp hr with hre | hrr
    · subst hre
      have hnotin : r.1 ∉ rest.map Prod.fst := by
        rw [List.map_cons] at hnodup
        exact (List.nodup_cons.mp hnodup).1
      rw [fold_meta_preserves pageSize pps c hps16 hps rest _ _ _
        (fun q hq => hlen q (List.mem_cons_of_mem _ hq))
        (fun q hq => by
          have hqne : q.1 ≠ r.1 := by
            intro hcq
            exact hnotin (hcq ▸ List.mem_map_of_mem Prod.fst hq)
          exact metaSlot_disjoint pageSize pps c q.1 r.1 hps16 hps hc hppsc hqne)]
      rw [metaSlot_write pageSize pps f c r.1 r.2 hps16 hps hr0len]
      rw [show (META_SIZE : Nat) = r.2.length from hr0len.symm]
      exact readBytes_writeBytes_eq f _ r.2
    · rw [List.map_cons] at hnodup
      exact fold_meta_reads pageSize pps c hps16 hps hc hppsc rest _
        (fun q hq => hlen q (List.mem_cons_of_mem _ hq))
        (List.nodup_cons.mp hnodup).2 r hrr

/-- C4: after the patch pipeline appended to the data file and overwrote
index bytes in whatever way, `rollbackPatch` restores the pre-patch state:
the data file is truncated back to exactly its pre-patch bytes, every
touched 16-byte meta slot reads back as the captured old bytes, and the FAT
channel's `size_bytes` header word (4 bytes at file offset 36) reads back as
the original FAT size. -/
theorem rollback_restores (pageSize : Nat) (pps : List Nat)
    (datOrig appended : List Nat) (idxMid : Nat → Nat)
    (originalFatSize : Nat) (metaOldRecords : List (Nat × List Nat))
    (hps16 : pageSize % META_SIZE = 0) (hps : 512 ≤ pageSize)
    (hc : 2 < pps.length) (hppsc : 0 < pps.getD 2 0)
    (hrecs : ∀ r ∈ metaOldRecords, r.2.length = META_SIZE)
    (hnodup : (metaOldRecords.map Prod.fst).Nodup) :
    (rollbackPatch pageSize pps (datOrig ++ appended) idxMid
        datOrig.length originalFatSize metaOldRecords 2 3).1 = datOrig ∧
    (∀ r ∈ metaOldRecords,
      readBytes (rollbackPatch pageSize pps (datOrig ++ appended) idxMid
          datOrig.length originalFatSize metaOldRecords 2 3).2
        (channelOffsetToFileOffset pageSize pps 2 (r.1 * META_SIZE))
        META_SIZE = r.2) ∧
    readBytes (rollbackPatch pageSize pps (datOrig ++ appended) idxMid
        datOrig.length originalFatSize metaOldRecords 2 3).2
      (8 + 3 * 8 + 4) 4 = writeU32LE originalFatSize := by
  have hpspos : 0 < pageSize := by omega
  refine ⟨?_, ?_, ?_⟩
  · show ftruncate (datOrig ++ appended) datOrig.length = datOrig
    rw [ftruncate, List.take_left]
    rw [show datOrig.length - (datOrig ++ appended).length = 0 from by
      rw [List.length_append]; omega]
    simp
  · intro r hr
    show readBytes (writeBytes (metaOldRecords.foldl _ idxMid) (8 + 3 * 8 + 4)
      (writeU32LE originalFatSize)) _ META_SIZE = r.2
    rw [readBytes_writeBytes_disjoint _ _ _ _ _ (Or.inr (by
      rw [writeU32LE_length]
      have := coff_ge_pageSize pageSize pps 2 (r.1 * META_SIZE)
      omega))]
    exact fold_meta_reads pageSize pps 2 hps16 hpspos hc hppsc
      metaOldRecords idxMid hrecs hnodup r hr
  · show readBytes (writeBytes (metaOldRecords.foldl _ idxMid) (8 + 3 * 8 + 4)
      (writeU32LE originalFatSize)) (8 + 3 * 8 + 4) 4 = writeU32LE originalFatSize
    rw [show (4 : Nat) = (writeU32LE originalFatSize).length from
      (writeU32LE_length originalFatSize).symm]
    exact readBytes_writeBytes_eq _ _ _

/-- C4 witness: one touched slot, a 3-byte append, default page layout. -/
theorem rollback_restores_witness :
    (rollbackPatch 4096 [4, 8, 1, 4] ([1, 2] ++ [3]) (fun _ => 9)
        [1, 2].length 8 [(0, List.replicate 16 7)] 2 3).1 = [1, 2] ∧
    (∀ r ∈ [((0 : Nat), List.replicate 16 7)],
      readBytes (rollbackPatch 4096 [4, 8, 1, 4] ([1, 2] ++ [3]) (fun _ => 9)
          [1, 2].length 8 [(0, List.replicate 16 7)] 2 3).2
        (channelOffsetToFileOffset 4096 [4, 8, 1, 4] 2 (r.1 * META_SIZE))
        META_SIZE = r.2) ∧
    readBytes (rollbackPatch 4096 [4, 8, 1, 4] ([1, 2] ++ [3]) (fun _ => 9)
        [1, 2].length 8 [(0, List.replicate 16 7)] 2 3).2
      (8 + 3 * 8 + 4) 4 = writeU32LE 8 :=
  rollback_restores 4096 [4, 8, 1, 4] [1, 2] [3] (fun _ => 9) 8
    [(0, List.replicate 16 7)] (by decide) (by decide) (by decide) (by decide)
    (by decide) (by decide)

/-! ## Patricia trie (`PatriciaTrieBuilder` and the lookup walk)

Keys are raw byte lists. The lookup relation used in the claim compares the
leaf's stored key bytes (`keyData`), merging the builder's structures with
the reader's walk from `PriusArchive.findNode`. -/

/-- A 20-byte directory-trie node. -/
structure TrieNode where
  metaIndex : Nat
  bitIndex : Int
  nameRaw : Nat
  leftRaw : Nat
  rightRaw : Nat
  deriving DecidableEq, Repr

/-- Embeds `getBit`: bit `b` of the key, LSB-first within each byte; 2 for a
negative bit index (the root sentinel), 0 past the end of the key. -/
def getBit (key : List Nat) (bitIndex : Int) : Nat :=
  if bitIndex < 0 then 2
  else
    let bi := bitIndex.toNat
    let byteIndex := bi / 8
    if key.length ≤ byteIndex then 0
    else key.getD byteIndex 0 >>> (bi % 8) &&& 1

/-- The inner bit scan of `firstDifferingBit`: lowest set bit of `diff`
among positions `bit, bit+1, ...` while `fuel` lasts (the code scans 8). -/
def findLowBitAux (diff : Nat) : Nat → Nat → Option Nat
  | 0, _ => none
  | fuel + 1, bit =>
    if diff &&& (1 <<< bit) ≠ 0 then some bit
    else findLowBitAux diff fuel (bit + 1)

/-- The byte scan of `firstDifferingBit` starting at `byteIndex`. -/
def firstDifferingBitFrom (a b : List Nat) : Nat → Nat → Nat
  | 0, _ => (max a.length b.length) * 8
  | fuel + 1, byteIndex =>
    let ba := if byteIndex < a.length then a.getD byteIndex 0 else 0
    let bb := if byteIndex < b.length then b.getD byteIndex 0 else 0
    if ba ≠ bb then
      match findLowBitAux (ba ^^^ bb) 8 0 with
      | some bit => byteIndex * 8 + bit
      | none => firstDifferingBitFrom a b fuel (byteIndex + 1)
    else firstDifferingBitFrom a b fuel (byteIndex + 1)

/-- Embeds `firstDifferingBit`: first differing bit position of two byte
strings (bytes compared low bit first), or `max(len)*8` when none differs. -/
def firstDifferingBit (a b : List Nat) : Nat :=
  firstDifferingBitFrom a b (max a.length b.length) 0

/-- Node read with a default, mirroring array indexing. -/
def nd (nodes : List TrieNode) (i : Nat) : TrieNode :=
  nodes.getD i ⟨0, 0, 0, 0, 0⟩

/-- The child taken at node `v` for `key` (right when the key bit is
nonzero, which includes the sentinel value 2). -/
def childOf (nodes : List TrieNode) (key : List Nat) (v : Nat) : Nat :=
  if getBit key (nd nodes v).bitIndex ≠ 0 then (nd nodes v).rightRaw
  else (nd nodes v).leftRaw

/-- The `while (bit(prev) < bit(curr))` walk shared by `findNode` and the
builder's first loop, with fuel; returns the final `(prev, curr)` pair. -/
def walkLoop1 (nodes : List TrieNode) (key : List Nat) :
    Nat → Nat → Nat → Option (Nat × Nat)
  | 0, _, _ => none
  | fuel + 1, prev, curr =>
    if (nd nodes prev).bitIndex < (nd nodes curr).bitIndex then
      walkLoop1 nodes key fuel curr (childOf nodes key curr)
    else some (prev, curr)

/-- The builder's second walk, additionally bounded by `diffBit`. -/
def walkLoop2 (nodes : List TrieNode) (key : List Nat) (diffBit : Nat) :
    Nat → Nat → Nat → Option (Nat × Nat)
  | 0, _, _ => none
  | fuel + 1, prev, curr =>
    if (nd nodes prev).bitIndex < (nd nodes curr).bitIndex ∧
        (nd nodes curr).bitIndex < (diffBit : Int) then
      walkLoop2 nodes key diffBit fuel curr (childOf nodes key curr)
    else some (prev, curr)

/-- Builder state: the node array and the per-node key bytes (`keyData` in
`buildFromKeys`; entry 0 is the empty key of the sentinel). -/
structure PatriciaTrieBuilder where
  nodes : List TrieNode
  keyData : List (List Nat)
  deriving Repr

/-- The fresh builder: only the sentinel root. -/
def initialTrieState : PatriciaTrieBuilder :=
  { nodes := [⟨0, -1, 0x80000000, 0, 0⟩], keyData := [[]] }

/-- Embeds one iteration of `buildFromKeys`: push the new node, then either
the first-key special case or the two walks, the duplicate check, and the
child/parent rewiring. -/
def insertKey (st : PatriciaTrieBuilder) (key : List Nat)
    (strIdx metaIdx : Nat) : Except String PatriciaTrieBuilder :=
  let nodeIdx := st.nodes.length
  let nameRaw := strIdx ||| 0x80000000
  let nodes1 := st.nodes ++ [⟨metaIdx, -1, nameRaw, 0, 0⟩]
  let keyData1 := st.keyData ++ [key]
  if nodeIdx = 1 then
    let diffBit := firstDifferingBit key []
    let node1 : TrieNode :=
      if getBit key (diffBit : Int) ≠ 0 then
        ⟨metaIdx, (diffBit : Int), nameRaw, 0, nodeIdx⟩
      else
        ⟨metaIdx, (diffBit : Int), nameRaw, nodeIdx, 0⟩
    let nodes2 := nodes1.set nodeIdx node1
    let nodes3 := nodes2.set 0 { nd nodes2 0 with rightRaw := nodeIdx }
    .ok { nodes := nodes3, keyData := keyData1 }
  else
    match walkLoop1 nodes1 key (nodes1.length + 1) 0 (nd nodes1 0).rightRaw with
    | none => .error "walk did not terminate"
    | some (_, curr) =>
      let closestKey := keyData1.getD curr []
      let diffBit := firstDifferingBit key closestKey
      if max key.length closestKey.length * 8 ≤ diffBit then
        .error "Duplicate key"
      else
        match walkLoop2 nodes1 key diffBit (nodes1.length + 1) 0
            (nd nodes1 0).rightRaw with
        | none => .error "walk did not terminate"
        | some (prev, curr2) =>
          let newNode : TrieNode :=
            if getBit key (diffBit : Int) ≠ 0 then
              ⟨metaIdx, (diffBit : Int), nameRaw, curr2, nodeIdx⟩
            else
              ⟨metaIdx, (diffBit : Int), nameRaw, nodeIdx, curr2⟩
          let nodes2 := nodes1.set nodeIdx newNode
          let parentBit := (nd nodes2 prev).bitIndex
          let goRight := if parentBit < 0 then true
            else decide (getBit key parentBit ≠ 0)
          let parent := nd nodes2 prev
          let nodes3 := nodes2.set prev
            (if goRight then { parent with rightRaw := nodeIdx }
             else { parent with leftRaw := nodeIdx })
          .ok { nodes := nodes3, keyData := keyData1 }

/-- Embeds `PatriciaTrieBuilder.buildFromKeys`. -/
def buildFromKeys (keys : List (List Nat)) (stringIndices metaIndices : List Nat) :
    Except String PatriciaTrieBuilder :=
  if keys.length ≠ stringIndices.length ∨ keys.length ≠ metaIndices.length then
    .error "keys/stringIndices/metaIndices length mismatch"
  else
    (keys.zip (stringIndices.zip metaIndices)).foldlM
      (fun st t => insertKey st t.1 t.2.1 t.2.2) initialTrieState

/-- The claim's lookup: the `findNode` walk from the sentinel, then compare
the reached leaf's stored key bytes against the query. -/
def findNodeByKey (st : PatriciaTrieBuilder) (key : List Nat) : Option Nat :=
  if key = [] then none
  else
    match walkLoop1 st.nodes key (st.nodes.length + 1) 0
        (nd st.nodes 0).rightRaw with
    | none => none
    | some (_, curr) =>
      if st.keyData.getD curr [] = key then some curr else none

/-! ### Walk framework: the `(prev, curr)` pair after `j` steps, as a function -/

/-- Bit index of node `i` (read with the default node). -/
def bitn (nodes : List TrieNode) (i : Nat) : Int := (nd nodes i).bitIndex

/-- The root's right child, where every walk starts. -/
def rootR (nodes : List TrieNode) : Nat := (nd nodes 0).rightRaw

/-- The `(prev, curr)` pair after `j` iterations of the walk body. -/
def pairAt (nodes : List TrieNode) (q : List Nat) : Nat → Nat × Nat
  | 0 => (0, rootR nodes)
  | j + 1 => ((pairAt nodes q j).2, childOf nodes q (pairAt nodes q j).2)

/-- A pair is forward when the walk continues from it. -/
def fwdP (nodes : List TrieNode) (pr : Nat × Nat) : Prop :=
  bitn nodes pr.1 < bitn nodes pr.2

instance (nodes : List TrieNode) (pr : Nat × Nat) : Decidable (fwdP nodes pr) :=
  inferInstanceAs (Decidable (_ < _))

/-- The walk takes at least `j` steps. -/
def GoodW (nodes : List TrieNode) (q : List Nat) (j : Nat) : Prop :=
  ∀ i, i < j → fwdP nodes (pairAt nodes q i)

/-- The walk stops exactly after `j` steps. -/
def StopW (nodes : List TrieNode) (q : List Nat) (j : Nat) : Prop :=
  GoodW nodes q j ∧ ¬ fwdP nodes (pairAt nodes q j)

/-- All child indices are in bounds. -/
def ValidN (nodes : List TrieNode) : Prop :=
  ∀ i, i < nodes.length →
    (nd nodes i).leftRaw < nodes.length ∧ (nd nodes i).rightRaw < nodes.length

/-- Child slot of node `x`: `true` is the right slot. -/
def slotc (nodes : List TrieNode) (x : Nat) (s : Bool) : Nat :=
  if s then (nd nodes x).rightRaw else (nd nodes x).leftRaw

/-- Unique forward parent: at most one forward in-edge per node. -/
def UFP (nodes : List TrieNode) : Prop :=
  ∀ w x1 s1 x2 s2, x1 < nodes.length → x2 < nodes.length →
    slotc nodes x1 s1 = w → slotc nodes x2 s2 = w →
    bitn nodes x1 < bitn nodes w → bitn nodes x2 < bitn nodes w →
    x1 = x2 ∧ s1 = s2

/-- The two slots of every node are distinct. -/
def DSlots (nodes : List TrieNode) : Prop :=
  ∀ u, u < nodes.length → (nd nodes u).leftRaw ≠ (nd nodes u).rightRaw

theorem goodW_mono {nodes : List TrieNode} {q : List Nat} {j j' : Nat}
    (h : GoodW nodes q j) (hle : j' ≤ j) : GoodW nodes q j' :=
  fun i hi => h i (lt_of_lt_of_le hi hle)

theorem stopW_unique {nodes : List TrieNode} {q : List Nat} {j1 j2 : Nat}
    (h1 : StopW nodes q j1) (h2 : StopW nodes q j2) : j1 = j2 := by
  rcases Nat.lt_trichotomy j1 j2 with h | h | h
  · exact absurd (h2.1 j1 h) h1.2
  · exact h
  · exact absurd (h1.1 j2 h) h2.2

theorem childOf_eq_slotc (nodes : List TrieNode) (q : List Nat) (x : Nat) :
    childOf nodes q x = slotc nodes x (decide (getBit q (bitn nodes x) ≠ 0)) := by
  unfold childOf slotc bitn
  by_cases h : getBit q (nd nodes x).bitIndex ≠ 0
  · rw [if_pos h, decide_eq_true h]; rfl
  · rw [if_neg h, decide_eq_false h]; rfl

theorem childOf_lt {nodes : List TrieNode} (hv : ValidN nodes) {v : Nat}
    (hvl : v < nodes.length) (q : List Nat) : childOf nodes q v < nodes.length := by
  unfold childOf
  by_cases h : getBit q (nd nodes v).bitIndex ≠ 0
  · rw [if_pos h]; exact (hv v hvl).2
  · rw [if_neg h]; exact (hv v hvl).1

theorem pairAt_lt {nodes : List TrieNode} (hv : ValidN nodes)
    (h0 : 0 < nodes.length) (q : List Nat) :
    ∀ j, (pairAt nodes q j).1 < nodes.length ∧ (pairAt nodes q j).2 < nodes.length := by
  intro j
  induction j with
  | zero => exact ⟨h0, (hv 0 h0).2⟩
  | succ j ih => exact ⟨ih.2, childOf_lt hv ih.2 q⟩

theorem bitn_ge_neg_one {nodes : List TrieNode}
    (hroot : bitn nodes 0 = -1)
    (hbits : ∀ i, 1 ≤ i → i < nodes.length → 0 ≤ bitn nodes i)
    {x : Nat} (hx : x < nodes.length) : -1 ≤ bitn nodes x := by
  rcases Nat.eq_zero_or_pos x with h | h
  · rw [h, hroot]
  · exact le_trans (by omega) (hbits x h hx)

theorem bitn_prev_mono {nodes : List TrieNode} {q : List Nat} {j : Nat}
    (h : GoodW nodes q j) :
    ∀ i1 i2, i1 < i2 → i2 ≤ j →
      bitn nodes (pairAt nodes q i1).1 < bitn nodes (pairAt nodes q i2).1 := by
  intro i1 i2
  induction i2 with
  | zero => omega
  | succ i ih =>
    intro hlt hle
    have hstep : bitn nodes (pairAt nodes q i).1 < bitn nodes (pairAt nodes q (i+1)).1 := by
      have := h i (by omega)
      exact this
    rcases Nat.lt_or_ge i1 i with hi | hi
    · exact lt_trans (ih hi (by omega)) hstep
    · have : i1 = i := by omega
      rw [this]; exact hstep

theorem prev_inj {nodes : List TrieNode} {q : List Nat} {j : Nat}
    (h : GoodW nodes q j) {i1 i2 : Nat} (h1 : i1 ≤ j) (h2 : i2 ≤ j)
    (heq : (pairAt nodes q i1).1 = (pairAt nodes q i2).1) : i1 = i2 := by
  rcases Nat.lt_trichotomy i1 i2 with hlt | he | hlt
  · have := bitn_prev_mono h i1 i2 hlt h2
    rw [heq] at this; exact absurd this (lt_irrefl _)
  · exact he
  · have := bitn_prev_mono h i2 i1 hlt h1
    rw [heq] at this; exact absurd this (lt_irrefl _)

theorem stopW_or_goodW (nodes : List TrieNode) (q : List Nat) :
    ∀ n, (∃ j, j ≤ n ∧ StopW nodes q j) ∨ GoodW nodes q (n + 1) := by
  intro n
  induction n with
  | zero =>
    by_cases h : fwdP nodes (pairAt nodes q 0)
    · right; intro i hi; have : i = 0 := by omega
      rw [this]; exact h
    · left; exact ⟨0, le_refl _, fun i hi => absurd hi (Nat.not_lt_zero i), h⟩
  | succ n ih =>
    rcases ih with ⟨j, hj, hstop⟩ | hgood
    · left; exact ⟨j, by omega, hstop⟩
    · by_cases h : fwdP nodes (pairAt nodes q (n + 1))
      · right; intro i hi
        rcases Nat.lt_or_ge i (n + 1) with hi' | hi'
        · exact hgood i hi'
        · have : i = n + 1 := by omega
          rw [this]; exact h
      · left; exact ⟨n + 1, le_refl _, hgood, h⟩

theorem stopW_lt_len {nodes : List TrieNode} {q : List Nat} {j : Nat}
    (hv : ValidN nodes) (h0 : 0 < nodes.length) (hgood : GoodW nodes q j) :
    j < nodes.length := by
  by_contra hge
  push_neg at hge
  have hinj : Function.Injective
      (fun i : Fin (j + 1) => (⟨(pairAt nodes q i).1,
        (pairAt_lt hv h0 q i).1⟩ : Fin nodes.length)) := by
    intro i1 i2 he
    have : (pairAt nodes q i1).1 = (pairAt nodes q i2).1 := congrArg Fin.val he
    exact Fin.ext (prev_inj hgood (Nat.le_of_lt_succ i1.2) (Nat.le_of_lt_succ i2.2) this)
  have := Fintype.card_le_of_injective _ hinj
  simp only [Fintype.card_fin] at this
  omega

theorem stopW_exists {nodes : List TrieNode} (hv : ValidN nodes)
    (h0 : 0 < nodes.length) (q : List Nat) :
    ∃ j, j < nodes.length ∧ StopW nodes q j := by
  rcases stopW_or_goodW nodes q nodes.length with ⟨j, _, hstop⟩ | hgood
  · exact ⟨j, stopW_lt_len hv h0 hstop.1, hstop⟩
  · have := stopW_lt_len hv h0 (goodW_mono hgood (Nat.le_succ _))
    omega

/-- `walkLoop1` computes the pair function at the stop index. -/
theorem walkLoop1_pairAt (nodes : List TrieNode) (q : List Nat) :
    ∀ (dj j0 fuel : Nat), dj < fuel →
    (∀ i, i < dj → fwdP nodes (pairAt nodes q (j0 + i))) →
    ¬ fwdP nodes (pairAt nodes q (j0 + dj)) →
    walkLoop1 nodes q fuel (pairAt nodes q j0).1 (pairAt nodes q j0).2 =
      some (pairAt nodes q (j0 + dj)) := by
  intro dj
  induction dj with
  | zero =>
    intro j0 fuel hf hg hs
    match fuel, hf with
    | fuel + 1, _ =>
      rw [Nat.add_zero] at hs
      unfold fwdP bitn at hs
      unfold walkLoop1
      rw [if_neg hs, Nat.add_zero]
  | succ dj ih =>
    intro j0 fuel hf hg hs
    match fuel, hf with
    | fuel + 1, hf =>
      have h0 : fwdP nodes (pairAt nodes q j0) := by
        have := hg 0 (Nat.succ_pos _); rwa [Nat.add_zero] at this
      unfold fwdP bitn at h0
      unfold walkLoop1
      rw [if_pos h0]
      have harg : walkLoop1 nodes q fuel (pairAt nodes q j0).2
          (childOf nodes q (pairAt nodes q j0).2) =
          walkLoop1 nodes q fuel (pairAt nodes q (j0 + 1)).1 (pairAt nodes q (j0 + 1)).2 := rfl
      rw [harg, ih (j0 + 1) fuel (by omega)
        (fun i hi => by have := hg (i + 1) (by omega)
                        rwa [show j0 + (i + 1) = j0 + 1 + i by omega] at this)
        (by rwa [show j0 + 1 + dj = j0 + (dj + 1) by omega])]
      rw [show j0 + 1 + dj = j0 + (dj + 1) by omega]

theorem walkLoop1_eq_of_stopW {nodes : List TrieNode} {q : List Nat} {j fuel : Nat}
    (hstop : StopW nodes q j) (hf : j < fuel) :
    walkLoop1 nodes q fuel 0 (nd nodes 0).rightRaw = some (pairAt nodes q j) := by
  have := walkLoop1_pairAt nodes q j 0 fuel hf
    (fun i hi => by rw [Nat.zero_add]; exact hstop.1 i hi)
    (by rw [Nat.zero_add]; exact hstop.2)
  rw [Nat.zero_add] at this
  exact this

/-- Continuation condition of the diff-bit-bounded second walk. -/
def fwd2 (nodes : List TrieNode) (dB : Nat) (pr : Nat × Nat) : Prop :=
  fwdP nodes pr ∧ bitn nodes pr.2 < (dB : Int)

instance (nodes : List TrieNode) (dB : Nat) (pr : Nat × Nat) :
    Decidable (fwd2 nodes dB pr) :=
  inferInstanceAs (Decidable (_ ∧ _))

/-- The second walk stops exactly after `j` steps. -/
def Stop2W (nodes : List TrieNode) (q : List Nat) (dB j : Nat) : Prop :=
  (∀ i, i < j → fwd2 nodes dB (pairAt nodes q i)) ∧
    ¬ fwd2 nodes dB (pairAt nodes q j)

theorem stop2W_exists {nodes : List TrieNode} {q : List Nat} {j : Nat} (dB : Nat)
    (hstop : StopW nodes q j) : ∃ j2, j2 ≤ j ∧ Stop2W nodes q dB j2 := by
  have key : ∀ n, (∃ j2, j2 ≤ n ∧ Stop2W nodes q dB j2) ∨
      (∀ i, i < n + 1 → fwd2 nodes dB (pairAt nodes q i)) := by
    intro n
    induction n with
    | zero =>
      by_cases h : fwd2 nodes dB (pairAt nodes q 0)
      · right; intro i hi; have : i = 0 := by omega
        rw [this]; exact h
      · left; exact ⟨0, le_refl _, fun i hi => absurd hi (Nat.not_lt_zero i), h⟩
    | succ n ih =>
      rcases ih with ⟨j2, hj, hs⟩ | hgood
      · left; exact ⟨j2, by omega, hs⟩
      · by_cases h : fwd2 nodes dB (pairAt nodes q (n + 1))
        · right; intro i hi
          rcases Nat.lt_or_ge i (n + 1) with hi' | hi'
          · exact hgood i hi'
          · have : i = n + 1 := by omega
            rw [this]; exact h
        · left; exact ⟨n + 1, le_refl _, hgood, h⟩
  rcases key j with ⟨j2, hj, hs⟩ | hgood
  · refine ⟨j2, ?_, hs⟩
    by_contra hgt
    push_neg at hgt
    exact hstop.2 (hs.1 j hgt).1
  · exact absurd (hgood j (by omega)).1 hstop.2

theorem stop2W_unique {nodes : List TrieNode} {q : List Nat} {dB j1 j2 : Nat}
    (h1 : Stop2W nodes q dB j1) (h2 : Stop2W nodes q dB j2) : j1 = j2 := by
  rcases Nat.lt_trichotomy j1 j2 with h | h | h
  · exact absurd (h2.1 j1 h) h1.2
  · exact h
  · exact absurd (h1.1 j2 h) h2.2

/-- `walkLoop2` computes the pair function at the bounded stop index. -/
theorem walkLoop2_pairAt (nodes : List TrieNode) (q : List Nat) (dB : Nat) :
    ∀ (dj j0 fuel : Nat), dj < fuel →
    (∀ i, i < dj → fwd2 nodes dB (pairAt nodes q (j0 + i))) →
    ¬ fwd2 nodes dB (pairAt nodes q (j0 + dj)) →
    walkLoop2 nodes q dB fuel (pairAt nodes q j0).1 (pairAt nodes q j0).2 =
      some (pairAt nodes q (j0 + dj)) := by
  intro dj
  induction dj with
  | zero =>
    intro j0 fuel hf hg hs
    match fuel, hf with
    | fuel + 1, _ =>
      rw [Nat.add_zero] at hs
      unfold fwd2 fwdP bitn at hs
      unfold walkLoop2
      rw [if_neg hs, Nat.add_zero]
  | succ dj ih =>
    intro j0 fuel hf hg hs
    match fuel, hf with
    | fuel + 1, hf =>
      have h0 : fwd2 nodes dB (pairAt nodes q j0) := by
        have := hg 0 (Nat.succ_pos _); rwa [Nat.add_zero] at this
      unfold fwd2 fwdP bitn at h0
      unfold walkLoop2
      rw [if_pos h0]
      have harg : walkLoop2 nodes q dB fuel (pairAt nodes q j0).2
          (childOf nodes q (pairAt nodes q j0).2) =
          walkLoop2 nodes q dB fuel (pairAt nodes q (j0 + 1)).1 (pairAt nodes q (j0 + 1)).2 := rfl
      rw [harg, ih (j0 + 1) fuel (by omega)
        (fun i hi => by have := hg (i + 1) (by omega)
                        rwa [show j0 + (i + 1) = j0 + 1 + i by omega] at this)
        (by rwa [show j0 + 1 + dj = j0 + (dj + 1) by omega])]
      rw [show j0 + 1 + dj = j0 + (dj + 1) by omega]

theorem walkLoop2_eq_of_stop2W {nodes : List TrieNode} {q : List Nat} {dB j fuel : Nat}
    (hstop : Stop2W nodes q dB j) (hf : j < fuel) :
    walkLoop2 nodes q dB fuel 0 (nd nodes 0).rightRaw = some (pairAt nodes q j) := by
  have := walkLoop2_pairAt nodes q dB j 0 fuel hf
    (fun i hi => by rw [Nat.zero_add]; exact hstop.1 i hi)
    (by rw [Nat.zero_add]; exact hstop.2)
  rw [Nat.zero_add] at this
  exact this

/-- No forward arrival reaches the root's right child mid-walk. -/
theorem no_arrival_at_top {nodes : List TrieNode}
    (hroot : bitn nodes 0 = -1)
    (hbits : ∀ i, 1 ≤ i → i < nodes.length → 0 ≤ bitn nodes i)
    (hv : ValidN nodes) (h0 : 0 < nodes.length) (hufp : UFP nodes)
    (q : List Nat) {i2 : Nat} (hg : GoodW nodes q (i2 + 2)) :
    (pairAt nodes q (i2 + 1)).2 ≠ rootR nodes := by
  intro he
  have hxlt : (pairAt nodes q i2).2 < nodes.length := (pairAt_lt hv h0 q i2).2
  have hfwd : bitn nodes (pairAt nodes q i2).2 < bitn nodes (rootR nodes) := by
    have hf := hg (i2 + 1) (by omega)
    unfold fwdP at hf
    rw [show (pairAt nodes q (i2 + 1)).1 = (pairAt nodes q i2).2 from rfl, he] at hf
    exact hf
  have hedge : slotc nodes (pairAt nodes q i2).2
      (decide (getBit q (bitn nodes (pairAt nodes q i2).2) ≠ 0)) = rootR nodes := by
    rw [← childOf_eq_slotc]
    exact he
  have h0bit : bitn nodes 0 < bitn nodes (rootR nodes) := by
    rw [hroot]
    exact lt_of_le_of_lt (bitn_ge_neg_one hroot hbits hxlt) hfwd
  obtain ⟨hx0, -⟩ := hufp (rootR nodes) (pairAt nodes q i2).2 _ 0 true hxlt h0
    hedge rfl hfwd h0bit
  have hf2 := hg i2 (by omega)
  unfold fwdP at hf2
  rw [hx0, hroot] at hf2
  have := bitn_ge_neg_one hroot hbits (pairAt_lt hv h0 q i2).1
  omega

/-- Two walks arriving at the same node at steps `j1`, `j2` (both still
forward) took the same number of steps and coincide pairwise. -/
theorem arrive_unique {nodes : List TrieNode}
    (hroot : bitn nodes 0 = -1)
    (hbits : ∀ i, 1 ≤ i → i < nodes.length → 0 ≤ bitn nodes i)
    (hv : ValidN nodes) (h0 : 0 < nodes.length) (hufp : UFP nodes) :
    ∀ (j1 : Nat) {j2 : Nat} (q1 q2 : List Nat),
      GoodW nodes q1 (j1 + 1) → GoodW nodes q2 (j2 + 1) →
      (pairAt nodes q1 j1).2 = (pairAt nodes q2 j2).2 →
      j1 = j2 ∧ ∀ i, i ≤ j1 → pairAt nodes q1 i = pairAt nodes q2 i := by
  intro j1
  induction j1 with
  | zero =>
    intro j2 q1 q2 hg1 hg2 he
    match j2 with
    | 0 =>
      refine ⟨rfl, fun i hi => ?_⟩
      have : i = 0 := by omega
      rw [this]
      rfl
    | i2 + 1 =>
      exact absurd he.symm (no_arrival_at_top hroot hbits hv h0 hufp q2 hg2)
  | succ i1 ih =>
    intro j2 q1 q2 hg1 hg2 he
    match j2 with
    | 0 =>
      exact absurd he (no_arrival_at_top hroot hbits hv h0 hufp q1 hg1)
    | i2 + 1 =>
      have hx1lt : (pairAt nodes q1 i1).2 < nodes.length := (pairAt_lt hv h0 q1 i1).2
      have hx2lt : (pairAt nodes q2 i2).2 < nodes.length := (pairAt_lt hv h0 q2 i2).2
      have hf1 := hg1 (i1 + 1) (by omega)
      unfold fwdP at hf1
      have hf2 := hg2 (i2 + 1) (by omega)
      unfold fwdP at hf2
      rw [← he] at hf2
      have hedge1 : slotc nodes (pairAt nodes q1 i1).2
          (decide (getBit q1 (bitn nodes (pairAt nodes q1 i1).2) ≠ 0)) =
          (pairAt nodes q1 (i1 + 1)).2 := (childOf_eq_slotc nodes q1 _).symm
      have hedge2 : slotc nodes (pairAt nodes q2 i2).2
          (decide (getBit q2 (bitn nodes (pairAt nodes q2 i2).2) ≠ 0)) =
          (pairAt nodes q1 (i1 + 1)).2 := by
        rw [← childOf_eq_slotc]
        exact he.symm
      obtain ⟨hx, hs⟩ := hufp (pairAt nodes q1 (i1 + 1)).2 _ _ _ _ hx1lt hx2lt
        hedge1 hedge2 hf1 hf2
      obtain ⟨hi, hpairs⟩ := ih q1 q2 (goodW_mono hg1 (by omega))
        (goodW_mono hg2 (by omega)) hx
      subst hi
      refine ⟨rfl, fun i hile => ?_⟩
      rcases Nat.lt_or_ge i (i1 + 1) with hi' | hi'
      · exact hpairs i (by omega)
      · have : i = i1 + 1 := by omega
        subst this
        show ((pairAt nodes q1 i1).2, childOf nodes q1 (pairAt nodes q1 i1).2) =
          ((pairAt nodes q2 i1).2, childOf nodes q2 (pairAt nodes q2 i1).2)
        rw [childOf_eq_slotc nodes q1, childOf_eq_slotc nodes q2, hx]
        rw [hx] at hs
        rw [hs]
  termination_by j1 => j1

/-! ### Bit and byte helpers for `getBit` and `firstDifferingBit` -/

/-- Byte `i` of a byte string, 0 past the end. -/
def byteAt (x : List Nat) (i : Nat) : Nat :=
  if i < x.length then x.getD i 0 else 0

/-- Bit `t` of a natural number. -/
def nbit (x t : Nat) : Nat := x / 2 ^ t % 2

/-- Bit `β` of a byte string, LSB-first within each byte. -/
def bitAt (x : List Nat) (β : Nat) : Nat := nbit (byteAt x (β / 8)) (β % 8)

/-- A well-formed key: non-empty, NUL-free, byte-valued. -/
def KeyOK (k : List Nat) : Prop := k ≠ [] ∧ ∀ c ∈ k, c ≠ 0 ∧ c < 256

theorem nbit_le_one (x t : Nat) : nbit x t ≤ 1 := by
  unfold nbit; omega

theorem nbit_eq_testBit (x t : Nat) : nbit x t = (x.testBit t).toNat := by
  rw [Nat.testBit_to_div_mod]
  unfold nbit
  rcases Nat.mod_two_eq_zero_or_one (x / 2 ^ t) with h | h <;> rw [h] <;> simp

theorem shift_and_one (x t : Nat) : x >>> t &&& 1 = nbit x t := by
  rw [Nat.and_one_is_mod, Nat.shiftRight_eq_div_pow]; rfl

theorem and_shift_ne_zero (x t : Nat) : x &&& (1 <<< t) ≠ 0 ↔ nbit x t = 1 := by
  rw [Nat.one_shiftLeft, Nat.and_two_pow, nbit_eq_testBit]
  cases x.testBit t <;> simp

theorem nbit_xor_ne (x y t : Nat) : nbit (x ^^^ y) t = 1 ↔ nbit x t ≠ nbit y t := by
  rw [nbit_eq_testBit, nbit_eq_testBit, nbit_eq_testBit, Nat.testBit_xor]
  cases hx : x.testBit t <;> cases hy : y.testBit t <;> simp

theorem nbit_eq_zero_all {x n : Nat} (hlt : x < 2 ^ n)
    (h : ∀ t, t < n → nbit x t = 0) : x = 0 := by
  refine Nat.eq_of_testBit_eq fun i => ?_
  rcases Nat.lt_or_ge i n with hi | hi
  · have := h i hi
    rw [nbit_eq_testBit] at this
    cases hb : x.testBit i
    · simp
    · rw [hb] at this; simp at this
  · rw [Nat.testBit_lt_two_pow (lt_of_lt_of_le hlt (Nat.pow_le_pow_right (by omega) hi))]
    simp

/-- `getBit` at a nonnegative index is `bitAt` at its `toNat`. -/
theorem getBit_eq_bitAt {t : Int} (ht : 0 ≤ t) (x : List Nat) :
    getBit x t = bitAt x t.toNat := by
  unfold getBit bitAt byteAt
  rw [if_neg (by omega)]
  by_cases h : x.length ≤ t.toNat / 8
  · rw [if_pos h, if_neg (by omega)]
    unfold nbit
    simp
  · rw [if_neg h, if_pos (by omega), shift_and_one]

theorem getBit_ofNat (x : List Nat) (b : Nat) :
    getBit x (b : Int) = bitAt x b := by
  rw [getBit_eq_bitAt (by omega), Int.toNat_ofNat]

theorem getBit_neg {t : Int} (ht : t < 0) (x : List Nat) : getBit x t = 2 := by
  unfold getBit
  rw [if_pos ht]

theorem bitAt_le_one (x : List Nat) (β : Nat) : bitAt x β ≤ 1 := nbit_le_one _ _

theorem bitAt_nil (β : Nat) : bitAt [] β = 0 := by
  unfold bitAt byteAt nbit
  simp

theorem byteAt_lt_256 {x : List Nat} (hx : ∀ c ∈ x, c < 256) (i : Nat) :
    byteAt x i < 256 := by
  unfold byteAt
  by_cases h : i < x.length
  · rw [if_pos h]
    exact hx _ (List.getD_eq_getElem x 0 h ▸ List.getElem_mem _)
  · rw [if_neg h]; omega

/-- Two distinct NUL-free byte strings differ at some byte below the longer
length. -/
theorem exists_differing_byte {a b : List Nat}
    (hna : ∀ c ∈ a, c ≠ 0) (hnb : ∀ c ∈ b, c ≠ 0) (hne : a ≠ b) :
    ∃ i, i < max a.length b.length ∧ byteAt a i ≠ byteAt b i := by
  by_contra hall
  push_neg at hall
  apply hne
  have hlen : a.length = b.length := by
    by_contra hl
    rcases Nat.lt_or_ge a.length b.length with h | h
    · have h1 := hall a.length (by omega)
      unfold byteAt at h1
      rw [if_neg (by omega), if_pos h] at h1
      exact hnb _ (List.getD_eq_getElem b 0 h ▸ List.getElem_mem _) h1.symm
    · have h' : b.length < a.length := by omega
      have h1 := hall b.length (by omega)
      unfold byteAt at h1
      rw [if_pos h', if_neg (by omega)] at h1
      exact hna _ (List.getD_eq_getElem a 0 h' ▸ List.getElem_mem _) h1
  refine List.ext_getElem hlen fun i hia hib => ?_
  have h1 := hall i (by omega)
  unfold byteAt at h1
  rw [if_pos hia, if_pos hib] at h1
  rw [List.getD_eq_getElem a 0 hia, List.getD_eq_getElem b 0 hib] at h1
  exact h1

theorem findLowBitAux_spec (diff : Nat) :
    ∀ fuel start, (∃ t, start ≤ t ∧ t < start + fuel ∧ nbit diff t = 1) →
    ∃ r, findLowBitAux diff fuel start = some r ∧ start ≤ r ∧ r < start + fuel ∧
      nbit diff r = 1 ∧ ∀ t, start ≤ t → t < r → nbit diff t = 0 := by
  intro fuel
  induction fuel with
  | zero =>
    intro start ⟨t, h1, h2, _⟩
    omega
  | succ fuel ih =>
    intro start hex
    by_cases h : diff &&& (1 <<< start) ≠ 0
    · refine ⟨start, ?_, le_refl _, by omega, (and_shift_ne_zero diff start).1 h,
        fun t h1 h2 => by omega⟩
      unfold findLowBitAux
      rw [if_pos h]
    · have hz : nbit diff start = 0 := by
        have h1 := (and_shift_ne_zero diff start).2
        have := nbit_le_one diff start
        omega
      obtain ⟨t, ht1, ht2, ht3⟩ := hex
      have hex' : ∃ t, start + 1 ≤ t ∧ t < start + 1 + fuel ∧ nbit diff t = 1 := by
        refine ⟨t, ?_, by omega, ht3⟩
        rcases Nat.eq_or_lt_of_le ht1 with he | hlt
        · rw [← he] at ht3; omega
        · omega
      obtain ⟨r, hr1, hr2, hr3, hr4, hr5⟩ := ih (start + 1) hex'
      refine ⟨r, ?_, by omega, by omega, hr4, fun u hu1 hu2 => ?_⟩
      · unfold findLowBitAux
        rw [if_neg h]
        exact hr1
      · rcases Nat.eq_or_lt_of_le hu1 with he | hlt
        · rw [← he]; exact hz
        · exact hr5 u hlt hu2

theorem firstDifferingBitFrom_spec (a b : List Nat)
    (ha256 : ∀ c ∈ a, c < 256) (hb256 : ∀ c ∈ b, c < 256) :
    ∀ fuel idx, (∃ i, idx ≤ i ∧ i < idx + fuel ∧ byteAt a i ≠ byteAt b i) →
    (∀ i, i < idx → byteAt a i = byteAt b i) →
    bitAt a (firstDifferingBitFrom a b fuel idx) ≠
        bitAt b (firstDifferingBitFrom a b fuel idx) ∧
      (∀ β, β < firstDifferingBitFrom a b fuel idx → bitAt a β = bitAt b β) ∧
      firstDifferingBitFrom a b fuel idx < (idx + fuel) * 8 := by
  intro fuel
  induction fuel with
  | zero =>
    intro idx ⟨i, h1, h2, _⟩
    omega
  | succ fuel ih =>
    intro idx hex hagree
    have hba : (if idx < a.length then a.getD idx 0 else 0) = byteAt a idx := rfl
    have hbb : (if idx < b.length then b.getD idx 0 else 0) = byteAt b idx := rfl
    by_cases hne : byteAt a idx ≠ byteAt b idx
    · have hdne : byteAt a idx ^^^ byteAt b idx ≠ 0 := by
        intro h
        exact hne (Nat.xor_eq_zero.1 h)
      have h256a : byteAt a idx < 2 ^ 8 := by
        have := byteAt_lt_256 ha256 idx; omega
      have h256b : byteAt b idx < 2 ^ 8 := by
        have := byteAt_lt_256 hb256 idx; omega
      have hdlt : byteAt a idx ^^^ byteAt b idx < 2 ^ 8 :=
        Nat.xor_lt_two_pow h256a h256b
      have hexbit : ∃ t, 0 ≤ t ∧ t < 0 + 8 ∧ nbit (byteAt a idx ^^^ byteAt b idx) t = 1 := by
        by_contra hall
        push_neg at hall
        refine hdne (nbit_eq_zero_all hdlt fun t ht => ?_)
        have h1 := hall t (by omega) (by omega)
        have := nbit_le_one (byteAt a idx ^^^ byteAt b idx) t
        omega
      obtain ⟨r, hr1, hr2, hr3, hr4, hr5⟩ :=
        findLowBitAux_spec (byteAt a idx ^^^ byteAt b idx) 8 0 hexbit
      have hres : firstDifferingBitFrom a b (fuel + 1) idx = idx * 8 + r := by
        unfold firstDifferingBitFrom
        rw [hba, hbb, if_pos hne, hr1]
      rw [hres]
      have hdiv : (idx * 8 + r) / 8 = idx := by omega
      have hmod : (idx * 8 + r) % 8 = r := by omega
      refine ⟨?_, fun β hβ => ?_, by omega⟩
      · unfold bitAt
        rw [hdiv, hmod]
        exact (nbit_xor_ne _ _ r).1 hr4
      · unfold bitAt
        by_cases hlow : β / 8 < idx
        · rw [hagree _ hlow]
        · have hd : β / 8 = idx := by omega
          have hm : β % 8 < r := by omega
          rw [hd]
          have := hr5 (β % 8) (by omega) hm
          have h1 := (nbit_xor_ne (byteAt a idx) (byteAt b idx) (β % 8)).1
          have h2 := nbit_le_one (byteAt a idx) (β % 8)
          have h3 := nbit_le_one (byteAt b idx) (β % 8)
          by_contra hcon
          have : nbit (byteAt a idx ^^^ byteAt b idx) (β % 8) = 1 :=
            (nbit_xor_ne _ _ _).2 hcon
          omega
    · push_neg at hne
      obtain ⟨i, hi1, hi2, hi3⟩ := hex
      have hex' : ∃ i, idx + 1 ≤ i ∧ i < idx + 1 + fuel ∧ byteAt a i ≠ byteAt b i := by
        refine ⟨i, ?_, by omega, hi3⟩
        rcases Nat.eq_or_lt_of_le hi1 with he | hlt
        · rw [← he] at hi3; exact absurd hne hi3
        · omega
      have hagree' : ∀ i, i < idx + 1 → byteAt a i = byteAt b i := by
        intro i hi
        rcases Nat.lt_or_ge i idx with h | h
        · exact hagree i h
        · have : i = idx := by omega
          rw [this]; exact hne
      have hres : firstDifferingBitFrom a b (fuel + 1) idx =
          firstDifferingBitFrom a b fuel (idx + 1) := by
        conv_lhs => unfold firstDifferingBitFrom
        rw [hba, hbb, if_neg (by omega : ¬byteAt a idx ≠ byteAt b idx)]
      rw [hres]
      have := ih (idx + 1) hex' hagree'
      refine ⟨this.1, this.2.1, by omega⟩

/-- Specification of `firstDifferingBit` for distinct byte-valued NUL-free
strings: below the longer length, the two bit streams differ there and
agree strictly below. -/
theorem firstDifferingBit_spec {a b : List Nat}
    (ha256 : ∀ c ∈ a, c < 256) (hb256 : ∀ c ∈ b, c < 256)
    (hna : ∀ c ∈ a, c ≠ 0) (hnb : ∀ c ∈ b, c ≠ 0) (hne : a ≠ b) :
    bitAt a (firstDifferingBit a b) ≠ bitAt b (firstDifferingBit a b) ∧
      (∀ β, β < firstDifferingBit a b → bitAt a β = bitAt b β) ∧
      firstDifferingBit a b < max a.length b.length * 8 := by
  obtain ⟨i, hi1, hi2⟩ := exists_differing_byte hna hnb hne
  have := firstDifferingBitFrom_spec a b ha256 hb256 (max a.length b.length) 0
    ⟨i, by omega, by omega, hi2⟩ (fun i hi => by omega)
  unfold firstDifferingBit
  refine ⟨this.1, this.2.1, by have := this.2.2; omega⟩

/-! ### The trie invariant -/

/-- Invariant of the builder state after at least one successful insertion.
`keyData.getD i []` is the key stored at node `i` (`[]` at the sentinel). -/
structure TrieInv (st : PatriciaTrieBuilder) : Prop where
  len_kd : st.keyData.length = st.nodes.length
  two_le : 2 ≤ st.nodes.length
  root_bit : bitn st.nodes 0 = -1
  kd0 : st.keyData.getD 0 [] = []
  bits_nn : ∀ i, 1 ≤ i → i < st.nodes.length → 0 ≤ bitn st.nodes i
  valid : ValidN st.nodes
  dslots : DSlots st.nodes
  ufp : UFP st.nodes
  keys_ok : ∀ i, 1 ≤ i → i < st.nodes.length → KeyOK (st.keyData.getD i [])
  p1 : ∀ i, 1 ≤ i → i < st.nodes.length →
    ∃ j, StopW st.nodes (st.keyData.getD i []) j ∧
      (pairAt st.nodes (st.keyData.getD i []) j).2 = i
  p2 : ∀ q j, StopW st.nodes q j → ∀ i, i < j →
    getBit q (bitn st.nodes (pairAt st.nodes q i).2) =
      getBit (st.keyData.getD (pairAt st.nodes q j).2 [])
        (bitn st.nodes (pairAt st.nodes q i).2)
  pagree : ∀ i1 i2 j1 j2 u1 u2, 1 ≤ i1 → i1 < st.nodes.length →
    1 ≤ i2 → i2 < st.nodes.length →
    StopW st.nodes (st.keyData.getD i1 []) j1 →
    StopW st.nodes (st.keyData.getD i2 []) j2 → u1 ≤ j1 → u2 ≤ j2 →
    pairAt st.nodes (st.keyData.getD i1 []) u1 =
      pairAt st.nodes (st.keyData.getD i2 []) u2 →
    fwdP st.nodes (pairAt st.nodes (st.keyData.getD i1 []) u1) →
    ∀ b : Nat, (b : Int) < bitn st.nodes (pairAt st.nodes (st.keyData.getD i1 []) u1).2 →
      bitAt (st.keyData.getD i1 []) b = bitAt (st.keyData.getD i2 []) b
  invz : ∀ jz, StopW st.nodes [] jz → (pairAt st.nodes [] jz).2 = 0 →
    ∀ i ji ti tz, 1 ≤ i → i < st.nodes.length →
    StopW st.nodes (st.keyData.getD i []) ji → ti ≤ ji → tz ≤ jz →
    pairAt st.nodes (st.keyData.getD i []) ti = pairAt st.nodes [] tz →
    fwdP st.nodes (pairAt st.nodes [] tz) →
    ∀ b : Nat, (b : Int) < bitn st.nodes (pairAt st.nodes [] tz).2 →
      bitAt (st.keyData.getD i []) b = 0

theorem getBit_le_one {t : Int} (ht : 0 ≤ t) (x : List Nat) : getBit x t ≤ 1 := by
  rw [getBit_eq_bitAt ht]
  exact bitAt_le_one x _

theorem bitval_eq_of_iff {a b : Nat} (ha : a ≤ 1) (hb : b ≤ 1)
    (h : a ≠ 0 ↔ b ≠ 0) : a = b := by omega

theorem childOf_slot_iff {nodes : List TrieNode} (hds : DSlots nodes)
    {x : Nat} (hx : x < nodes.length) {q1 q2 : List Nat}
    (h : childOf nodes q1 x = childOf nodes q2 x) :
    (getBit q1 (bitn nodes x) ≠ 0 ↔ getBit q2 (bitn nodes x) ≠ 0) := by
  unfold childOf at h
  unfold bitn
  by_cases h1 : getBit q1 (nd nodes x).bitIndex ≠ 0 <;>
    by_cases h2 : getBit q2 (nd nodes x).bitIndex ≠ 0
  · exact iff_of_true h1 h2
  · rw [if_pos h1, if_neg h2] at h
    exact absurd h.symm (hds x hx)
  · rw [if_neg h1, if_pos h2] at h
    exact absurd h (hds x hx)
  · exact iff_of_false h1 h2

theorem childOf_val_eq {nodes : List TrieNode} (hds : DSlots nodes)
    {x : Nat} (hx : x < nodes.length) (hb : 0 ≤ bitn nodes x) {q1 q2 : List Nat}
    (h : childOf nodes q1 x = childOf nodes q2 x) :
    getBit q1 (bitn nodes x) = getBit q2 (bitn nodes x) :=
  bitval_eq_of_iff (getBit_le_one hb q1) (getBit_le_one hb q2)
    (childOf_slot_iff hds hx h)

theorem rootR_pos {st : PatriciaTrieBuilder} (hinv : TrieInv st) :
    1 ≤ rootR st.nodes := by
  by_contra h
  push_neg at h
  have hr0 : rootR st.nodes = 0 := by omega
  obtain ⟨j, hstop, hend⟩ := hinv.p1 1 (le_refl _) (by have := hinv.two_le; omega)
  have hstop0 : StopW st.nodes (st.keyData.getD 1 []) 0 := by
    constructor
    · intro i hi; omega
    · show ¬ fwdP st.nodes (0, rootR st.nodes)
      rw [hr0]
      unfold fwdP
      rw [hinv.root_bit]
      omega
  have := stopW_unique hstop hstop0
  rw [this] at hend
  have : rootR st.nodes = 1 := hend
  omega

/-- Mid-walk current nodes have nonnegative bit index. -/
theorem bitn_curr_nonneg {st : PatriciaTrieBuilder} (hinv : TrieInv st)
    (q : List Nat) {j i : Nat} (hgood : GoodW st.nodes q j) (hi : i < j) :
    0 ≤ bitn st.nodes (pairAt st.nodes q i).2 := by
  have hfwd := hgood i hi
  unfold fwdP at hfwd
  have h1 : (pairAt st.nodes q i).1 < st.nodes.length :=
    (pairAt_lt hinv.valid (by have := hinv.two_le; omega) q i).1
  have := bitn_ge_neg_one hinv.root_bit hinv.bits_nn h1
  omega

/-- The state after the first insertion. -/
def firstState (k : List Nat) (si mi : Nat) : PatriciaTrieBuilder :=
  { nodes := [⟨0, -1, 0x80000000, 0, 1⟩,
      ⟨mi, (firstDifferingBit k [] : Int), si ||| 0x80000000, 0, 1⟩],
    keyData := [[], k] }

theorem fdb_nil_bit {k : List Nat} (hk : KeyOK k) :
    getBit k ((firstDifferingBit k [] : Nat) : Int) ≠ 0 ∧
      (∀ β, β < firstDifferingBit k [] → bitAt k β = 0) ∧
      firstDifferingBit k [] < k.length * 8 := by
  have hspec := firstDifferingBit_spec (fun c hc => (hk.2 c hc).2)
    (fun c hc => absurd hc (List.not_mem_nil c))
    (fun c hc => (hk.2 c hc).1) (fun c hc => absurd hc (List.not_mem_nil c)) hk.1
  rw [getBit_ofNat]
  refine ⟨?_, fun β hβ => ?_, ?_⟩
  · intro h
    rw [h, bitAt_nil] at hspec
    exact hspec.1 rfl
  · have := hspec.2.1 β hβ
    rwa [bitAt_nil] at this
  · have := hspec.2.2
    simp only [List.length_nil] at this
    omega

theorem insertKey_first (k : List Nat) (si mi : Nat) (hk : KeyOK k) :
    insertKey initialTrieState k si mi = .ok (firstState k si mi) := by
  unfold insertKey initialTrieState
  simp only [List.length_cons, List.length_nil]
  rw [if_pos trivial, if_pos (fdb_nil_bit hk).1]
  rfl

theorem firstState_rootR (k : List Nat) (si mi : Nat) :
    rootR (firstState k si mi).nodes = 1 := rfl

theorem firstState_stop (k : List Nat) (si mi : Nat) (q : List Nat) :
    StopW (firstState k si mi).nodes q 1 := by
  constructor
  · intro i hi
    have : i = 0 := by omega
    subst this
    show bitn (firstState k si mi).nodes 0 < bitn (firstState k si mi).nodes 1
    show (-1 : Int) < (firstDifferingBit k [] : Int)
    omega
  · show ¬ fwdP _ (1, childOf (firstState k si mi).nodes q 1)
    unfold fwdP childOf
    by_cases h : getBit q (nd (firstState k si mi).nodes 1).bitIndex ≠ 0
    · rw [if_pos h]
      show ¬ (firstDifferingBit k [] : Int) < (firstDifferingBit k [] : Int)
      omega
    · rw [if_neg h]
      show ¬ (firstDifferingBit k [] : Int) < (-1 : Int)
      omega

theorem firstState_inv (k : List Nat) (si mi : Nat) (hk : KeyOK k) :
    TrieInv (firstState k si mi) := by
  obtain ⟨hbit, hagr, hlt⟩ := fdb_nil_bit hk
  have hnd1bit : (nd (firstState k si mi).nodes 1).bitIndex =
      (firstDifferingBit k [] : Int) := rfl
  have hchild : childOf (firstState k si mi).nodes k 1 = 1 := by
    unfold childOf
    rw [hnd1bit, if_pos hbit]
    rfl
  refine ⟨rfl, Nat.le_refl 2, rfl, rfl, ?_, ?_, ?_, ?_, ?_, ?_, ?_, ?_, ?_⟩
  · -- bits_nn
    intro i h1 h2
    have hL : (firstState k si mi).nodes.length = 2 := rfl
    rw [hL] at h2
    have : i = 1 := by omega
    subst this
    show (0 : Int) ≤ (firstDifferingBit k [] : Int)
    omega
  · -- valid
    intro i hi
    have hL : (firstState k si mi).nodes.length = 2 := rfl
    rw [hL] at hi
    have : i = 0 ∨ i = 1 := by omega
    rcases this with h | h <;> subst h
    · exact ⟨show (0 : Nat) < 2 by omega, show (1 : Nat) < 2 by omega⟩
    · exact ⟨show (0 : Nat) < 2 by omega, show (1 : Nat) < 2 by omega⟩
  · -- dslots
    intro u hu
    have hL : (firstState k si mi).nodes.length = 2 := rfl
    rw [hL] at hu
    have : u = 0 ∨ u = 1 := by omega
    rcases this with h | h <;> subst h
    · exact show (0 : Nat) ≠ 1 by omega
    · exact show (0 : Nat) ≠ 1 by omega
  · -- ufp
    intro w x1 s1 x2 s2 hx1 hx2 he1 he2 hf1 hf2
    have hL : (firstState k si mi).nodes.length = 2 := rfl
    rw [hL] at hx1 hx2
    have key : ∀ x s, x < 2 → slotc (firstState k si mi).nodes x s = w →
        bitn (firstState k si mi).nodes x < bitn (firstState k si mi).nodes w →
        x = 0 ∧ s = true := by
      intro x s hx he hf
      have hb0 : bitn (firstState k si mi).nodes 0 = -1 := rfl
      have hb1 : bitn (firstState k si mi).nodes 1 =
        (firstDifferingBit k [] : Int) := rfl
      have : x = 0 ∨ x = 1 := by omega
      rcases this with h | h <;> subst h <;> cases s
      · exfalso
        have hw : w = 0 := he.symm
        subst hw
        rw [hb0] at hf
        omega
      · exact ⟨rfl, rfl⟩
      · exfalso
        have hw : w = 0 := he.symm
        subst hw
        rw [hb1, hb0] at hf
        omega
      · exfalso
        have hw : w = 1 := he.symm
        subst hw
        rw [hb1] at hf
        omega
    obtain ⟨ha1, ha2⟩ := key x1 s1 hx1 he1 hf1
    obtain ⟨hb1, hb2⟩ := key x2 s2 hx2 he2 hf2
    subst ha1 ha2 hb1 hb2
    exact ⟨rfl, rfl⟩
  · -- keys_ok
    intro i h1 h2
    have hL : (firstState k si mi).nodes.length = 2 := rfl
    rw [hL] at h2
    have : i = 1 := by omega
    subst this
    exact hk
  · -- p1
    intro i h1 h2
    have hL : (firstState k si mi).nodes.length = 2 := rfl
    rw [hL] at h2
    have : i = 1 := by omega
    subst this
    exact ⟨1, firstState_stop k si mi _, hchild⟩
  · -- p2
    intro q j hstop i hij
    have hj : j = 1 := stopW_unique hstop (firstState_stop k si mi q)
    subst hj
    have : i = 0 := by omega
    subst this
    by_cases h : getBit q (firstDifferingBit k [] : Int) ≠ 0
    · have hleaf : (pairAt (firstState k si mi).nodes q 1).2 = 1 := by
        show childOf (firstState k si mi).nodes q 1 = 1
        unfold childOf
        rw [hnd1bit, if_pos h]
        rfl
      rw [hleaf]
      show getBit q (firstDifferingBit k [] : Int) = getBit k (firstDifferingBit k [] : Int)
      have l1 := getBit_le_one (by omega : (0:Int) ≤ (firstDifferingBit k [] : Int)) q
      have l2 := getBit_le_one (by omega : (0:Int) ≤ (firstDifferingBit k [] : Int)) k
      omega
    · have hleaf : (pairAt (firstState k si mi).nodes q 1).2 = 0 := by
        show childOf (firstState k si mi).nodes q 1 = 0
        unfold childOf
        rw [hnd1bit, if_neg h]
        rfl
      rw [hleaf]
      show getBit q (firstDifferingBit k [] : Int) = getBit [] (firstDifferingBit k [] : Int)
      have h' : getBit q (firstDifferingBit k [] : Int) = 0 := by
        by_contra hc
        exact h hc
      rw [h', getBit_ofNat, bitAt_nil]
  · -- pagree
    intro i1 i2 j1 j2 u1 u2 h1a h1b h2a h2b
    have hL : (firstState k si mi).nodes.length = 2 := rfl
    rw [hL] at h1b h2b
    have e1 : i1 = 1 := by omega
    have e2 : i2 = 1 := by omega
    subst e1 e2
    intro _ _ _ _ _ _ b _
    rfl
  · -- invz
    intro jz hstopz hleafz i ji ti tz h1 h2 hstopi hti htz hpair hfwd b hb
    have hL : (firstState k si mi).nodes.length = 2 := rfl
    rw [hL] at h2
    have : i = 1 := by omega
    subst this
    have hjz : jz = 1 := stopW_unique hstopz (firstState_stop k si mi [])
    have hji : ji = 1 := stopW_unique hstopi (firstState_stop k si mi _)
    subst hjz hji
    have hgz : getBit ([] : List Nat) (nd (firstState k si mi).nodes 1).bitIndex = 0 := by
      rw [hnd1bit, getBit_ofNat, bitAt_nil]
    have hc0 : childOf (firstState k si mi).nodes [] 1 = 0 := by
      unfold childOf
      rw [if_neg (show ¬ getBit ([] : List Nat)
        (nd (firstState k si mi).nodes 1).bitIndex ≠ 0 from fun hf => hf hgz)]
      rfl
    have htz0 : tz = 0 := by
      by_contra hne
      have : tz = 1 := by omega
      subst this
      rw [show pairAt (firstState k si mi).nodes [] 1 =
        (1, childOf (firstState k si mi).nodes [] 1) from rfl, hc0] at hfwd
      have hfwd2 : (firstDifferingBit k [] : Int) < -1 := hfwd
      omega
    subst htz0
    have hbter : bitn (firstState k si mi).nodes
        (pairAt (firstState k si mi).nodes [] 0).2 =
        (firstDifferingBit k [] : Int) := rfl
    rw [hbter] at hb
    show bitAt k b = 0
    exact hagr b (by omega)

/-! ### General insertion: the spliced state and its facts -/

/-- Leaf of the first walk (`curr` after loop 1). -/
def insC (st : PatriciaTrieBuilder) (k : List Nat) (jk : Nat) : Nat :=
  (pairAt st.nodes k jk).2

/-- The closest key found by the first walk. -/
def insKc (st : PatriciaTrieBuilder) (k : List Nat) (jk : Nat) : List Nat :=
  st.keyData.getD (insC st k jk) []

/-- The differing bit with the closest key. -/
def insD (st : PatriciaTrieBuilder) (k : List Nat) (jk : Nat) : Nat :=
  firstDifferingBit k (insKc st k jk)

/-- `prev` after the second walk. -/
def insP (st : PatriciaTrieBuilder) (k : List Nat) (jd : Nat) : Nat :=
  (pairAt st.nodes k jd).1

/-- `curr` after the second walk. -/
def insT (st : PatriciaTrieBuilder) (k : List Nat) (jd : Nat) : Nat :=
  (pairAt st.nodes k jd).2

/-- The new node spliced in for the key. -/
def insNewNode (st : PatriciaTrieBuilder) (k : List Nat) (si mi jk jd : Nat) : TrieNode :=
  if getBit k (insD st k jk : Int) ≠ 0 then
    ⟨mi, (insD st k jk : Int), si ||| 0x80000000, insT st k jd, st.nodes.length⟩
  else
    ⟨mi, (insD st k jk : Int), si ||| 0x80000000, st.nodes.length, insT st k jd⟩

/-- Which slot of the parent is rewired. -/
def insGoR (st : PatriciaTrieBuilder) (k : List Nat) (jd : Nat) : Bool :=
  if (nd st.nodes (insP st k jd)).bitIndex < 0 then true
  else decide (getBit k (nd st.nodes (insP st k jd)).bitIndex ≠ 0)

/-- The rewired parent node. -/
def insParent (st : PatriciaTrieBuilder) (k : List Nat) (jd : Nat) : TrieNode :=
  if insGoR st k jd then
    { nd st.nodes (insP st k jd) with rightRaw := st.nodes.length }
  else
    { nd st.nodes (insP st k jd) with leftRaw := st.nodes.length }

/-- The node array after the splice. -/
def insNodes (st : PatriciaTrieBuilder) (k : List Nat) (si mi jk jd : Nat) : List TrieNode :=
  (st.nodes ++ [insNewNode st k si mi jk jd]).set (insP st k jd) (insParent st k jd)

/-- The builder state after the splice. -/
def insSt (st : PatriciaTrieBuilder) (k : List Nat) (si mi jk jd : Nat) : PatriciaTrieBuilder :=
  { nodes := insNodes st k si mi jk jd, keyData := st.keyData ++ [k] }

theorem nd_append_lt {l l2 : List TrieNode} {i : Nat} (h : i < l.length) :
    nd (l ++ l2) i = nd l i := by
  unfold nd
  simp [List.getD_eq_getElem?_getD, List.getElem?_append, h]

theorem nd_append_self (l : List TrieNode) (x : TrieNode) :
    nd (l ++ [x]) l.length = x := by
  unfold nd
  simp [List.getD_eq_getElem?_getD]

theorem nd_set_ne {l : List TrieNode} {i j : Nat} (h : i ≠ j) (x : TrieNode) :
    nd (l.set j x) i = nd l i := by
  unfold nd
  rw [List.getD_eq_getElem?_getD, List.getD_eq_getElem?_getD,
    List.getElem?_set_ne (fun he => h he.symm)]

theorem nd_set_self {l : List TrieNode} {j : Nat} (h : j < l.length) (x : TrieNode) :
    nd (l.set j x) j = x := by
  unfold nd
  rw [List.getD_eq_getElem?_getD, List.getElem?_set_self h]
  rfl

theorem stop2_good {nodes : List TrieNode} {q : List Nat} {dB j : Nat}
    (hs2 : Stop2W nodes q dB j) : GoodW nodes q j :=
  fun i hi => (hs2.1 i hi).1

theorem ins_jd_le {st : PatriciaTrieBuilder} {k : List Nat} {dB jk jd : Nat}
    (hs1 : StopW st.nodes k jk) (hs2 : Stop2W st.nodes k dB jd) : jd ≤ jk := by
  by_contra h
  push_neg at h
  exact hs1.2 (hs2.1 jk h).1

theorem ins_c_lt {st : PatriciaTrieBuilder} {k : List Nat} {jk : Nat}
    (hinv : TrieInv st) : insC st k jk < st.nodes.length :=
  (pairAt_lt hinv.valid (by have := hinv.two_le; omega) k jk).2

theorem ins_p_lt {st : PatriciaTrieBuilder} {k : List Nat} {jd : Nat}
    (hinv : TrieInv st) : insP st k jd < st.nodes.length :=
  (pairAt_lt hinv.valid (by have := hinv.two_le; omega) k jd).1

theorem ins_t_lt {st : PatriciaTrieBuilder} {k : List Nat} {jd : Nat}
    (hinv : TrieInv st) : insT st k jd < st.nodes.length :=
  (pairAt_lt hinv.valid (by have := hinv.two_le; omega) k jd).2

theorem ins_kc_ne {st : PatriciaTrieBuilder} {k : List Nat} {jk : Nat}
    (hinv : TrieInv st) (hk : KeyOK k)
    (hnew : ∀ i, 1 ≤ i → i < st.nodes.length → st.keyData.getD i [] ≠ k) :
    insKc st k jk ≠ k := by
  unfold insKc
  rcases Nat.eq_zero_or_pos (insC st k jk) with h | h
  · rw [h, hinv.kd0]
    exact fun he => hk.1 he.symm
  · exact hnew _ h (ins_c_lt hinv)

theorem ins_kc_ok {st : PatriciaTrieBuilder} {k : List Nat} {jk : Nat}
    (hinv : TrieInv st) : ∀ x ∈ insKc st k jk, x ≠ 0 ∧ x < 256 := by
  unfold insKc
  rcases Nat.eq_zero_or_pos (insC st k jk) with h | h
  · rw [h, hinv.kd0]
    intro x hx
    exact absurd hx (List.not_mem_nil x)
  · exact fun x hx => (hinv.keys_ok _ h (ins_c_lt hinv)).2 x hx

theorem ins_fdb {st : PatriciaTrieBuilder} {k : List Nat} {jk : Nat}
    (hinv : TrieInv st) (hk : KeyOK k)
    (hnew : ∀ i, 1 ≤ i → i < st.nodes.length → st.keyData.getD i [] ≠ k) :
    bitAt k (insD st k jk) ≠ bitAt (insKc st k jk) (insD st k jk) ∧
      (∀ β, β < insD st k jk → bitAt k β = bitAt (insKc st k jk) β) ∧
      insD st k jk < max k.length (insKc st k jk).length * 8 :=
  firstDifferingBit_spec (fun c hc => (hk.2 c hc).2)
    (fun c hc => (ins_kc_ok hinv c hc).2)
    (fun c hc => (hk.2 c hc).1)
    (fun c hc => (ins_kc_ok hinv c hc).1)
    (fun he => ins_kc_ne hinv hk hnew he.symm)

theorem ins_pbit {st : PatriciaTrieBuilder} {k : List Nat} {jk jd : Nat}
    (hinv : TrieInv st) (hs2 : Stop2W st.nodes k (insD st k jk) jd) :
    bitn st.nodes (insP st k jd) < (insD st k jk : Int) := by
  match jd with
  | 0 =>
    show bitn st.nodes (pairAt st.nodes k 0).1 < _
    show bitn st.nodes 0 < _
    rw [hinv.root_bit]
    omega
  | i + 1 =>
    exact (hs2.1 i (by omega)).2

theorem ins_p_zero_iff {st : PatriciaTrieBuilder} {k : List Nat} {jk jd : Nat}
    (hinv : TrieInv st) (hs2 : Stop2W st.nodes k (insD st k jk) jd) :
    insP st k jd = 0 ↔ jd = 0 := by
  constructor
  · intro hp
    match jd, hp with
    | 0, _ => rfl
    | i + 1, hp =>
      exfalso
      have hcur : (pairAt st.nodes k i).2 = 0 := hp
      have := bitn_curr_nonneg hinv k (stop2_good hs2) (show i < i + 1 by omega)
      rw [hcur, hinv.root_bit] at this
      omega
  · intro h
    subst h
    rfl

theorem ins_child_p {st : PatriciaTrieBuilder} {k : List Nat} {jd : Nat}
    (hinv : TrieInv st) :
    childOf st.nodes k (insP st k jd) = insT st k jd := by
  match jd with
  | 0 =>
    show childOf st.nodes k 0 = rootR st.nodes
    unfold childOf
    rw [if_pos]
    · rfl
    · rw [show (nd st.nodes 0).bitIndex = bitn st.nodes 0 from rfl, hinv.root_bit,
        getBit_neg (by omega)]
      omega
  | i + 1 => rfl

theorem ins_crossk {st : PatriciaTrieBuilder} {k : List Nat} {jd : Nat} :
    decide (getBit k (bitn st.nodes (insP st k jd)) ≠ 0) = insGoR st k jd := by
  unfold insGoR
  by_cases h : (nd st.nodes (insP st k jd)).bitIndex < 0
  · rw [if_pos h]
    have : getBit k (bitn st.nodes (insP st k jd)) = 2 := getBit_neg h k
    rw [this]
    simp
  · rw [if_neg h]
    rfl

theorem ins_slotp {st : PatriciaTrieBuilder} {k : List Nat} {jd : Nat}
    (hinv : TrieInv st) :
    slotc st.nodes (insP st k jd) (insGoR st k jd) = insT st k jd := by
  rw [← ins_crossk, ← childOf_eq_slotc]
  exact ins_child_p hinv

theorem ins_davoid {st : PatriciaTrieBuilder} {k : List Nat} {jk jd : Nat}
    (hinv : TrieInv st) (hk : KeyOK k)
    (hnew : ∀ i, 1 ≤ i → i < st.nodes.length → st.keyData.getD i [] ≠ k)
    (hs1 : StopW st.nodes k jk) (hs2 : Stop2W st.nodes k (insD st k jk) jd)
    (hfwd : fwdP st.nodes (pairAt st.nodes k jd)) :
    (insD st k jk : Int) < bitn st.nodes (insT st k jd) := by
  have hle : (insD st k jk : Int) ≤ bitn st.nodes (insT st k jd) := by
    have := hs2.2
    unfold fwd2 at this
    push_neg at this
    exact this hfwd
  rcases lt_or_eq_of_le hle with h | h
  · exact h
  · exfalso
    have hjdlt : jd < jk := by
      rcases Nat.eq_or_lt_of_le (ins_jd_le hs1 hs2) with he | hlt
      · subst he
        exact absurd hfwd hs1.2
      · exact hlt
    have hp2 := hinv.p2 k jk hs1 jd hjdlt
    have hbit : bitn st.nodes (pairAt st.nodes k jd).2 = (insD st k jk : Int) := h.symm
    rw [hbit] at hp2
    rw [getBit_ofNat, getBit_ofNat] at hp2
    exact (ins_fdb hinv hk hnew).1 hp2

theorem ins_back_c {st : PatriciaTrieBuilder} {k : List Nat} {jk jd : Nat}
    (hs1 : StopW st.nodes k jk) (hs2 : Stop2W st.nodes k (insD st k jk) jd)
    (hnf : ¬ fwdP st.nodes (pairAt st.nodes k jd)) :
    jk = jd ∧ insC st k jk = insT st k jd := by
  have hstop : StopW st.nodes k jd := ⟨stop2_good hs2, hnf⟩
  have := stopW_unique hs1 hstop
  subst this
  exact ⟨rfl, rfl⟩

theorem walk_replay {st : PatriciaTrieBuilder} (hinv : TrieInv st)
    (q1 q2 : List Nat) {j : Nat} (hstop : StopW st.nodes q1 j)
    (hag : ∀ i, i < j → getBit q2 (bitn st.nodes (pairAt st.nodes q1 i).2) =
      getBit q1 (bitn st.nodes (pairAt st.nodes q1 i).2)) :
    (∀ i, i ≤ j → pairAt st.nodes q2 i = pairAt st.nodes q1 i) ∧
      StopW st.nodes q2 j := by
  have hpairs : ∀ i, i ≤ j → pairAt st.nodes q2 i = pairAt st.nodes q1 i := by
    intro i
    induction i with
    | zero => intro _; rfl
    | succ i ih =>
      intro hle
      have hi := ih (by omega)
      show ((pairAt st.nodes q2 i).2, childOf st.nodes q2 (pairAt st.nodes q2 i).2) =
        ((pairAt st.nodes q1 i).2, childOf st.nodes q1 (pairAt st.nodes q1 i).2)
      rw [hi, childOf_eq_slotc st.nodes q2, childOf_eq_slotc st.nodes q1,
        hag i (by omega)]
  refine ⟨hpairs, fun i hi => ?_, ?_⟩
  · rw [hpairs i (by omega)]
    exact hstop.1 i hi
  · rw [hpairs j (le_refl _)]
    exact hstop.2

theorem ins_kc_replay {st : PatriciaTrieBuilder} {k : List Nat} {jk : Nat}
    (hinv : TrieInv st) (hs1 : StopW st.nodes k jk) :
    (∀ i, i ≤ jk → pairAt st.nodes (insKc st k jk) i = pairAt st.nodes k i) ∧
      StopW st.nodes (insKc st k jk) jk :=
  walk_replay hinv k (insKc st k jk) hs1
    (fun i hi => (hinv.p2 k jk hs1 i hi).symm)

theorem ins_len (st : PatriciaTrieBuilder) (k : List Nat) (si mi jk jd : Nat) :
    (insNodes st k si mi jk jd).length = st.nodes.length + 1 := by
  unfold insNodes
  rw [List.length_set, List.length_append]
  rfl

theorem nd_ins_other {st : PatriciaTrieBuilder} {k : List Nat} {si mi jk jd : Nat}
    {x : Nat} (hx : x < st.nodes.length) (hne : x ≠ insP st k jd) :
    nd (insNodes st k si mi jk jd) x = nd st.nodes x := by
  unfold insNodes
  rw [nd_set_ne hne, nd_append_lt hx]

theorem nd_ins_p {st : PatriciaTrieBuilder} {k : List Nat} {si mi jk jd : Nat}
    (hinv : TrieInv st) :
    nd (insNodes st k si mi jk jd) (insP st k jd) = insParent st k jd := by
  unfold insNodes
  have hplt : insP st k jd < st.nodes.length := ins_p_lt hinv
  rw [nd_set_self]
  rw [List.length_append]
  simp only [List.length_cons, List.length_nil]
  omega

theorem nd_ins_m {st : PatriciaTrieBuilder} {k : List Nat} {si mi jk jd : Nat}
    (hinv : TrieInv st) :
    nd (insNodes st k si mi jk jd) st.nodes.length = insNewNode st k si mi jk jd := by
  unfold insNodes
  have hplt : insP st k jd < st.nodes.length := ins_p_lt hinv
  rw [nd_set_ne (by omega), nd_append_self]

theorem bitn_ins_lt {st : PatriciaTrieBuilder} {k : List Nat} {si mi jk jd : Nat}
    (hinv : TrieInv st) {x : Nat} (hx : x < st.nodes.length) :
    bitn (insNodes st k si mi jk jd) x = bitn st.nodes x := by
  by_cases h : x = insP st k jd
  · subst h
    unfold bitn
    rw [nd_ins_p hinv]
    unfold insParent
    by_cases hg : insGoR st k jd <;> simp [hg]
  · unfold bitn
    rw [nd_ins_other hx h]

theorem bitn_ins_m {st : PatriciaTrieBuilder} {k : List Nat} {si mi jk jd : Nat}
    (hinv : TrieInv st) :
    bitn (insNodes st k si mi jk jd) st.nodes.length = (insD st k jk : Int) := by
  unfold bitn
  rw [nd_ins_m hinv]
  unfold insNewNode
  by_cases h : getBit k (insD st k jk : Int) ≠ 0 <;> simp [h]

/-- Whether a query's walk, on reaching the rewired parent, takes the
rewired slot (the same slot as the inserted key). -/
def insCrosses (st : PatriciaTrieBuilder) (k : List Nat) (jd : Nat)
    (q : List Nat) : Prop :=
  decide (getBit q (bitn st.nodes (insP st k jd)) ≠ 0) = insGoR st k jd

/-- Whether a query agrees with the inserted key at the differing bit. -/
def insSameD (st : PatriciaTrieBuilder) (k : List Nat) (jk : Nat)
    (q : List Nat) : Prop :=
  (getBit q (insD st k jk : Int) ≠ 0 ↔ getBit k (insD st k jk : Int) ≠ 0)

theorem insCrosses_k {st : PatriciaTrieBuilder} {k : List Nat} {jd : Nat} :
    insCrosses st k jd k := ins_crossk

theorem insSameD_k {st : PatriciaTrieBuilder} {k : List Nat} {jk : Nat} :
    insSameD st k jk k := Iff.rfl

theorem rootR_ins_p0 {st : PatriciaTrieBuilder} {k : List Nat} {si mi jk jd : Nat}
    (hinv : TrieInv st) (hp : insP st k jd = 0) :
    rootR (insNodes st k si mi jk jd) = st.nodes.length := by
  have hcond : (nd st.nodes (insP st k jd)).bitIndex < 0 := by
    rw [hp, show (nd st.nodes 0).bitIndex = bitn st.nodes 0 from rfl, hinv.root_bit]
    omega
  have hg : insGoR st k jd = true := by
    unfold insGoR
    rw [if_pos hcond]
  unfold rootR
  rw [show (0 : Nat) = insP st k jd from hp.symm, nd_ins_p hinv]
  unfold insParent
  rw [if_pos hg]

theorem rootR_ins_ne {st : PatriciaTrieBuilder} {k : List Nat} {si mi jk jd : Nat}
    (hinv : TrieInv st) (hp : insP st k jd ≠ 0) :
    rootR (insNodes st k si mi jk jd) = rootR st.nodes := by
  unfold rootR
  rw [nd_ins_other (by have := hinv.two_le; omega) (fun h => hp h.symm)]

theorem childOf_ins_other {st : PatriciaTrieBuilder} {k : List Nat}
    {si mi jk jd : Nat} (q : List Nat) {x : Nat} (hx : x < st.nodes.length)
    (hne : x ≠ insP st k jd) :
    childOf (insNodes st k si mi jk jd) q x = childOf st.nodes q x := by
  unfold childOf
  rw [nd_ins_other hx hne]

theorem childOf_ins_p_cross {st : PatriciaTrieBuilder} {k : List Nat}
    {si mi jk jd : Nat} {q : List Nat} (hinv : TrieInv st)
    (hc : insCrosses st k jd q) :
    childOf (insNodes st k si mi jk jd) q (insP st k jd) = st.nodes.length := by
  unfold childOf
  rw [nd_ins_p hinv]
  unfold insCrosses at hc
  unfold insParent
  by_cases hg : insGoR st k jd = true
  · rw [hg] at hc
    have hq : getBit q (nd st.nodes (insP st k jd)).bitIndex ≠ 0 :=
      of_decide_eq_true hc
    rw [if_pos hg]
    have hbi : ({ nd st.nodes (insP st k jd) with rightRaw := st.nodes.length } :
        TrieNode).bitIndex = (nd st.nodes (insP st k jd)).bitIndex := rfl
    rw [hbi, if_pos hq]
  · have hg' : insGoR st k jd = false := by
      cases hgg : insGoR st k jd
      · rfl
      · exact absurd hgg hg
    rw [hg'] at hc
    have hq : ¬ getBit q (nd st.nodes (insP st k jd)).bitIndex ≠ 0 :=
      of_decide_eq_false hc
    rw [if_neg hg]
    have hbi : ({ nd st.nodes (insP st k jd) with leftRaw := st.nodes.length } :
        TrieNode).bitIndex = (nd st.nodes (insP st k jd)).bitIndex := rfl
    rw [hbi, if_neg hq]

theorem childOf_ins_p_nocross {st : PatriciaTrieBuilder} {k : List Nat}
    {si mi jk jd : Nat} {q : List Nat} (hinv : TrieInv st)
    (hc : ¬ insCrosses st k jd q) :
    childOf (insNodes st k si mi jk jd) q (insP st k jd) =
      childOf st.nodes q (insP st k jd) := by
  unfold childOf
  rw [nd_ins_p hinv]
  unfold insCrosses at hc
  unfold insParent
  by_cases hg : insGoR st k jd = true
  · rw [hg] at hc
    have hq : ¬ getBit q (nd st.nodes (insP st k jd)).bitIndex ≠ 0 := by
      intro hne
      exact hc (decide_eq_true hne)
    rw [if_pos hg]
    have hbi : ({ nd st.nodes (insP st k jd) with rightRaw := st.nodes.length } :
        TrieNode).bitIndex = (nd st.nodes (insP st k jd)).bitIndex := rfl
    rw [hbi, if_neg hq, if_neg hq]
  · have hg' : insGoR st k jd = false := by
      cases hgg : insGoR st k jd
      · rfl
      · exact absurd hgg hg
    rw [hg'] at hc
    have hq : getBit q (nd st.nodes (insP st k jd)).bitIndex ≠ 0 := by
      by_contra hne
      exact hc (decide_eq_false (fun hnn => hnn hne))
    rw [if_neg hg]
    have hbi : ({ nd st.nodes (insP st k jd) with leftRaw := st.nodes.length } :
        TrieNode).bitIndex = (nd st.nodes (insP st k jd)).bitIndex := rfl
    rw [hbi, if_pos hq, if_pos hq]

theorem childOf_ins_m_same {st : PatriciaTrieBuilder} {k : List Nat}
    {si mi jk jd : Nat} {q : List Nat} (hinv : TrieInv st)
    (hq : insSameD st k jk q) :
    childOf (insNodes st k si mi jk jd) q st.nodes.length = st.nodes.length := by
  unfold childOf
  rw [nd_ins_m hinv]
  unfold insSameD at hq
  unfold insNewNode
  by_cases hsk : getBit k (insD st k jk : Int) ≠ 0
  · rw [if_pos hsk]
    have hbi : (⟨mi, (insD st k jk : Int), si ||| 0x80000000, insT st k jd,
        st.nodes.length⟩ : TrieNode).bitIndex = (insD st k jk : Int) := rfl
    rw [hbi, if_pos (hq.2 hsk)]
  · rw [if_neg hsk]
    have hbi : (⟨mi, (insD st k jk : Int), si ||| 0x80000000, st.nodes.length,
        insT st k jd⟩ : TrieNode).bitIndex = (insD st k jk : Int) := rfl
    rw [hbi, if_neg (fun hg => hsk (hq.1 hg))]

theorem childOf_ins_m_diff {st : PatriciaTrieBuilder} {k : List Nat}
    {si mi jk jd : Nat} {q : List Nat} (hinv : TrieInv st)
    (hq : ¬ insSameD st k jk q) :
    childOf (insNodes st k si mi jk jd) q st.nodes.length = insT st k jd := by
  unfold childOf
  rw [nd_ins_m hinv]
  unfold insSameD at hq
  unfold insNewNode
  by_cases hsk : getBit k (insD st k jk : Int) ≠ 0
  · rw [if_pos hsk]
    have hbi : (⟨mi, (insD st k jk : Int), si ||| 0x80000000, insT st k jd,
        st.nodes.length⟩ : TrieNode).bitIndex = (insD st k jk : Int) := rfl
    rw [hbi, if_neg (fun hg => hq (iff_of_true hg hsk))]
  · rw [if_neg hsk]
    have hbi : (⟨mi, (insD st k jk : Int), si ||| 0x80000000, st.nodes.length,
        insT st k jd⟩ : TrieNode).bitIndex = (insD st k jk : Int) := rfl
    rw [hbi, if_pos (by
      by_contra hng
      exact hq (iff_of_false (fun hx => hx hng) hsk))]

theorem fwdP_ins_iff {st : PatriciaTrieBuilder} {k : List Nat} {si mi jk jd : Nat}
    (hinv : TrieInv st) {pr : Nat × Nat} (h1 : pr.1 < st.nodes.length)
    (h2 : pr.2 < st.nodes.length) :
    fwdP (insNodes st k si mi jk jd) pr ↔ fwdP st.nodes pr := by
  unfold fwdP
  rw [bitn_ins_lt hinv h1, bitn_ins_lt hinv h2]

theorem crosses_of_p0 {st : PatriciaTrieBuilder} {k : List Nat} {jd : Nat}
    (hinv : TrieInv st) (hp : insP st k jd = 0) (q : List Nat) :
    insCrosses st k jd q := by
  unfold insCrosses insGoR
  rw [hp, show (nd st.nodes 0).bitIndex = bitn st.nodes 0 from rfl, hinv.root_bit]
  rw [if_pos (by omega : (-1 : Int) < 0)]
  rw [getBit_neg (by omega : (-1 : Int) < 0) q]
  simp

/-- A walk that never takes the rewired slot at the rewired parent is
unchanged by the splice. -/
theorem splice_nocross {st : PatriciaTrieBuilder} {k : List Nat} {si mi jk jd : Nat}
    (hinv : TrieInv st) {q : List Nat} {jq : Nat} (hstop : StopW st.nodes q jq)
    (hp : insP st k jd ≠ 0)
    (hna : ∀ i, i < jq → (pairAt st.nodes q i).2 = insP st k jd →
      ¬ insCrosses st k jd q) :
    (∀ i, i ≤ jq → pairAt (insNodes st k si mi jk jd) q i = pairAt st.nodes q i) ∧
      StopW (insNodes st k si mi jk jd) q jq := by
  have hL : 0 < st.nodes.length := by have := hinv.two_le; omega
  have hpairs : ∀ i, i ≤ jq →
      pairAt (insNodes st k si mi jk jd) q i = pairAt st.nodes q i := by
    intro i
    induction i with
    | zero =>
      intro _
      show (0, rootR (insNodes st k si mi jk jd)) = (0, rootR st.nodes)
      rw [rootR_ins_ne hinv hp]
    | succ i ih =>
      intro hle
      have hi := ih (by omega)
      show ((pairAt (insNodes st k si mi jk jd) q i).2,
        childOf (insNodes st k si mi jk jd) q
          (pairAt (insNodes st k si mi jk jd) q i).2) = _
      rw [hi]
      have hcur : (pairAt st.nodes q i).2 < st.nodes.length :=
        (pairAt_lt hinv.valid hL q i).2
      by_cases hcp : (pairAt st.nodes q i).2 = insP st k jd
      · rw [show childOf (insNodes st k si mi jk jd) q (pairAt st.nodes q i).2 =
          childOf st.nodes q (pairAt st.nodes q i).2 from by
            rw [hcp]
            exact childOf_ins_p_nocross hinv (hna i (by omega) hcp)]
        rfl
      · rw [childOf_ins_other q hcur hcp]
        rfl
  refine ⟨hpairs, fun i hi => ?_, ?_⟩
  · rw [hpairs i (by omega)]
    rw [fwdP_ins_iff hinv (pairAt_lt hinv.valid hL q i).1
      (pairAt_lt hinv.valid hL q i).2]
    exact hstop.1 i hi
  · rw [hpairs jq (le_refl _)]
    rw [fwdP_ins_iff hinv (pairAt_lt hinv.valid hL q jq).1
      (pairAt_lt hinv.valid hL q jq).2]
    exact hstop.2

/-- Classification: a walk either avoids the rewired slot entirely, or
contains the replaced pair `(p, t)` at some index and takes that slot. -/
theorem splice_cases {st : PatriciaTrieBuilder} {k : List Nat} {jk jd : Nat}
    (hinv : TrieInv st) (hs2 : Stop2W st.nodes k (insD st k jk) jd)
    (q : List Nat) {jq : Nat} (hstop : StopW st.nodes q jq) :
    (insP st k jd ≠ 0 ∧ ∀ i, i < jq → (pairAt st.nodes q i).2 = insP st k jd →
        ¬ insCrosses st k jd q) ∨
      (insCrosses st k jd q ∧ ∃ i1, i1 ≤ jq ∧
        pairAt st.nodes q i1 = (insP st k jd, insT st k jd)) := by
  by_cases hp : insP st k jd = 0
  · right
    refine ⟨crosses_of_p0 hinv hp q, 0, by omega, ?_⟩
    have hjd : jd = 0 := (ins_p_zero_iff hinv hs2).1 hp
    show (0, rootR st.nodes) = (insP st k jd, insT st k jd)
    rw [hp, hjd]
    rfl
  · by_cases hc : insCrosses st k jd q
    · by_cases hex : ∃ i, i < jq ∧ (pairAt st.nodes q i).2 = insP st k jd
      · right
        obtain ⟨i, hilt, hieq⟩ := hex
        refine ⟨hc, i + 1, by omega, ?_⟩
        show ((pairAt st.nodes q i).2, childOf st.nodes q (pairAt st.nodes q i).2) = _
        rw [hieq]
        have : childOf st.nodes q (insP st k jd) = insT st k jd := by
          rw [childOf_eq_slotc]
          unfold insCrosses at hc
          rw [hc]
          exact ins_slotp hinv
        rw [this]
      · left
        refine ⟨hp, fun i hilt hieq hcr => ?_⟩
        exact hex ⟨i, hilt, hieq⟩
    · left
      exact ⟨hp, fun i hilt hieq => fun hcr => hc hcr⟩

/-- A crossing walk: its pairs before the crossing index are unchanged and
at the crossing index it moves to the new node. -/
theorem splice_cross_prefix {st : PatriciaTrieBuilder} {k : List Nat}
    {si mi jk jd : Nat} (hinv : TrieInv st)
    (hs2 : Stop2W st.nodes k (insD st k jk) jd)
    {q : List Nat} {jq : Nat} (hstop : StopW st.nodes q jq)
    (hc : insCrosses st k jd q) {i1 : Nat} (hi1 : i1 ≤ jq)
    (hpair : pairAt st.nodes q i1 = (insP st k jd, insT st k jd)) :
    (∀ i, i < i1 → pairAt (insNodes st k si mi jk jd) q i = pairAt st.nodes q i) ∧
      pairAt (insNodes st k si mi jk jd) q i1 = (insP st k jd, st.nodes.length) ∧
      GoodW (insNodes st k si mi jk jd) q (i1 + 1) := by
  have hL : 0 < st.nodes.length := by have := hinv.two_le; omega
  have hprevinj : ∀ a b : Nat, a ≤ jq → b ≤ jq →
      (pairAt st.nodes q a).1 = (pairAt st.nodes q b).1 → a = b :=
    fun a b h1 h2 he => prev_inj hstop.1 h1 h2 he
  rcases Nat.eq_zero_or_pos i1 with h10 | h10
  · subst h10
    have hp0 : insP st k jd = 0 := by
      have : (pairAt st.nodes q 0).1 = insP st k jd := by rw [hpair]
      exact this.symm
    refine ⟨fun i hi => by omega, ?_, ?_⟩
    · show (0, rootR (insNodes st k si mi jk jd)) = _
      rw [rootR_ins_p0 hinv hp0, hp0]
    · intro i hi
      have : i = 0 := by omega
      subst this
      show fwdP _ (0, rootR (insNodes st k si mi jk jd))
      rw [rootR_ins_p0 hinv hp0]
      unfold fwdP
      have hb0 : bitn (insNodes st k si mi jk jd) 0 = -1 := by
        rw [bitn_ins_lt hinv (by omega), hinv.root_bit]
      rw [hb0, bitn_ins_m hinv]
      omega
  · -- i1 ≥ 1: the parent is not the root start
    have hpne : insP st k jd ≠ 0 := by
      intro hp0
      have h1 : (pairAt st.nodes q i1).1 = insP st k jd := by rw [hpair]
      have h2 : (pairAt st.nodes q i1).1 = (pairAt st.nodes q 0).1 := by
        rw [h1, hp0]
        rfl
      have := hprevinj i1 0 hi1 (by omega) h2
      omega
    have hpuniq : ∀ i, i < jq → (pairAt st.nodes q i).2 = insP st k jd →
        i + 1 = i1 := by
      intro i hilt hieq
      have h1 : (pairAt st.nodes q (i + 1)).1 = (pairAt st.nodes q i1).1 := by
        rw [hpair]
        exact hieq
      exact hprevinj (i + 1) i1 (by omega) hi1 h1
    have hpairs : ∀ i, i < i1 →
        pairAt (insNodes st k si mi jk jd) q i = pairAt st.nodes q i := by
      intro i
      induction i with
      | zero =>
        intro _
        show (0, rootR (insNodes st k si mi jk jd)) = (0, rootR st.nodes)
        rw [rootR_ins_ne hinv hpne]
      | succ i ih =>
        intro hle
        have hi := ih (by omega)
        show ((pairAt (insNodes st k si mi jk jd) q i).2,
          childOf (insNodes st k si mi jk jd) q
            (pairAt (insNodes st k si mi jk jd) q i).2) = _
        rw [hi]
        have hcur : (pairAt st.nodes q i).2 < st.nodes.length :=
          (pairAt_lt hinv.valid hL q i).2
        have hcp : (pairAt st.nodes q i).2 ≠ insP st k jd := by
          intro he
          have := hpuniq i (by omega) he
          omega
        rw [childOf_ins_other q hcur hcp]
        rfl
    have hlast : pairAt (insNodes st k si mi jk jd) q i1 =
        (insP st k jd, st.nodes.length) := by
      obtain ⟨i0, rfl⟩ : ∃ i0, i1 = i0 + 1 := ⟨i1 - 1, by omega⟩
      have hprev : (pairAt st.nodes q i0).2 = insP st k jd := by
        have : (pairAt st.nodes q (i0 + 1)).1 = insP st k jd := by rw [hpair]
        exact this
      show ((pairAt (insNodes st k si mi jk jd) q i0).2,
        childOf (insNodes st k si mi jk jd) q
          (pairAt (insNodes st k si mi jk jd) q i0).2) = _
      rw [hpairs i0 (by omega), hprev, childOf_ins_p_cross hinv hc]
    refine ⟨hpairs, hlast, fun i hi => ?_⟩
    rcases Nat.lt_or_ge i i1 with hii | hii
    · rw [hpairs i hii]
      rw [fwdP_ins_iff hinv (pairAt_lt hinv.valid hL q i).1
        (pairAt_lt hinv.valid hL q i).2]
      exact hstop.1 i (by omega)
    · have : i = i1 := by omega
      subst this
      rw [hlast]
      unfold fwdP
      rw [show ((insP st k jd, st.nodes.length) : Nat × Nat).1 = insP st k jd from rfl,
        show ((insP st k jd, st.nodes.length) : Nat × Nat).2 = st.nodes.length from rfl,
        bitn_ins_lt hinv (ins_p_lt hinv), bitn_ins_m hinv]
      exact ins_pbit hinv hs2

/-- Crossing walk whose bit at the differing position matches the key:
it now stops at the new node. -/
theorem splice_cross_same {st : PatriciaTrieBuilder} {k : List Nat}
    {si mi jk jd : Nat} (hinv : TrieInv st)
    (hs2 : Stop2W st.nodes k (insD st k jk) jd)
    {q : List Nat} {jq : Nat} (hstop : StopW st.nodes q jq)
    (hc : insCrosses st k jd q) {i1 : Nat} (hi1 : i1 ≤ jq)
    (hpair : pairAt st.nodes q i1 = (insP st k jd, insT st k jd))
    (hq : insSameD st k jk q) :
    StopW (insNodes st k si mi jk jd) q (i1 + 1) ∧
      (pairAt (insNodes st k si mi jk jd) q (i1 + 1)).2 = st.nodes.length := by
  obtain ⟨hpre, hat, hgood⟩ := splice_cross_prefix hinv hs2 hstop hc hi1 hpair
  have hnext : pairAt (insNodes st k si mi jk jd) q (i1 + 1) =
      (st.nodes.length, st.nodes.length) := by
    show ((pairAt (insNodes st k si mi jk jd) q i1).2,
      childOf (insNodes st k si mi jk jd) q
        (pairAt (insNodes st k si mi jk jd) q i1).2) = _
    rw [hat]
    show (st.nodes.length,
      childOf (insNodes st k si mi jk jd) q st.nodes.length) = _
    rw [childOf_ins_m_same hinv hq]
  refine ⟨⟨hgood, ?_⟩, by rw [hnext]⟩
  rw [hnext]
  unfold fwdP
  rw [show ((st.nodes.length, st.nodes.length) : Nat × Nat).1 = st.nodes.length
    from rfl,
    show ((st.nodes.length, st.nodes.length) : Nat × Nat).2 = st.nodes.length
    from rfl]
  omega

/-- Crossing walk with the opposite bit, forward case: the walk passes
through the new node back into the old subtree and ends where it used to. -/
theorem splice_cross_diff_fwd {st : PatriciaTrieBuilder} {k : List Nat}
    {si mi jk jd : Nat} (hinv : TrieInv st)
    (hs2 : Stop2W st.nodes k (insD st k jk) jd)
    {q : List Nat} {jq : Nat} (hstop : StopW st.nodes q jq)
    (hc : insCrosses st k jd q) {i1 : Nat} (hi1 : i1 ≤ jq)
    (hpair : pairAt st.nodes q i1 = (insP st k jd, insT st k jd))
    (hq : ¬ insSameD st k jk q)
    (hdlt : (insD st k jk : Int) < bitn st.nodes (insT st k jd)) :
    StopW (insNodes st k si mi jk jd) q (jq + 1) ∧
      pairAt (insNodes st k si mi jk jd) q (i1 + 1) =
        (st.nodes.length, insT st k jd) ∧
      (∀ dd, i1 + 1 + dd ≤ jq →
        pairAt (insNodes st k si mi jk jd) q (i1 + 2 + dd) =
          pairAt st.nodes q (i1 + 1 + dd)) := by
  have hL : 0 < st.nodes.length := by have := hinv.two_le; omega
  obtain ⟨hpre, hat, hgood⟩ := splice_cross_prefix hinv hs2 hstop hc hi1 hpair
  have hfwdold : fwdP st.nodes (pairAt st.nodes q i1) := by
    rw [hpair]
    unfold fwdP
    have h1 : bitn st.nodes (insP st k jd) < (insD st k jk : Int) :=
      ins_pbit hinv hs2
    exact lt_trans h1 hdlt
  have hi1lt : i1 < jq := by
    rcases Nat.eq_or_lt_of_le hi1 with he | h
    · subst he
      exact absurd hfwdold hstop.2
    · exact h
  have hnext : pairAt (insNodes st k si mi jk jd) q (i1 + 1) =
      (st.nodes.length, insT st k jd) := by
    show ((pairAt (insNodes st k si mi jk jd) q i1).2,
      childOf (insNodes st k si mi jk jd) q
        (pairAt (insNodes st k si mi jk jd) q i1).2) = _
    rw [hat]
    show (st.nodes.length,
      childOf (insNodes st k si mi jk jd) q st.nodes.length) = _
    rw [childOf_ins_m_diff hinv hq]
  have holdnext : pairAt st.nodes q (i1 + 1) =
      (insT st k jd, childOf st.nodes q (insT st k jd)) := by
    show ((pairAt st.nodes q i1).2, childOf st.nodes q (pairAt st.nodes q i1).2) = _
    rw [hpair]
  have htne : insT st k jd ≠ insP st k jd := by
    intro he
    have hpb : bitn st.nodes (insP st k jd) < (insD st k jk : Int) :=
      ins_pbit hinv hs2
    rw [← he] at hpb
    omega
  have hshift : ∀ dd, i1 + 1 + dd ≤ jq →
      pairAt (insNodes st k si mi jk jd) q (i1 + 2 + dd) =
        pairAt st.nodes q (i1 + 1 + dd) := by
    intro dd
    induction dd with
    | zero =>
      intro _
      show ((pairAt (insNodes st k si mi jk jd) q (i1 + 1)).2,
        childOf (insNodes st k si mi jk jd) q
          (pairAt (insNodes st k si mi jk jd) q (i1 + 1)).2) = _
      rw [hnext]
      show (insT st k jd,
        childOf (insNodes st k si mi jk jd) q (insT st k jd)) = _
      rw [childOf_ins_other q (ins_t_lt hinv) htne, holdnext]
    | succ dd ih =>
      intro hle
      have hprev := ih (by omega)
      show ((pairAt (insNodes st k si mi jk jd) q (i1 + 2 + dd)).2,
        childOf (insNodes st k si mi jk jd) q
          (pairAt (insNodes st k si mi jk jd) q (i1 + 2 + dd)).2) = _
      rw [hprev]
      have hcur : (pairAt st.nodes q (i1 + 1 + dd)).2 < st.nodes.length :=
        (pairAt_lt hinv.valid hL q _).2
      have hcp : (pairAt st.nodes q (i1 + 1 + dd)).2 ≠ insP st k jd := by
        intro he
        have h1 : (pairAt st.nodes q (i1 + 1 + dd + 1)).1 =
            (pairAt st.nodes q i1).1 := by
          rw [hpair]
          exact he
        have := prev_inj hstop.1 (show i1 + 1 + dd + 1 ≤ jq by omega) hi1 h1
        omega
      rw [childOf_ins_other q hcur hcp]
      rfl
  refine ⟨⟨?_, ?_⟩, hnext, hshift⟩
  · intro i hi
    rcases Nat.lt_or_ge i (i1 + 1) with h | h
    · exact hgood i h
    · rcases Nat.eq_or_lt_of_le h with he | h2
      · subst he
        rw [hnext]
        unfold fwdP
        rw [show ((st.nodes.length, insT st k jd) : Nat × Nat).1 = st.nodes.length
          from rfl,
          show ((st.nodes.length, insT st k jd) : Nat × Nat).2 = insT st k jd
          from rfl, bitn_ins_m hinv, bitn_ins_lt hinv (ins_t_lt hinv)]
        exact hdlt
      · obtain ⟨dd, rfl⟩ : ∃ dd, i = i1 + 2 + dd := ⟨i - i1 - 2, by omega⟩
        rw [hshift dd (by omega)]
        rw [fwdP_ins_iff hinv (pairAt_lt hinv.valid hL q _).1
          (pairAt_lt hinv.valid hL q _).2]
        exact hstop.1 _ (by omega)
  · obtain ⟨dd, hdd⟩ : ∃ dd, jq = i1 + 1 + dd := ⟨jq - i1 - 1, by omega⟩
    rw [show jq + 1 = i1 + 2 + dd by omega, hshift dd (by omega), ← hdd]
    rw [fwdP_ins_iff hinv (pairAt_lt hinv.valid hL q _).1
      (pairAt_lt hinv.valid hL q _).2]
    exact hstop.2

/-- Crossing walk with the opposite bit, back-edge case: the old walk
stopped at the replaced pair, and the new walk stops right after the new
node with the same leaf. -/
theorem splice_cross_diff_back {st : PatriciaTrieBuilder} {k : List Nat}
    {si mi jk jd : Nat} (hinv : TrieInv st) (hk : KeyOK k)
    (hnew : ∀ i, 1 ≤ i → i < st.nodes.length → st.keyData.getD i [] ≠ k)
    (hs1 : StopW st.nodes k jk)
    (hs2 : Stop2W st.nodes k (insD st k jk) jd)
    {q : List Nat} {jq : Nat} (hstop : StopW st.nodes q jq)
    (hc : insCrosses st k jd q) {i1 : Nat} (hi1 : i1 ≤ jq)
    (hpair : pairAt st.nodes q i1 = (insP st k jd, insT st k jd))
    (hq : ¬ insSameD st k jk q)
    (hnlt : ¬ (insD st k jk : Int) < bitn st.nodes (insT st k jd)) :
    StopW (insNodes st k si mi jk jd) q (i1 + 1) ∧
      pairAt (insNodes st k si mi jk jd) q (i1 + 1) =
        (st.nodes.length, insT st k jd) ∧
      jq = i1 := by
  obtain ⟨hpre, hat, hgood⟩ := splice_cross_prefix hinv hs2 hstop hc hi1 hpair
  have hnext : pairAt (insNodes st k si mi jk jd) q (i1 + 1) =
      (st.nodes.length, insT st k jd) := by
    show ((pairAt (insNodes st k si mi jk jd) q i1).2,
      childOf (insNodes st k si mi jk jd) q
        (pairAt (insNodes st k si mi jk jd) q i1).2) = _
    rw [hat]
    show (st.nodes.length,
      childOf (insNodes st k si mi jk jd) q st.nodes.length) = _
    rw [childOf_ins_m_diff hinv hq]
  have hjq : jq = i1 := by
    have hstopi1 : StopW st.nodes q i1 := by
      refine ⟨fun i hi => hstop.1 i (by omega), ?_⟩
      rw [hpair]
      unfold fwdP
      rw [show ((insP st k jd, insT st k jd) : Nat × Nat).1 = insP st k jd from rfl,
        show ((insP st k jd, insT st k jd) : Nat × Nat).2 = insT st k jd from rfl]
      intro hlt
      exact hnlt (ins_davoid hinv hk hnew hs1 hs2
        (show fwdP st.nodes (pairAt st.nodes k jd) from hlt))
    exact stopW_unique hstop hstopi1
  have hlast : ¬ fwdP (insNodes st k si mi jk jd)
      (pairAt (insNodes st k si mi jk jd) q (i1 + 1)) := by
    rw [hnext]
    unfold fwdP
    rw [show ((st.nodes.length, insT st k jd) : Nat × Nat).1 = st.nodes.length
      from rfl,
      show ((st.nodes.length, insT st k jd) : Nat × Nat).2 = insT st k jd from rfl,
      bitn_ins_m hinv, bitn_ins_lt hinv (ins_t_lt hinv)]
    exact hnlt
  exact ⟨⟨hgood, hlast⟩, hnext, hjq⟩

/-- Any crossing walk reaches the replaced pair at the same index as the
inserted key, with an identical prefix. -/
theorem cross_index_eq {st : PatriciaTrieBuilder} {k : List Nat} {jk jd : Nat}
    (hinv : TrieInv st) (hs2 : Stop2W st.nodes k (insD st k jk) jd)
    {q : List Nat} {jq i1 : Nat} (hstop : StopW st.nodes q jq) (hi1 : i1 ≤ jq)
    (hpair : pairAt st.nodes q i1 = (insP st k jd, insT st k jd)) :
    i1 = jd ∧ ∀ i, i ≤ i1 → pairAt st.nodes q i = pairAt st.nodes k i := by
  have hL : 0 < st.nodes.length := by have := hinv.two_le; omega
  rcases Nat.eq_zero_or_pos i1 with h1 | h1
  · subst h1
    have hp0 : insP st k jd = 0 := by
      have h : (pairAt st.nodes q 0).1 = insP st k jd := by rw [hpair]
      exact h.symm
    have hjd : jd = 0 := (ins_p_zero_iff hinv hs2).1 hp0
    subst hjd
    exact ⟨rfl, fun i hi => by
      have : i = 0 := by omega
      subst this
      rfl⟩
  · rcases Nat.eq_zero_or_pos jd with hjd | hjd
    · exfalso
      have hp0 : insP st k jd = 0 := by rw [hjd]; rfl
      have h : (pairAt st.nodes q i1).1 = (pairAt st.nodes q 0).1 := by
        rw [hpair, hp0]
        rfl
      have := prev_inj hstop.1 hi1 (by omega) h
      omega
    · obtain ⟨i0, rfl⟩ : ∃ i0, i1 = i0 + 1 := ⟨i1 - 1, by omega⟩
      obtain ⟨jd0, hjd0⟩ : ∃ jd0, jd = jd0 + 1 := ⟨jd - 1, by omega⟩
      have hq2 : (pairAt st.nodes q i0).2 = (pairAt st.nodes k jd0).2 := by
        have ha : (pairAt st.nodes q (i0 + 1)).1 = insP st k jd := by rw [hpair]
        have hb : (pairAt st.nodes k (jd0 + 1)).1 = insP st k jd := by
          rw [← hjd0]
          rfl
        show (pairAt st.nodes q (i0 + 1)).1 = (pairAt st.nodes k (jd0 + 1)).1
        rw [ha, hb]
      have harr := arrive_unique hinv.root_bit hinv.bits_nn hinv.valid hL hinv.ufp
        i0 q k (goodW_mono hstop.1 (by omega))
        (by rw [← hjd0]; exact goodW_mono (stop2_good hs2) (by omega)) hq2
      obtain ⟨hieq, hpairs⟩ := harr
      have hi1jd : i0 + 1 = jd := by omega
      refine ⟨hi1jd, fun i hi => ?_⟩
      rcases Nat.lt_or_ge i (i0 + 1) with h | h
      · exact hpairs i (by omega)
      · have : i = i0 + 1 := by omega
        subst this
        rw [hpair, hi1jd]
        rfl

/-- On the shared prefix, a crossing query agrees with the key at every
tested bit. -/
theorem cross_prefix_agree {st : PatriciaTrieBuilder} {k : List Nat} {jk jd : Nat}
    (hinv : TrieInv st) (hs2 : Stop2W st.nodes k (insD st k jk) jd)
    {q : List Nat} {jq : Nat} (hstop : StopW st.nodes q jq) (hjd : jd ≤ jq)
    (hpairs : ∀ i, i ≤ jd → pairAt st.nodes q i = pairAt st.nodes k i) :
    ∀ i, i < jd → getBit q (bitn st.nodes (pairAt st.nodes k i).2) =
      getBit k (bitn st.nodes (pairAt st.nodes k i).2) := by
  intro i hi
  have hcur : (pairAt st.nodes q i).2 = (pairAt st.nodes k i).2 := by
    rw [hpairs i (by omega)]
  have hchild : childOf st.nodes q (pairAt st.nodes k i).2 =
      childOf st.nodes k (pairAt st.nodes k i).2 := by
    have h1 : (pairAt st.nodes q (i + 1)).2 = (pairAt st.nodes k (i + 1)).2 := by
      rw [hpairs (i + 1) (by omega)]
    show _ = _
    calc childOf st.nodes q (pairAt st.nodes k i).2
        = childOf st.nodes q (pairAt st.nodes q i).2 := by rw [hcur]
      _ = (pairAt st.nodes q (i + 1)).2 := rfl
      _ = (pairAt st.nodes k (i + 1)).2 := h1
      _ = childOf st.nodes k (pairAt st.nodes k i).2 := rfl
  exact childOf_val_eq hinv.dslots
    (pairAt_lt hinv.valid (by have := hinv.two_le; omega) k i).2
    (bitn_curr_nonneg hinv k (stop2_good hs2) hi) hchild

theorem pairAt_append {st : PatriciaTrieBuilder} (hinv : TrieInv st)
    (x : TrieNode) (q : List Nat) :
    ∀ j, pairAt (st.nodes ++ [x]) q j = pairAt st.nodes q j := by
  intro j
  have hL : 0 < st.nodes.length := by have := hinv.two_le; omega
  induction j with
  | zero =>
    show (0, rootR (st.nodes ++ [x])) = (0, rootR st.nodes)
    unfold rootR
    rw [nd_append_lt hL]
  | succ j ih =>
    show ((pairAt (st.nodes ++ [x]) q j).2,
      childOf (st.nodes ++ [x]) q (pairAt (st.nodes ++ [x]) q j).2) = _
    rw [ih]
    have hcur : (pairAt st.nodes q j).2 < st.nodes.length :=
      (pairAt_lt hinv.valid hL q j).2
    unfold childOf
    rw [nd_append_lt hcur]
    rfl

theorem bitn_append {st : PatriciaTrieBuilder} (hinv : TrieInv st)
    (x : TrieNode) {i : Nat} (hi : i < st.nodes.length) :
    bitn (st.nodes ++ [x]) i = bitn st.nodes i := by
  unfold bitn
  rw [nd_append_lt hi]

theorem stopW_append {st : PatriciaTrieBuilder} (hinv : TrieInv st)
    (x : TrieNode) {q : List Nat} {j : Nat} (h : StopW st.nodes q j) :
    StopW (st.nodes ++ [x]) q j := by
  have hL : 0 < st.nodes.length := by have := hinv.two_le; omega
  constructor
  · intro i hi
    rw [pairAt_append hinv x q i]
    unfold fwdP
    rw [bitn_append hinv x (pairAt_lt hinv.valid hL q i).1,
      bitn_append hinv x (pairAt_lt hinv.valid hL q i).2]
    exact h.1 i hi
  · rw [pairAt_append hinv x q j]
    unfold fwdP
    rw [bitn_append hinv x (pairAt_lt hinv.valid hL q j).1,
      bitn_append hinv x (pairAt_lt hinv.valid hL q j).2]
    exact h.2

theorem stop2W_append {st : PatriciaTrieBuilder} (hinv : TrieInv st)
    (x : TrieNode) {q : List Nat} {dB j : Nat} (h : Stop2W st.nodes q dB j) :
    Stop2W (st.nodes ++ [x]) q dB j := by
  have hL : 0 < st.nodes.length := by have := hinv.two_le; omega
  constructor
  · intro i hi
    rw [pairAt_append hinv x q i]
    unfold fwd2 fwdP
    rw [bitn_append hinv x (pairAt_lt hinv.valid hL q i).1,
      bitn_append hinv x (pairAt_lt hinv.valid hL q i).2]
    exact h.1 i hi
  · rw [pairAt_append hinv x q j]
    unfold fwd2 fwdP
    rw [bitn_append hinv x (pairAt_lt hinv.valid hL q j).1,
      bitn_append hinv x (pairAt_lt hinv.valid hL q j).2]
    exact h.2

theorem set_append_last (l : List TrieNode) (a b : TrieNode) :
    (l ++ [a]).set l.length b = l ++ [b] := by
  induction l with
  | nil => rfl
  | cons x xs ih =>
    show x :: ((xs ++ [a]).set xs.length b) = x :: (xs ++ [b])
    rw [ih]

theorem kd_getD_append_lt {kd : List (List Nat)} {i : Nat} (h : i < kd.length)
    (k : List Nat) : (kd ++ [k]).getD i [] = kd.getD i [] := by
  rw [List.getD_eq_getElem?_getD, List.getD_eq_getElem?_getD,
    List.getElem?_append, if_pos h]

theorem kd_getD_append_self (kd : List (List Nat)) (k : List Nat) :
    (kd ++ [k]).getD kd.length [] = k := by
  rw [List.getD_eq_getElem?_getD]
  simp

theorem insertKey_ok {st : PatriciaTrieBuilder} {k : List Nat} {jk jd : Nat}
    (si mi : Nat) (hinv : TrieInv st) (hk : KeyOK k)
    (hnew : ∀ i, 1 ≤ i → i < st.nodes.length → st.keyData.getD i [] ≠ k)
    (hs1 : StopW st.nodes k jk)
    (hs2 : Stop2W st.nodes k (insD st k jk) jd) :
    insertKey st k si mi = .ok (insSt st k si mi jk jd) := by
  have hL : 0 < st.nodes.length := by have := hinv.two_le; omega
  have hjkL : jk < st.nodes.length := stopW_lt_len hinv.valid hL hs1.1
  have hjdL : jd < st.nodes.length := by
    have := ins_jd_le hs1 hs2
    omega
  have hplt : (pairAt st.nodes k jd).1 < st.nodes.length :=
    (pairAt_lt hinv.valid hL k jd).1
  simp only [insertKey]
  rw [if_neg (show ¬ st.nodes.length = 1 by have := hinv.two_le; omega)]
  have hroot1 : (nd (st.nodes ++ [(⟨mi, -1, si ||| 0x80000000, 0, 0⟩ : TrieNode)])
      0).rightRaw = (nd st.nodes 0).rightRaw := by
    rw [nd_append_lt hL]
  rw [hroot1]
  have hw1 : walkLoop1 (st.nodes ++ [(⟨mi, -1, si ||| 0x80000000, 0, 0⟩ : TrieNode)])
      k ((st.nodes ++ [(⟨mi, -1, si ||| 0x80000000, 0, 0⟩ : TrieNode)]).length + 1)
      0 (nd st.nodes 0).rightRaw =
      some ((pairAt st.nodes k jk).1, (pairAt st.nodes k jk).2) := by
    have h1 := walkLoop1_eq_of_stopW
      (stopW_append hinv (⟨mi, -1, si ||| 0x80000000, 0, 0⟩ : TrieNode) hs1)
      (show jk < (st.nodes ++ [(⟨mi, -1, si ||| 0x80000000, 0, 0⟩ :
        TrieNode)]).length + 1 by rw [List.length_append]; simp; omega)
    rw [hroot1, pairAt_append hinv _ k jk] at h1
    exact h1
  rw [hw1]
  simp only []
  have hkd : (st.keyData ++ [k]).getD (pairAt st.nodes k jk).2 [] =
      st.keyData.getD (pairAt st.nodes k jk).2 [] := by
    apply kd_getD_append_lt
    rw [hinv.len_kd]
    exact (pairAt_lt hinv.valid hL k jk).2
  rw [hkd]
  have hdup : ¬ (max k.length (st.keyData.getD (pairAt st.nodes k jk).2 []).length
      * 8 ≤ firstDifferingBit k (st.keyData.getD (pairAt st.nodes k jk).2 [])) := by
    have h3 : insD st k jk < max k.length (insKc st k jk).length * 8 :=
      (ins_fdb hinv hk hnew).2.2
    unfold insD insKc insC at h3
    omega
  rw [if_neg hdup]
  have hw2 : walkLoop2 (st.nodes ++ [(⟨mi, -1, si ||| 0x80000000, 0, 0⟩ : TrieNode)])
      k (firstDifferingBit k (st.keyData.getD (pairAt st.nodes k jk).2 []))
      ((st.nodes ++ [(⟨mi, -1, si ||| 0x80000000, 0, 0⟩ : TrieNode)]).length + 1)
      0 (nd st.nodes 0).rightRaw =
      some ((pairAt st.nodes k jd).1, (pairAt st.nodes k jd).2) := by
    have h2 := walkLoop2_eq_of_stop2W
      (stop2W_append hinv (⟨mi, -1, si ||| 0x80000000, 0, 0⟩ : TrieNode) hs2)
      (show jd < (st.nodes ++ [(⟨mi, -1, si ||| 0x80000000, 0, 0⟩ :
        TrieNode)]).length + 1 by rw [List.length_append]; simp; omega)
    rw [hroot1, pairAt_append hinv _ k jd] at h2
    exact h2
  rw [hw2]
  simp only []
  rw [set_append_last]
  rw [show nd (st.nodes ++ [if getBit k
      (firstDifferingBit k (st.keyData.getD (pairAt st.nodes k jk).2 []) : Int) ≠ 0
    then (⟨mi, (firstDifferingBit k (st.keyData.getD (pairAt st.nodes k jk).2 []) :
        Int), si ||| 0x80000000, (pairAt st.nodes k jd).2, st.nodes.length⟩ :
        TrieNode)
    else ⟨mi, (firstDifferingBit k (st.keyData.getD (pairAt st.nodes k jk).2 []) :
        Int), si ||| 0x80000000, st.nodes.length, (pairAt st.nodes k jd).2⟩])
      (pairAt st.nodes k jd).1 = nd st.nodes (pairAt st.nodes k jd).1
    from nd_append_lt hplt]
  rfl

theorem slotc_ins_other {st : PatriciaTrieBuilder} {k : List Nat}
    {si mi jk jd : Nat} {x : Nat} (hx : x < st.nodes.length)
    (hne : x ≠ insP st k jd) (s : Bool) :
    slotc (insNodes st k si mi jk jd) x s = slotc st.nodes x s := by
  unfold slotc
  rw [nd_ins_other hx hne]

theorem slotc_ins_p_go {st : PatriciaTrieBuilder} {k : List Nat}
    {si mi jk jd : Nat} (hinv : TrieInv st) :
    slotc (insNodes st k si mi jk jd) (insP st k jd) (insGoR st k jd) =
      st.nodes.length := by
  unfold slotc
  rw [nd_ins_p hinv]
  unfold insParent
  by_cases hg : insGoR st k jd = true
  · rw [if_pos hg, hg]
    rfl
  · have hg' : insGoR st k jd = false := by
      cases hgg : insGoR st k jd
      · rfl
      · exact absurd hgg hg
    rw [if_neg hg, hg']
    rfl

theorem slotc_ins_p_other {st : PatriciaTrieBuilder} {k : List Nat}
    {si mi jk jd : Nat} (hinv : TrieInv st) {s : Bool}
    (hs : s ≠ insGoR st k jd) :
    slotc (insNodes st k si mi jk jd) (insP st k jd) s =
      slotc st.nodes (insP st k jd) s := by
  unfold slotc
  rw [nd_ins_p hinv]
  unfold insParent
  by_cases hg : insGoR st k jd = true
  · rw [if_pos hg]
    have : s = false := by
      cases hss : s
      · rfl
      · rw [hg, hss] at hs
        exact absurd rfl hs
    rw [this]
    rfl
  · have hg' : insGoR st k jd = false := by
      cases hgg : insGoR st k jd
      · rfl
      · exact absurd hgg hg
    rw [if_neg hg]
    have : s = true := by
      cases hss : s
      · rw [hg', hss] at hs
        exact absurd rfl hs
      · rfl
    rw [this]
    rfl

theorem slotc_ins_m {st : PatriciaTrieBuilder} {k : List Nat}
    {si mi jk jd : Nat} (hinv : TrieInv st) (s : Bool) :
    slotc (insNodes st k si mi jk jd) st.nodes.length s =
      (if s = decide (getBit k (insD st k jk : Int) ≠ 0) then st.nodes.length
       else insT st k jd) := by
  unfold slotc
  rw [nd_ins_m hinv]
  unfold insNewNode
  by_cases hsk : getBit k (insD st k jk : Int) ≠ 0
  · rw [if_pos hsk, decide_eq_true hsk]
  · rw [if_neg hsk, decide_eq_false hsk]
    cases s
    · rfl
    · rfl

theorem slotc_old_lt {st : PatriciaTrieBuilder} (hinv : TrieInv st) {x : Nat}
    (hx : x < st.nodes.length) (s : Bool) : slotc st.nodes x s < st.nodes.length := by
  cases s
  · exact (hinv.valid x hx).1
  · exact (hinv.valid x hx).2

theorem slotc_ins_lt {st : PatriciaTrieBuilder} {k : List Nat} {si mi jk jd : Nat}
    (hinv : TrieInv st) {x : Nat} (hx : x < st.nodes.length + 1) (s : Bool) :
    slotc (insNodes st k si mi jk jd) x s < st.nodes.length + 1 := by
  rcases Nat.lt_or_ge x st.nodes.length with hxl | hxg
  · by_cases hp : x = insP st k jd
    · subst hp
      by_cases hs : s = insGoR st k jd
      · subst hs
        rw [slotc_ins_p_go hinv]
        omega
      · rw [slotc_ins_p_other hinv hs]
        have := slotc_old_lt hinv hxl s
        omega
    · rw [slotc_ins_other hxl hp s]
      have := slotc_old_lt hinv hxl s
      omega
  · have hxe : x = st.nodes.length := by omega
    subst hxe
    rw [slotc_ins_m hinv s]
    by_cases hs : s = decide (getBit k (insD st k jk : Int) ≠ 0)
    · rw [if_pos hs]
      omega
    · rw [if_neg hs]
      have : insT st k jd < st.nodes.length := ins_t_lt hinv
      omega

theorem ins_valid {st : PatriciaTrieBuilder} {k : List Nat} {si mi jk jd : Nat}
    (hinv : TrieInv st) : ValidN (insNodes st k si mi jk jd) := by
  intro i hi
  rw [ins_len] at hi
  refine ⟨?_, ?_⟩ <;> rw [ins_len]
  · exact slotc_ins_lt hinv hi false
  · exact slotc_ins_lt hinv hi true

theorem ins_dslots {st : PatriciaTrieBuilder} {k : List Nat} {si mi jk jd : Nat}
    (hinv : TrieInv st) : DSlots (insNodes st k si mi jk jd) := by
  intro u hu
  rw [ins_len] at hu
  show slotc (insNodes st k si mi jk jd) u false ≠
    slotc (insNodes st k si mi jk jd) u true
  rcases Nat.lt_or_ge u st.nodes.length with hul | hug
  · by_cases hp : u = insP st k jd
    · subst hp
      by_cases hg : insGoR st k jd = true
      · rw [show (true : Bool) = insGoR st k jd from hg.symm, slotc_ins_p_go hinv,
          slotc_ins_p_other hinv (by rw [hg]; decide)]
        have := slotc_old_lt hinv hul false
        omega
      · have hg' : insGoR st k jd = false := by
          cases hgg : insGoR st k jd
          · rfl
          · exact absurd hgg hg
        rw [show (false : Bool) = insGoR st k jd from hg'.symm, slotc_ins_p_go hinv,
          slotc_ins_p_other hinv (by rw [hg']; decide)]
        have := slotc_old_lt hinv hul true
        omega
    · rw [slotc_ins_other hul hp false, slotc_ins_other hul hp true]
      exact hinv.dslots u hul
  · have hue : u = st.nodes.length := by omega
    subst hue
    rw [slotc_ins_m hinv false, slotc_ins_m hinv true]
    have htlt : insT st k jd < st.nodes.length := ins_t_lt hinv
    cases hdk : decide (getBit k (insD st k jk : Int) ≠ 0)
    · rw [if_pos rfl, if_neg (show ¬ (true = false) by decide)]
      omega
    · rw [if_neg (show ¬ (false = true) by decide), if_pos rfl]
      omega

theorem ins_bits_nn {st : PatriciaTrieBuilder} {k : List Nat} {si mi jk jd : Nat}
    (hinv : TrieInv st) : ∀ i, 1 ≤ i → i < st.nodes.length + 1 →
      0 ≤ bitn (insNodes st k si mi jk jd) i := by
  intro i h1 h2
  rcases Nat.lt_or_ge i st.nodes.length with hl | hg
  · rw [bitn_ins_lt hinv hl]
    exact hinv.bits_nn i h1 hl
  · have : i = st.nodes.length := by omega
    subst this
    rw [bitn_ins_m hinv]
    omega

theorem ins_root_bit {st : PatriciaTrieBuilder} {k : List Nat} {si mi jk jd : Nat}
    (hinv : TrieInv st) : bitn (insNodes st k si mi jk jd) 0 = -1 := by
  rw [bitn_ins_lt hinv (by have := hinv.two_le; omega)]
  exact hinv.root_bit

/-- Classification of forward edges in the spliced node array. -/
theorem ins_edge_char {st : PatriciaTrieBuilder} {k : List Nat} {si mi jk jd : Nat}
    (hinv : TrieInv st) (hs2 : Stop2W st.nodes k (insD st k jk) jd)
    {x : Nat} {s : Bool} {w : Nat} (hx : x < st.nodes.length + 1)
    (he : slotc (insNodes st k si mi jk jd) x s = w)
    (hf : bitn (insNodes st k si mi jk jd) x <
      bitn (insNodes st k si mi jk jd) w) :
    (x = insP st k jd ∧ s = insGoR st k jd ∧ w = st.nodes.length) ∨
    (x = st.nodes.length ∧ w = insT st k jd ∧
      (insD st k jk : Int) < bitn st.nodes (insT st k jd)) ∨
    (x < st.nodes.length ∧ ¬(x = insP st k jd ∧ s = insGoR st k jd) ∧
      slotc st.nodes x s = w ∧ w < st.nodes.length ∧
      bitn st.nodes x < bitn st.nodes w) := by
  rcases Nat.lt_or_ge x st.nodes.length with hxl | hxg
  · by_cases hps : x = insP st k jd ∧ s = insGoR st k jd
    · left
      obtain ⟨h1, h2⟩ := hps
      subst h1 h2
      rw [slotc_ins_p_go hinv] at he
      exact ⟨rfl, rfl, he.symm⟩
    · right; right
      have hold : slotc st.nodes x s = w := by
        by_cases hp : x = insP st k jd
        · subst hp
          have hs : s ≠ insGoR st k jd := by
            intro he2
            exact hps ⟨rfl, he2⟩
          rw [← slotc_ins_p_other hinv hs]
          exact he
        · rw [← slotc_ins_other hxl hp s]
          exact he
      have hwl : w < st.nodes.length := by
        rw [← hold]
        exact slotc_old_lt hinv hxl s
      refine ⟨hxl, hps, hold, hwl, ?_⟩
      have hbx : bitn (insNodes st k si mi jk jd) x = bitn st.nodes x :=
        bitn_ins_lt hinv hxl
      have hbw : bitn (insNodes st k si mi jk jd) w = bitn st.nodes w :=
        bitn_ins_lt hinv hwl
      rw [← hbx, ← hbw]
      exact hf
  · right; left
    have hxe : x = st.nodes.length := by omega
    subst hxe
    rw [slotc_ins_m hinv s] at he
    by_cases hds : s = decide (getBit k (insD st k jk : Int) ≠ 0)
    · exfalso
      rw [if_pos hds] at he
      subst he
      exact absurd hf (lt_irrefl _)
    · rw [if_neg hds] at he
      refine ⟨rfl, he.symm, ?_⟩
      subst he
      rw [bitn_ins_m hinv, bitn_ins_lt hinv (ins_t_lt hinv)] at hf
      exact hf

theorem ins_ufp {st : PatriciaTrieBuilder} {k : List Nat} {si mi jk jd : Nat}
    (hinv : TrieInv st) (hs2 : Stop2W st.nodes k (insD st k jk) jd) :
    UFP (insNodes st k si mi jk jd) := by
  intro w x1 s1 x2 s2 hx1 hx2 he1 he2 hf1 hf2
  rw [ins_len] at hx1 hx2
  have htlt : insT st k jd < st.nodes.length := ins_t_lt hinv
  have hplt : insP st k jd < st.nodes.length := ins_p_lt hinv
  have hpfwd : slotc st.nodes (insP st k jd) (insGoR st k jd) = insT st k jd :=
    ins_slotp hinv
  have hpbit : bitn st.nodes (insP st k jd) < (insD st k jk : Int) :=
    ins_pbit hinv hs2
  have hboth : ∀ (a b c : Bool), a ≠ c → b ≠ c → a = b := by decide
  have hch1 := ins_edge_char hinv hs2 hx1 he1 hf1
  have hch2 := ins_edge_char hinv hs2 hx2 he2 hf2
  rcases hch1 with ⟨ha1, ha2, ha3⟩ | ⟨ha1, ha2, ha3⟩ | ⟨ha1, ha2, ha3, ha4, ha5⟩ <;>
    rcases hch2 with ⟨hb1, hb2, hb3⟩ | ⟨hb1, hb2, hb3⟩ | ⟨hb1, hb2, hb3, hb4, hb5⟩
  · exact ⟨by rw [ha1, hb1], by rw [ha2, hb2]⟩
  · exfalso
    rw [ha3] at hb2
    omega
  · exfalso
    rw [ha3] at hb4
    omega
  · exfalso
    rw [hb3] at ha2
    omega
  · refine ⟨by rw [ha1, hb1], ?_⟩
    have hsk1 : s1 ≠ decide (getBit k (insD st k jk : Int) ≠ 0) := by
      intro hs
      rw [ha1, slotc_ins_m hinv s1, if_pos hs] at he1
      rw [← he1] at ha2
      omega
    have hsk2 : s2 ≠ decide (getBit k (insD st k jk : Int) ≠ 0) := by
      intro hs
      rw [hb1, slotc_ins_m hinv s2, if_pos hs] at he2
      rw [← he2] at hb2
      omega
    exact hboth s1 s2 _ hsk1 hsk2
  · exfalso
    rw [ha2] at hb3 hb5
    have hold := hinv.ufp (insT st k jd) x2 s2 (insP st k jd) (insGoR st k jd)
      hb1 hplt hb3 hpfwd hb5 (by omega)
    exact hb2 ⟨hold.1, hold.2⟩
  · exfalso
    rw [hb3] at ha4
    omega
  · exfalso
    rw [hb2] at ha3 ha5
    have hold := hinv.ufp (insT st k jd) x1 s1 (insP st k jd) (insGoR st k jd)
      ha1 hplt ha3 hpfwd ha5 (by omega)
    exact ha2 ⟨hold.1, hold.2⟩
  · exact hinv.ufp w x1 s1 x2 s2 ha1 hb1 ha3 hb3 ha5 hb5

/-- The inserted key's walk also passes the replaced pair. -/
theorem ins_k_pair {st : PatriciaTrieBuilder} {k : List Nat} {jd : Nat} :
    pairAt st.nodes k jd = (insP st k jd, insT st k jd) := rfl

/-- A stored key whose walk passes the replaced pair agrees with the
closest key below the stop node's bit, with the key below the differing
bit, and differs from the key at the differing bit. -/
theorem stored_cross_agree {st : PatriciaTrieBuilder} {k : List Nat} {jk jd : Nat}
    (hinv : TrieInv st) (hk : KeyOK k)
    (hnew : ∀ i, 1 ≤ i → i < st.nodes.length → st.keyData.getD i [] ≠ k)
    (hs1 : StopW st.nodes k jk)
    (hs2 : Stop2W st.nodes k (insD st k jk) jd)
    {i ji i1 : Nat} (h1 : 1 ≤ i) (h2 : i < st.nodes.length)
    (hstopi : StopW st.nodes (st.keyData.getD i []) ji) (hi1 : i1 ≤ ji)
    (hpair : pairAt st.nodes (st.keyData.getD i []) i1 =
      (insP st k jd, insT st k jd)) :
    (∀ b : Nat, (b : Int) < bitn st.nodes (insT st k jd) →
      bitAt (st.keyData.getD i []) b = bitAt (insKc st k jk) b) ∧
    (∀ b : Nat, b < insD st k jk →
      bitAt (st.keyData.getD i []) b = bitAt k b) ∧
    bitAt (st.keyData.getD i []) (insD st k jk) ≠ bitAt k (insD st k jk) := by
  have hfdb : bitAt k (insD st k jk) ≠ bitAt (insKc st k jk) (insD st k jk) ∧
      (∀ β, β < insD st k jk → bitAt k β = bitAt (insKc st k jk) β) ∧
      insD st k jk < max k.length (insKc st k jk).length * 8 :=
    ins_fdb hinv hk hnew
  have hrep := ins_kc_replay hinv hs1
  have hjdjk := ins_jd_le hs1 hs2
  by_cases hfwd : fwdP st.nodes (pairAt st.nodes k jd)
  · -- forward case: the differing bit avoids the stop node's bit
    have hdlt : (insD st k jk : Int) < bitn st.nodes (insT st k jd) :=
      ins_davoid hinv hk hnew hs1 hs2 hfwd
    have hkcpair : pairAt st.nodes (insKc st k jk) jd =
        (insP st k jd, insT st k jd) := by
      rw [hrep.1 jd hjdjk]
      exact ins_k_pair
    have hfwd1 : fwdP st.nodes (pairAt st.nodes (st.keyData.getD i []) i1) := by
      rw [hpair]
      exact hfwd
    have hiii : ∀ b : Nat, (b : Int) < bitn st.nodes (insT st k jd) →
        bitAt (st.keyData.getD i []) b = bitAt (insKc st k jk) b := by
      rcases Nat.eq_zero_or_pos (insC st k jk) with hc0 | hc1
      · -- closest is the sentinel: use the zero-path invariant
        have hkc : insKc st k jk = [] := by
          unfold insKc
          rw [hc0, hinv.kd0]
        have hz : StopW st.nodes [] jk := by
          rw [← hkc]
          exact hrep.2
        have hz0 : (pairAt st.nodes [] jk).2 = 0 := by
          have hpr : ∀ ii, ii ≤ jk → pairAt st.nodes [] ii = pairAt st.nodes k ii := by
            intro ii hii
            rw [← hkc]
            exact hrep.1 ii hii
          rw [hpr jk (le_refl _)]
          exact hc0
        have hzpair : pairAt st.nodes [] jd = (insP st k jd, insT st k jd) := by
          rw [← hkc]
          exact hkcpair
        intro b hb
        rw [hkc, bitAt_nil]
        have := hinv.invz jk hz hz0 i ji i1 jd h1 h2 hstopi hi1 hjdjk
          (by rw [hpair, hzpair]) (by rw [hzpair]; exact hfwd) b
          (by rw [hzpair]; exact hb)
        exact this
      · -- closest is stored: use pairwise agreement
        intro b hb
        exact hinv.pagree i (insC st k jk) ji jk i1 jd h1 h2 hc1 (ins_c_lt hinv)
          hstopi hrep.2 hi1 hjdjk (by rw [hpair]; exact hkcpair.symm) hfwd1 b
          (by rw [hpair]; exact hb)
    refine ⟨hiii, fun b hb => ?_, ?_⟩
    · have h1b := hiii b (by
        have : (b : Int) < (insD st k jk : Int) := by
          omega
        omega)
      rw [h1b]
      exact (hfdb.2.1 b hb).symm
    · have h1b := hiii (insD st k jk) hdlt
      rw [h1b]
      intro he
      exact hfdb.1 he.symm
  · -- back-edge case: the first walk already stopped at the replaced pair
    obtain ⟨hjkjd, hct⟩ := ins_back_c hs1 hs2 hfwd
    have hstopi1 : StopW st.nodes (st.keyData.getD i []) i1 := by
      refine ⟨fun ii hii => hstopi.1 ii (by omega), ?_⟩
      rw [hpair]
      exact hfwd
    have hji : ji = i1 := stopW_unique hstopi hstopi1
    obtain ⟨jiw, hstopiw, hleafi⟩ := hinv.p1 i h1 h2
    have hjiw : jiw = i1 := stopW_unique hstopiw hstopi1
    have hit : insT st k jd = i := by
      rw [← hleafi, hjiw, hpair]
    have hkci : insKc st k jk = st.keyData.getD i [] := by
      unfold insKc
      rw [hct, hit]
    refine ⟨fun b hb => by rw [hkci], fun b hb => ?_, ?_⟩
    · rw [← hkci]
      exact (hfdb.2.1 b hb).symm
    · rw [← hkci]
      intro he
      exact hfdb.1 he.symm

theorem stored_cross_not_same {st : PatriciaTrieBuilder} {k : List Nat} {jk jd : Nat}
    (hinv : TrieInv st) (hk : KeyOK k)
    (hnew : ∀ i, 1 ≤ i → i < st.nodes.length → st.keyData.getD i [] ≠ k)
    (hs1 : StopW st.nodes k jk)
    (hs2 : Stop2W st.nodes k (insD st k jk) jd)
    {i ji i1 : Nat} (h1 : 1 ≤ i) (h2 : i < st.nodes.length)
    (hstopi : StopW st.nodes (st.keyData.getD i []) ji) (hi1 : i1 ≤ ji)
    (hpair : pairAt st.nodes (st.keyData.getD i []) i1 =
      (insP st k jd, insT st k jd)) :
    ¬ insSameD st k jk (st.keyData.getD i []) := by
  intro hsame
  have h3 := (stored_cross_agree hinv hk hnew hs1 hs2 h1 h2 hstopi hi1 hpair).2.2
  unfold insSameD at hsame
  rw [getBit_ofNat, getBit_ofNat] at hsame
  exact h3 (bitval_eq_of_iff (bitAt_le_one _ _) (bitAt_le_one _ _) hsame)

theorem ins_p1 {st : PatriciaTrieBuilder} {k : List Nat} {si mi jk jd : Nat}
    (hinv : TrieInv st) (hk : KeyOK k)
    (hnew : ∀ i, 1 ≤ i → i < st.nodes.length → st.keyData.getD i [] ≠ k)
    (hs1 : StopW st.nodes k jk)
    (hs2 : Stop2W st.nodes k (insD st k jk) jd) :
    ∀ i, 1 ≤ i → i < st.nodes.length + 1 →
    ∃ j, StopW (insNodes st k si mi jk jd) ((st.keyData ++ [k]).getD i []) j ∧
      (pairAt (insNodes st k si mi jk jd) ((st.keyData ++ [k]).getD i []) j).2 = i := by
  intro i h1 h2
  rcases Nat.lt_or_ge i st.nodes.length with hil | hig
  · -- previously stored key
    have hkd : (st.keyData ++ [k]).getD i [] = st.keyData.getD i [] :=
      kd_getD_append_lt (by rw [hinv.len_kd]; exact hil) k
    rw [hkd]
    obtain ⟨ji, hstopi, hleafi⟩ := hinv.p1 i h1 hil
    rcases splice_cases hinv hs2 (st.keyData.getD i []) hstopi with
      ⟨hp, hna⟩ | ⟨hc, i1, hi1, hpair⟩
    · obtain ⟨hpairs, hstop'⟩ := splice_nocross hinv hstopi hp hna
      exact ⟨ji, hstop', by rw [hpairs ji (le_refl _)]; exact hleafi⟩
    · have hnsame := stored_cross_not_same hinv hk hnew hs1 hs2 h1 hil
        hstopi hi1 hpair
      by_cases hdlt : (insD st k jk : Int) < bitn st.nodes (insT st k jd)
      · obtain ⟨hstop', hat1, hshift⟩ :=
          splice_cross_diff_fwd hinv hs2 hstopi hc hi1 hpair hnsame hdlt
        have hi1lt : i1 < ji := by
          rcases Nat.eq_or_lt_of_le hi1 with he | h
          · exfalso
            subst he
            apply hstopi.2
            rw [hpair]
            unfold fwdP
            rw [show ((insP st k jd, insT st k jd) : Nat × Nat).1 = insP st k jd
              from rfl,
              show ((insP st k jd, insT st k jd) : Nat × Nat).2 = insT st k jd
              from rfl]
            have := ins_pbit hinv hs2
            omega
          · exact h
        refine ⟨ji + 1, hstop', ?_⟩
        obtain ⟨dd, hdd⟩ : ∃ dd, ji = i1 + 1 + dd := ⟨ji - i1 - 1, by omega⟩
        rw [show ji + 1 = i1 + 2 + dd by omega, hshift dd (by omega), ← hdd]
        exact hleafi
      · obtain ⟨hstop', hat1, hjq⟩ :=
          splice_cross_diff_back hinv hk hnew hs1 hs2 hstopi hc hi1 hpair
            hnsame hdlt
        refine ⟨i1 + 1, hstop', ?_⟩
        rw [hat1]
        show insT st k jd = i
        rw [← hleafi, hjq, hpair]
  · -- the newly inserted key
    have hie : i = st.nodes.length := by omega
    subst hie
    have hkd : (st.keyData ++ [k]).getD st.nodes.length [] = k := by
      rw [show st.nodes.length = st.keyData.length from hinv.len_kd.symm]
      exact kd_getD_append_self st.keyData k
    rw [hkd]
    obtain ⟨hstop', hleaf'⟩ := splice_cross_same hinv hs2 hs1 insCrosses_k
      (ins_jd_le hs1 hs2) ins_k_pair insSameD_k
    exact ⟨jd + 1, hstop', hleaf'⟩

theorem bitval_ne_of_not_iff {a b : Nat} (ha : a ≤ 1) (hb : b ≤ 1)
    (h : ¬ (a ≠ 0 ↔ b ≠ 0)) : a ≠ b := by
  intro he
  subst he
  exact h Iff.rfl

/-- For a crossing query with the opposite differing bit, its old leaf key
carries the query's value at the differing bit. -/
theorem cross_leaf_d_agree {st : PatriciaTrieBuilder} {k : List Nat} {jk jd : Nat}
    (hinv : TrieInv st) (hk : KeyOK k)
    (hnew : ∀ i, 1 ≤ i → i < st.nodes.length → st.keyData.getD i [] ≠ k)
    (hs1 : StopW st.nodes k jk)
    (hs2 : Stop2W st.nodes k (insD st k jk) jd)
    {q : List Nat} {jq i1 : Nat} (hstopq : StopW st.nodes q jq) (hi1 : i1 ≤ jq)
    (hpair : pairAt st.nodes q i1 = (insP st k jd, insT st k jd))
    (hnsame : ¬ insSameD st k jk q)
    (hdlt : (insD st k jk : Int) < bitn st.nodes (insT st k jd)) :
    getBit q (insD st k jk : Int) =
      getBit (st.keyData.getD (pairAt st.nodes q jq).2 []) (insD st k jk : Int) := by
  have hfdb : bitAt k (insD st k jk) ≠ bitAt (insKc st k jk) (insD st k jk) ∧
      (∀ β, β < insD st k jk → bitAt k β = bitAt (insKc st k jk) β) ∧
      insD st k jk < max k.length (insKc st k jk).length * 8 :=
    ins_fdb hinv hk hnew
  have hrep := ins_kc_replay hinv hs1
  have hjdjk := ins_jd_le hs1 hs2
  have ha : getBit q (insD st k jk : Int) ≠ getBit k (insD st k jk : Int) := by
    apply bitval_ne_of_not_iff (getBit_le_one (by omega) q) (getBit_le_one (by omega) k)
    exact hnsame
  -- the leaf key's walk replays the query's walk
  have hreplay := walk_replay hinv q (st.keyData.getD (pairAt st.nodes q jq).2 [])
    hstopq (fun ii hii => (hinv.p2 q jq hstopq ii hii).symm)
  have hlpair : pairAt st.nodes (st.keyData.getD (pairAt st.nodes q jq).2 []) i1 =
      (insP st k jd, insT st k jd) := by
    rw [hreplay.1 i1 hi1]
    exact hpair
  have ha2 : bitAt q (insD st k jk) ≠ bitAt k (insD st k jk) := by
    rw [getBit_ofNat, getBit_ofNat] at ha
    exact ha
  rcases Nat.eq_zero_or_pos (pairAt st.nodes q jq).2 with hcq0 | hcq1
  · -- the query's walk ends at the sentinel
    rw [hcq0, hinv.kd0, getBit_ofNat, getBit_ofNat, bitAt_nil]
    rcases Nat.eq_zero_or_pos (insC st k jk) with hc0 | hc1
    · -- closest is the sentinel too
      have hkc : insKc st k jk = [] := by
        unfold insKc
        rw [hc0, hinv.kd0]
      have hk1 : bitAt k (insD st k jk) ≠ 0 := by
        intro hz
        apply hfdb.1
        rw [hz, hkc, bitAt_nil]
      have l1 := bitAt_le_one q (insD st k jk)
      have l2 := bitAt_le_one k (insD st k jk)
      omega
    · -- closest is stored: the zero-walk shares the replaced pair
      have hz0 : (pairAt st.nodes q jq).2 = 0 := hcq0
      have hzwalk := walk_replay hinv q [] hstopq (fun ii hii => by
        have hb0 : getBit [] (bitn st.nodes (pairAt st.nodes q ii).2) = 0 := by
          rw [getBit_eq_bitAt (bitn_curr_nonneg hinv q hstopq.1 hii), bitAt_nil]
        rw [hb0]
        have hp2 := hinv.p2 q jq hstopq ii hii
        rw [hz0, hinv.kd0, hb0] at hp2
        exact hp2.symm)
      have hzstop : StopW st.nodes [] jq := hzwalk.2
      have hzleaf : (pairAt st.nodes [] jq).2 = 0 := by
        rw [hzwalk.1 jq (le_refl _)]
        exact hz0
      have hzpair : pairAt st.nodes [] i1 = (insP st k jd, insT st k jd) := by
        rw [hzwalk.1 i1 hi1]
        exact hpair
      have hkcd := hinv.invz jq hzstop hzleaf (insC st k jk) jk jd i1 hc1
        (ins_c_lt hinv) hrep.2 hjdjk hi1
        (by rw [hzpair]; exact (show pairAt st.nodes (insKc st k jk) jd =
          (insP st k jd, insT st k jd) from by
            rw [hrep.1 jd hjdjk]; exact ins_k_pair))
        (by rw [hzpair]
            show fwdP st.nodes (insP st k jd, insT st k jd)
            unfold fwdP
            have := ins_pbit hinv hs2
            show bitn st.nodes (insP st k jd) < bitn st.nodes (insT st k jd)
            omega)
        (insD st k jk) (by rw [hzpair]; exact hdlt)
      have hkcd2 : bitAt (insKc st k jk) (insD st k jk) = 0 := hkcd
      have hk1 : bitAt k (insD st k jk) ≠ 0 := by
        intro hz
        apply hfdb.1
        rw [hz, hkcd2]
      have l1 := bitAt_le_one q (insD st k jk)
      have l2 := bitAt_le_one k (insD st k jk)
      omega
  · -- the leaf key is stored and also crosses
    have hsc := (stored_cross_agree hinv hk hnew hs1 hs2 hcq1
      (pairAt_lt hinv.valid (by have := hinv.two_le; omega) q jq).2
      hreplay.2 hi1 hlpair).2.2
    rw [getBit_ofNat, getBit_ofNat] at ha ⊢
    have l1 := bitAt_le_one q (insD st k jk)
    have l2 := bitAt_le_one (st.keyData.getD (pairAt st.nodes q jq).2 [])
      (insD st k jk)
    have l3 := bitAt_le_one k (insD st k jk)
    omega

/-- Preservation of the tested-bits property across an insertion. -/
theorem ins_p2 {st : PatriciaTrieBuilder} {k : List Nat} {si mi jk jd : Nat}
    (hinv : TrieInv st) (hk : KeyOK k)
    (hnew : ∀ i, 1 ≤ i → i < st.nodes.length → st.keyData.getD i [] ≠ k)
    (hs1 : StopW st.nodes k jk)
    (hs2 : Stop2W st.nodes k (insD st k jk) jd) :
    ∀ q jp, StopW (insNodes st k si mi jk jd) q jp → ∀ i, i < jp →
    getBit q (bitn (insNodes st k si mi jk jd)
        (pairAt (insNodes st k si mi jk jd) q i).2) =
      getBit ((st.keyData ++ [k]).getD
          (pairAt (insNodes st k si mi jk jd) q jp).2 [])
        (bitn (insNodes st k si mi jk jd)
          (pairAt (insNodes st k si mi jk jd) q i).2) := by
  intro q jp hstop' i hi
  have hL : 0 < st.nodes.length := by have := hinv.two_le; omega
  obtain ⟨jq, hjqlt, hstopq⟩ := stopW_exists hinv.valid hL q
  rcases splice_cases hinv hs2 q hstopq with ⟨hp, hna⟩ | ⟨hc, i1, hi1, hpair⟩
  · -- the walk avoids the rewired slot: everything transfers
    obtain ⟨hpairs, hstopA⟩ := splice_nocross hinv hstopq hp hna
    have hjp : jq = jp := stopW_unique hstopA hstop'
    subst hjp
    rw [hpairs i (le_of_lt hi), hpairs jq (le_refl _)]
    rw [bitn_ins_lt hinv (pairAt_lt hinv.valid hL q i).2]
    rw [kd_getD_append_lt
      (by rw [hinv.len_kd]; exact (pairAt_lt hinv.valid hL q jq).2) k]
    exact hinv.p2 q jq hstopq i hi
  · obtain ⟨hieq, hqk⟩ := cross_index_eq hinv hs2 hstopq hi1 hpair
    have hieq2 : jd = i1 := hieq.symm
    subst hieq2
    obtain ⟨hpre, hat, hgood⟩ := splice_cross_prefix hinv hs2 hstopq hc hi1 hpair
    by_cases hsame : insSameD st k jk q
    · -- same differing bit: the walk stops at the new node with leaf key
      obtain ⟨hstopB, hleafB⟩ :=
        splice_cross_same hinv hs2 hstopq hc hi1 hpair hsame
      have hjp := stopW_unique hstop' hstopB
      subst hjp
      have hleafk : (st.keyData ++ [k]).getD
          (pairAt (insNodes st k si mi jk jd) q (jd + 1)).2 [] = k := by
        rw [hleafB, show st.nodes.length = st.keyData.length
          from hinv.len_kd.symm, kd_getD_append_self]
      rw [hleafk]
      rcases Nat.lt_or_ge i jd with hilt | hige
      · rw [hpre i hilt, bitn_ins_lt hinv (pairAt_lt hinv.valid hL q i).2]
        have hqi : pairAt st.nodes q i = pairAt st.nodes k i :=
          hqk i (le_of_lt hilt)
        rw [hqi]
        exact cross_prefix_agree hinv hs2 hstopq hi1 hqk i hilt
      · have hie : i = jd := by omega
        rw [hie, hat, show ((insP st k jd, st.nodes.length) : Nat × Nat).2 =
          st.nodes.length from rfl, bitn_ins_m hinv]
        exact bitval_eq_of_iff (getBit_le_one (by omega) q)
          (getBit_le_one (by omega) k) hsame
    · by_cases hdlt : (insD st k jk : Int) < bitn st.nodes (insT st k jd)
      · -- opposite bit, forward: the walk re-enters the old subtree
        obtain ⟨hstopB, hat1, hshift⟩ :=
          splice_cross_diff_fwd hinv hs2 hstopq hc hi1 hpair hsame hdlt
        have hjp := stopW_unique hstop' hstopB
        subst hjp
        have hjdlt : jd < jq := by
          rcases Nat.eq_or_lt_of_le hi1 with he | h
          · exfalso
            apply hstopq.2
            rw [← he, hpair]
            unfold fwdP
            rw [show ((insP st k jd, insT st k jd) : Nat × Nat).1 =
              insP st k jd from rfl,
              show ((insP st k jd, insT st k jd) : Nat × Nat).2 =
              insT st k jd from rfl]
            have := ins_pbit hinv hs2
            omega
          · exact h
        have hleafeq : (pairAt (insNodes st k si mi jk jd) q (jq + 1)).2 =
            (pairAt st.nodes q jq).2 := by
          obtain ⟨dd, hdd⟩ : ∃ dd, jq = jd + 1 + dd := ⟨jq - jd - 1, by omega⟩
          rw [show jq + 1 = jd + 2 + dd by omega, hshift dd (by omega), ← hdd]
        have hleafk : (st.keyData ++ [k]).getD
            (pairAt (insNodes st k si mi jk jd) q (jq + 1)).2 [] =
            st.keyData.getD (pairAt st.nodes q jq).2 [] := by
          rw [hleafeq, kd_getD_append_lt
            (by rw [hinv.len_kd]; exact (pairAt_lt hinv.valid hL q jq).2) k]
        rw [hleafk]
        rcases Nat.lt_or_ge i jd with hilt | hige
        · rw [hpre i hilt, bitn_ins_lt hinv (pairAt_lt hinv.valid hL q i).2]
          exact hinv.p2 q jq hstopq i (by omega)
        · rcases Nat.eq_or_lt_of_le hige with hie | hgt
          · -- the new node's bit is the differing bit
            rw [← hie, hat, show ((insP st k jd, st.nodes.length) :
              Nat × Nat).2 = st.nodes.length from rfl, bitn_ins_m hinv]
            exact cross_leaf_d_agree hinv hk hnew hs1 hs2 hstopq hi1 hpair
              hsame hdlt
          · rcases Nat.eq_or_lt_of_le hgt with hie2 | hgt2
            · -- the step after the new node re-tests the old stop node
              rw [← hie2, hat1, show ((st.nodes.length, insT st k jd) :
                Nat × Nat).2 = insT st k jd from rfl,
                bitn_ins_lt hinv (ins_t_lt hinv)]
              have hold := hinv.p2 q jq hstopq jd hjdlt
              rw [hpair, show ((insP st k jd, insT st k jd) : Nat × Nat).2 =
                insT st k jd from rfl] at hold
              exact hold
            · -- deeper steps are the old walk shifted by one
              obtain ⟨dd, hdd⟩ : ∃ dd, i = jd + 2 + dd := ⟨i - jd - 2, by omega⟩
              have hsh := hshift dd (by omega)
              rw [hdd, hsh, bitn_ins_lt hinv
                (pairAt_lt hinv.valid hL q (jd + 1 + dd)).2]
              exact hinv.p2 q jq hstopq (jd + 1 + dd) (by omega)
      · -- opposite bit, back edge: the walk stops at the old stop node
        obtain ⟨hstopB, hat1, hjqeq⟩ :=
          splice_cross_diff_back hinv hk hnew hs1 hs2 hstopq hc hi1 hpair
            hsame hdlt
        have hjp := stopW_unique hstop' hstopB
        subst hjp
        have hleafk : (st.keyData ++ [k]).getD
            (pairAt (insNodes st k si mi jk jd) q (jd + 1)).2 [] =
            st.keyData.getD (insT st k jd) [] := by
          rw [hat1, show ((st.nodes.length, insT st k jd) : Nat × Nat).2 =
            insT st k jd from rfl, kd_getD_append_lt
            (by rw [hinv.len_kd]; exact ins_t_lt hinv) k]
        rw [hleafk]
        rcases Nat.lt_or_ge i jd with hilt | hige
        · rw [hpre i hilt, bitn_ins_lt hinv (pairAt_lt hinv.valid hL q i).2]
          have hold := hinv.p2 q jq hstopq i (by omega)
          rw [hjqeq, hpair, show ((insP st k jd, insT st k jd) : Nat × Nat).2 =
            insT st k jd from rfl] at hold
          exact hold
        · have hie : i = jd := by omega
          rw [hie, hat, show ((insP st k jd, st.nodes.length) : Nat × Nat).2 =
            st.nodes.length from rfl, bitn_ins_m hinv]
          have hnf : ¬ fwdP st.nodes (pairAt st.nodes k jd) := fun hf =>
            hdlt (ins_davoid hinv hk hnew hs1 hs2 hf)
          obtain ⟨hjk, hct⟩ := ins_back_c hs1 hs2 hnf
          have hkceq : st.keyData.getD (insT st k jd) [] = insKc st k jk := by
            unfold insKc
            rw [hct]
          rw [hkceq]
          have hfdb : bitAt k (insD st k jk) ≠
              bitAt (insKc st k jk) (insD st k jk) ∧
              (∀ β, β < insD st k jk →
                bitAt k β = bitAt (insKc st k jk) β) ∧
              insD st k jk < max k.length (insKc st k jk).length * 8 :=
            ins_fdb hinv hk hnew
          have ha : getBit q (insD st k jk : Int) ≠
              getBit k (insD st k jk : Int) :=
            bitval_ne_of_not_iff (getBit_le_one (by omega) q)
              (getBit_le_one (by omega) k) hsame
          rw [getBit_ofNat, getBit_ofNat] at ha ⊢
          have l1 := bitAt_le_one q (insD st k jk)
          have l2 := bitAt_le_one k (insD st k jk)
          have l3 := bitAt_le_one (insKc st k jk) (insD st k jk)
          omega

/-- A stored key's new walk touching the new node is a crossing walk, and
the touching pair is one of the two freshly created pairs. -/
theorem ins_stored_at_L {st : PatriciaTrieBuilder} {k : List Nat}
    {si mi jk jd : Nat} (hinv : TrieInv st) (hk : KeyOK k)
    (hnew : ∀ i, 1 ≤ i → i < st.nodes.length → st.keyData.getD i [] ≠ k)
    (hs1 : StopW st.nodes k jk)
    (hs2 : Stop2W st.nodes k (insD st k jk) jd)
    {x ji jv u : Nat} (h1 : 1 ≤ x) (h2 : x < st.nodes.length)
    (hstopi : StopW st.nodes (st.keyData.getD x []) ji)
    (hstopv : StopW (insNodes st k si mi jk jd) (st.keyData.getD x []) jv)
    (hu : u ≤ jv)
    (htch : (pairAt (insNodes st k si mi jk jd) (st.keyData.getD x []) u).1 =
        st.nodes.length ∨
      (pairAt (insNodes st k si mi jk jd) (st.keyData.getD x []) u).2 =
        st.nodes.length) :
    (∃ i1, i1 ≤ ji ∧ pairAt st.nodes (st.keyData.getD x []) i1 =
      (insP st k jd, insT st k jd)) ∧
    (pairAt (insNodes st k si mi jk jd) (st.keyData.getD x []) u =
        (insP st k jd, st.nodes.length) ∨
      pairAt (insNodes st k si mi jk jd) (st.keyData.getD x []) u =
        (st.nodes.length, insT st k jd)) := by
  have hL0 : 0 < st.nodes.length := by have := hinv.two_le; omega
  rcases splice_cases hinv hs2 (st.keyData.getD x []) hstopi with
    ⟨hp, hna⟩ | ⟨hc, i1, hi1, hpair⟩
  · obtain ⟨hpairs, hstopA⟩ := splice_nocross hinv hstopi hp hna
    have hjv : ji = jv := stopW_unique hstopA hstopv
    subst hjv
    exfalso
    rw [hpairs u hu] at htch
    rcases htch with h | h
    · have := (pairAt_lt hinv.valid hL0 (st.keyData.getD x []) u).1
      omega
    · have := (pairAt_lt hinv.valid hL0 (st.keyData.getD x []) u).2
      omega
  · refine ⟨⟨i1, hi1, hpair⟩, ?_⟩
    have hnsame := stored_cross_not_same hinv hk hnew hs1 hs2 h1 h2 hstopi
      hi1 hpair
    obtain ⟨hpre, hat, hgood⟩ :=
      splice_cross_prefix hinv hs2 hstopi hc hi1 hpair
    by_cases hdlt : (insD st k jk : Int) < bitn st.nodes (insT st k jd)
    · obtain ⟨hstopB, hat1, hshift⟩ :=
        splice_cross_diff_fwd hinv hs2 hstopi hc hi1 hpair hnsame hdlt
      have hjv := stopW_unique hstopv hstopB
      subst hjv
      rcases Nat.lt_or_ge u i1 with hult | huge
      · exfalso
        rw [hpre u hult] at htch
        rcases htch with h | h
        · have := (pairAt_lt hinv.valid hL0 (st.keyData.getD x []) u).1
          omega
        · have := (pairAt_lt hinv.valid hL0 (st.keyData.getD x []) u).2
          omega
      · rcases Nat.eq_or_lt_of_le huge with hie | hgt
        · left
          have hieq : u = i1 := by omega
          rw [hieq]
          exact hat
        · rcases Nat.eq_or_lt_of_le hgt with hie2 | hgt2
          · right
            have hieq : u = i1 + 1 := by omega
            rw [hieq]
            exact hat1
          · exfalso
            obtain ⟨dd, hdd⟩ : ∃ dd, u = i1 + 2 + dd := ⟨u - i1 - 2, by omega⟩
            have hsh := hshift dd (by omega)
            rw [hdd, hsh] at htch
            rcases htch with h | h
            · have := (pairAt_lt hinv.valid hL0 (st.keyData.getD x [])
                (i1 + 1 + dd)).1
              omega
            · have := (pairAt_lt hinv.valid hL0 (st.keyData.getD x [])
                (i1 + 1 + dd)).2
              omega
    · obtain ⟨hstopB, hat1, hjieq⟩ :=
        splice_cross_diff_back hinv hk hnew hs1 hs2 hstopi hc hi1 hpair
          hnsame hdlt
      have hjv := stopW_unique hstopv hstopB
      subst hjv
      rcases Nat.lt_or_ge u i1 with hult | huge
      · exfalso
        rw [hpre u hult] at htch
        rcases htch with h | h
        · have := (pairAt_lt hinv.valid hL0 (st.keyData.getD x []) u).1
          omega
        · have := (pairAt_lt hinv.valid hL0 (st.keyData.getD x []) u).2
          omega
      · rcases Nat.eq_or_lt_of_le huge with hie | hgt
        · left
          have hieq : u = i1 := by omega
          rw [hieq]
          exact hat
        · right
          have hieq : u = i1 + 1 := by omega
          rw [hieq]
          exact hat1

/-- A pair of a stored key's new walk that avoids the new node was already a
pair of its old walk. -/
theorem ins_stored_old_pair {st : PatriciaTrieBuilder} {k : List Nat}
    {si mi jk jd : Nat} (hinv : TrieInv st) (hk : KeyOK k)
    (hnew : ∀ i, 1 ≤ i → i < st.nodes.length → st.keyData.getD i [] ≠ k)
    (hs1 : StopW st.nodes k jk)
    (hs2 : Stop2W st.nodes k (insD st k jk) jd)
    {x ji jv u : Nat} (h1 : 1 ≤ x) (h2 : x < st.nodes.length)
    (hstopi : StopW st.nodes (st.keyData.getD x []) ji)
    (hstopv : StopW (insNodes st k si mi jk jd) (st.keyData.getD x []) jv)
    (hu : u ≤ jv)
    (hn1 : (pairAt (insNodes st k si mi jk jd) (st.keyData.getD x []) u).1 ≠
      st.nodes.length)
    (hn2 : (pairAt (insNodes st k si mi jk jd) (st.keyData.getD x []) u).2 ≠
      st.nodes.length) :
    ∃ w, w ≤ ji ∧ pairAt st.nodes (st.keyData.getD x []) w =
      pairAt (insNodes st k si mi jk jd) (st.keyData.getD x []) u := by
  rcases splice_cases hinv hs2 (st.keyData.getD x []) hstopi with
    ⟨hp, hna⟩ | ⟨hc, i1, hi1, hpair⟩
  · obtain ⟨hpairs, hstopA⟩ := splice_nocross hinv hstopi hp hna
    have hjv : ji = jv := stopW_unique hstopA hstopv
    subst hjv
    exact ⟨u, hu, (hpairs u hu).symm⟩
  · have hnsame := stored_cross_not_same hinv hk hnew hs1 hs2 h1 h2 hstopi
      hi1 hpair
    obtain ⟨hpre, hat, hgood⟩ :=
      splice_cross_prefix hinv hs2 hstopi hc hi1 hpair
    by_cases hdlt : (insD st k jk : Int) < bitn st.nodes (insT st k jd)
    · obtain ⟨hstopB, hat1, hshift⟩ :=
        splice_cross_diff_fwd hinv hs2 hstopi hc hi1 hpair hnsame hdlt
      have hjv := stopW_unique hstopv hstopB
      subst hjv
      rcases Nat.lt_or_ge u i1 with hult | huge
      · exact ⟨u, by omega, (hpre u hult).symm⟩
      · rcases Nat.eq_or_lt_of_le huge with hie | hgt
        · exfalso
          apply hn2
          have hieq : u = i1 := by omega
          rw [hieq, hat]
        · rcases Nat.eq_or_lt_of_le hgt with hie2 | hgt2
          · exfalso
            apply hn1
            have hieq : u = i1 + 1 := by omega
            rw [hieq, hat1]
          · obtain ⟨dd, hdd⟩ : ∃ dd, u = i1 + 2 + dd := ⟨u - i1 - 2, by omega⟩
            have hsh := hshift dd (by omega)
            rw [hdd, hsh]
            exact ⟨i1 + 1 + dd, by omega, rfl⟩
    · obtain ⟨hstopB, hat1, hjieq⟩ :=
        splice_cross_diff_back hinv hk hnew hs1 hs2 hstopi hc hi1 hpair
          hnsame hdlt
      have hjv := stopW_unique hstopv hstopB
      subst hjv
      rcases Nat.lt_or_ge u i1 with hult | huge
      · exact ⟨u, by omega, (hpre u hult).symm⟩
      · rcases Nat.eq_or_lt_of_le huge with hie | hgt
        · exfalso
          apply hn2
          have hieq : u = i1 := by omega
          rw [hieq, hat]
        · exfalso
          apply hn1
          have hieq : u = i1 + 1 := by omega
          rw [hieq, hat1]

/-- Shape of the inserted key's walk in the new node array. -/
theorem ins_k_shape {st : PatriciaTrieBuilder} {k : List Nat}
    {si mi jk jd : Nat} (hinv : TrieInv st)
    (hs1 : StopW st.nodes k jk)
    (hs2 : Stop2W st.nodes k (insD st k jk) jd) :
    StopW (insNodes st k si mi jk jd) k (jd + 1) ∧
    (∀ u, u < jd → pairAt (insNodes st k si mi jk jd) k u =
      pairAt st.nodes k u) ∧
    pairAt (insNodes st k si mi jk jd) k jd =
      (insP st k jd, st.nodes.length) ∧
    pairAt (insNodes st k si mi jk jd) k (jd + 1) =
      (st.nodes.length, st.nodes.length) := by
  obtain ⟨hpre, hat, hgood⟩ := splice_cross_prefix hinv hs2 hs1 insCrosses_k
    (ins_jd_le hs1 hs2) ins_k_pair
  obtain ⟨hstopB, hleafB⟩ := splice_cross_same hinv hs2 hs1 insCrosses_k
    (ins_jd_le hs1 hs2) ins_k_pair insSameD_k
  refine ⟨hstopB, hpre, hat, ?_⟩
  show ((pairAt (insNodes st k si mi jk jd) k jd).2,
    childOf (insNodes st k si mi jk jd) k
      (pairAt (insNodes st k si mi jk jd) k jd).2) = _
  rw [hat]
  show (st.nodes.length,
    childOf (insNodes st k si mi jk jd) k st.nodes.length) = _
  rw [childOf_ins_m_same hinv insSameD_k]

/-- Any key of the new state whose new walk reaches the new node as a child
agrees with the inserted key below the differing bit. -/
theorem ins_side_dbit {st : PatriciaTrieBuilder} {k : List Nat}
    {si mi jk jd : Nat} (hinv : TrieInv st) (hk : KeyOK k)
    (hnew : ∀ i, 1 ≤ i → i < st.nodes.length → st.keyData.getD i [] ≠ k)
    (hs1 : StopW st.nodes k jk)
    (hs2 : Stop2W st.nodes k (insD st k jk) jd)
    {x jx u : Nat} (h1 : 1 ≤ x) (h2 : x < st.nodes.length + 1)
    (hstopx : StopW (insNodes st k si mi jk jd)
      ((st.keyData ++ [k]).getD x []) jx)
    (hu : u ≤ jx)
    (htch : (pairAt (insNodes st k si mi jk jd)
      ((st.keyData ++ [k]).getD x []) u).2 = st.nodes.length) :
    ∀ β, β < insD st k jk →
      bitAt ((st.keyData ++ [k]).getD x []) β = bitAt k β := by
  rcases Nat.lt_or_ge x st.nodes.length with hxl | hxg
  · have hkd : (st.keyData ++ [k]).getD x [] = st.keyData.getD x [] :=
      kd_getD_append_lt (by rw [hinv.len_kd]; exact hxl) k
    rw [hkd] at hstopx htch ⊢
    obtain ⟨ji, hstopi, hleafi⟩ := hinv.p1 x h1 hxl
    obtain ⟨⟨i1, hi1, hpair⟩, hsh⟩ := ins_stored_at_L hinv hk hnew hs1 hs2
      h1 hxl hstopi hstopx hu (Or.inr htch)
    exact (stored_cross_agree hinv hk hnew hs1 hs2 h1 hxl hstopi hi1
      hpair).2.1
  · have hxe : x = st.nodes.length := by omega
    subst hxe
    have hkd : (st.keyData ++ [k]).getD st.nodes.length [] = k := by
      rw [show st.nodes.length = st.keyData.length from hinv.len_kd.symm]
      exact kd_getD_append_self st.keyData k
    rw [hkd]
    exact fun β _ => rfl

/-- Any key of the new state whose new walk leaves the new node forward
stops back at the old stop node and agrees with the closest key below that
node's bit. -/
theorem ins_side_t {st : PatriciaTrieBuilder} {k : List Nat}
    {si mi jk jd : Nat} (hinv : TrieInv st) (hk : KeyOK k)
    (hnew : ∀ i, 1 ≤ i → i < st.nodes.length → st.keyData.getD i [] ≠ k)
    (hs1 : StopW st.nodes k jk)
    (hs2 : Stop2W st.nodes k (insD st k jk) jd)
    {x jx u : Nat} (h1 : 1 ≤ x) (h2 : x < st.nodes.length + 1)
    (hstopx : StopW (insNodes st k si mi jk jd)
      ((st.keyData ++ [k]).getD x []) jx)
    (hu : u ≤ jx)
    (htch : (pairAt (insNodes st k si mi jk jd)
      ((st.keyData ++ [k]).getD x []) u).1 = st.nodes.length)
    (hnt : (pairAt (insNodes st k si mi jk jd)
      ((st.keyData ++ [k]).getD x []) u).2 ≠ st.nodes.length) :
    (pairAt (insNodes st k si mi jk jd)
      ((st.keyData ++ [k]).getD x []) u).2 = insT st k jd ∧
    ∀ β : Nat, (β : Int) < bitn st.nodes (insT st k jd) →
      bitAt ((st.keyData ++ [k]).getD x []) β = bitAt (insKc st k jk) β := by
  rcases Nat.lt_or_ge x st.nodes.length with hxl | hxg
  · have hkd : (st.keyData ++ [k]).getD x [] = st.keyData.getD x [] :=
      kd_getD_append_lt (by rw [hinv.len_kd]; exact hxl) k
    rw [hkd] at hstopx htch hnt ⊢
    obtain ⟨ji, hstopi, hleafi⟩ := hinv.p1 x h1 hxl
    obtain ⟨⟨i1, hi1, hpair⟩, hsh⟩ := ins_stored_at_L hinv hk hnew hs1 hs2
      h1 hxl hstopi hstopx hu (Or.inl htch)
    rcases hsh with hshl | hshr
    · exfalso
      apply hnt
      rw [hshl]
    · refine ⟨by rw [hshr], ?_⟩
      exact (stored_cross_agree hinv hk hnew hs1 hs2 h1 hxl hstopi hi1
        hpair).1
  · exfalso
    have hxe : x = st.nodes.length := by omega
    subst hxe
    have hkd : (st.keyData ++ [k]).getD st.nodes.length [] = k := by
      rw [show st.nodes.length = st.keyData.length from hinv.len_kd.symm]
      exact kd_getD_append_self st.keyData k
    rw [hkd] at hstopx htch hnt
    obtain ⟨hstopk, hkpre, hkat, hkat1⟩ := ins_k_shape hinv hs1 hs2
    have hjx : jx = jd + 1 := stopW_unique hstopx hstopk
    subst hjx
    have hplt : insP st k jd < st.nodes.length := ins_p_lt hinv
    have hL0 : 0 < st.nodes.length := by have := hinv.two_le; omega
    rcases Nat.lt_or_ge u jd with hult | huge
    · rw [hkpre u hult] at htch
      have := (pairAt_lt hinv.valid hL0 k u).1
      omega
    · rcases Nat.eq_or_lt_of_le huge with hie | hgt
      · have hieq : u = jd := by omega
        rw [hieq, hkat] at htch
        have : insP st k jd = st.nodes.length := htch
        omega
      · have hieq : u = jd + 1 := by omega
        rw [hieq, hkat1] at hnt
        exact hnt rfl

/-- A pair of the inserted key's new walk that avoids the new node is an
early pair of its bounded old walk. -/
theorem ins_k_old_pair {st : PatriciaTrieBuilder} {k : List Nat}
    {si mi jk jd : Nat} (hinv : TrieInv st)
    (hs1 : StopW st.nodes k jk)
    (hs2 : Stop2W st.nodes k (insD st k jk) jd)
    {jx u : Nat} (hstopx : StopW (insNodes st k si mi jk jd) k jx)
    (hu : u ≤ jx)
    (hn1 : (pairAt (insNodes st k si mi jk jd) k u).1 ≠ st.nodes.length)
    (hn2 : (pairAt (insNodes st k si mi jk jd) k u).2 ≠ st.nodes.length) :
    u < jd ∧ pairAt st.nodes k u = pairAt (insNodes st k si mi jk jd) k u ∧
      bitn st.nodes (pairAt st.nodes k u).2 < (insD st k jk : Int) := by
  obtain ⟨hstopk, hkpre, hkat, hkat1⟩ := ins_k_shape hinv hs1 hs2
  have hjx := stopW_unique hstopx hstopk
  subst hjx
  rcases Nat.lt_or_ge u jd with hult | huge
  · exact ⟨hult, (hkpre u hult).symm, (hs2.1 u hult).2⟩
  · exfalso
    rcases Nat.eq_or_lt_of_le huge with hie | hgt
    · apply hn2
      have hieq : u = jd := by omega
      rw [hieq, hkat]
    · apply hn1
      have hieq : u = jd + 1 := by omega
      rw [hieq, hkat1]

/-- A stored key sharing an old forward pair with the inserted key's bounded
walk agrees with it below that pair's bit. -/
theorem ins_k_chain {st : PatriciaTrieBuilder} {k : List Nat} {jk : Nat}
    (hinv : TrieInv st) (hk : KeyOK k)
    (hnew : ∀ i, 1 ≤ i → i < st.nodes.length → st.keyData.getD i [] ≠ k)
    (hs1 : StopW st.nodes k jk)
    {x jix wx uk : Nat} (h1 : 1 ≤ x) (h2 : x < st.nodes.length)
    (hstopi : StopW st.nodes (st.keyData.getD x []) jix) (hwx : wx ≤ jix)
    (huk : uk ≤ jk)
    (hpeq : pairAt st.nodes (st.keyData.getD x []) wx = pairAt st.nodes k uk)
    (hfwd : fwdP st.nodes (pairAt st.nodes k uk))
    (hbnd : bitn st.nodes (pairAt st.nodes k uk).2 < (insD st k jk : Int)) :
    ∀ β : Nat, (β : Int) < bitn st.nodes (pairAt st.nodes k uk).2 →
      bitAt (st.keyData.getD x []) β = bitAt k β := by
  intro β hβ
  have hβd : β < insD st k jk := by
    have h := lt_trans hβ hbnd
    exact_mod_cast h
  have hfdb : bitAt k (insD st k jk) ≠ bitAt (insKc st k jk) (insD st k jk) ∧
      (∀ γ, γ < insD st k jk → bitAt k γ = bitAt (insKc st k jk) γ) ∧
      insD st k jk < max k.length (insKc st k jk).length * 8 :=
    ins_fdb hinv hk hnew
  have hrep := ins_kc_replay hinv hs1
  have hkagree : bitAt k β = bitAt (insKc st k jk) β := hfdb.2.1 β hβd
  rcases Nat.eq_zero_or_pos (insC st k jk) with hc0 | hc1
  · -- the closest key is the sentinel: the empty walk replays the key
    have hkc : insKc st k jk = [] := by
      unfold insKc
      rw [hc0, hinv.kd0]
    have hzstop : StopW st.nodes [] jk := by
      have h := hrep.2
      rw [hkc] at h
      exact h
    have hzpairs : ∀ i, i ≤ jk → pairAt st.nodes [] i = pairAt st.nodes k i := by
      have h := hrep.1
      rw [hkc] at h
      exact h
    have hzleaf : (pairAt st.nodes [] jk).2 = 0 := by
      rw [hzpairs jk (le_refl _)]
      exact hc0
    have hx0 := hinv.invz jk hzstop hzleaf x jix wx uk h1 h2 hstopi hwx huk
      (hpeq.trans (hzpairs uk huk).symm)
      (by rw [hzpairs uk huk]; exact hfwd) β (by rw [hzpairs uk huk]; exact hβ)
    have hk0 : bitAt k β = 0 := by
      rw [hkagree, hkc, bitAt_nil]
    rw [hx0, hk0]
  · -- the closest key is stored: chain through it with the agreement
    have hkcpairs : pairAt st.nodes (insKc st k jk) uk = pairAt st.nodes k uk :=
      hrep.1 uk huk
    have hpg := hinv.pagree (insC st k jk) x jk jix uk wx hc1 (ins_c_lt hinv)
      h1 h2 hrep.2 hstopi huk hwx
      ((show pairAt st.nodes (st.keyData.getD (insC st k jk) []) uk =
          pairAt st.nodes k uk from hkcpairs).trans hpeq.symm)
      (by rw [show pairAt st.nodes (st.keyData.getD (insC st k jk) []) uk =
          pairAt st.nodes k uk from hkcpairs]
          exact hfwd)
      β
      (by rw [show pairAt st.nodes (st.keyData.getD (insC st k jk) []) uk =
          pairAt st.nodes k uk from hkcpairs]
          exact hβ)
    exact hpg.symm.trans
      (show bitAt (st.keyData.getD (insC st k jk) []) β = bitAt k β
        from hkagree.symm)

/-- Preservation of the pair-agreement invariant across an insertion. -/
theorem ins_pagree {st : PatriciaTrieBuilder} {k : List Nat}
    {si mi jk jd : Nat} (hinv : TrieInv st) (hk : KeyOK k)
    (hnew : ∀ i, 1 ≤ i → i < st.nodes.length → st.keyData.getD i [] ≠ k)
    (hs1 : StopW st.nodes k jk)
    (hs2 : Stop2W st.nodes k (insD st k jk) jd) :
    ∀ a b j1 j2 u1 u2, 1 ≤ a → a < st.nodes.length + 1 →
    1 ≤ b → b < st.nodes.length + 1 →
    StopW (insNodes st k si mi jk jd) ((st.keyData ++ [k]).getD a []) j1 →
    StopW (insNodes st k si mi jk jd) ((st.keyData ++ [k]).getD b []) j2 →
    u1 ≤ j1 → u2 ≤ j2 →
    pairAt (insNodes st k si mi jk jd) ((st.keyData ++ [k]).getD a []) u1 =
      pairAt (insNodes st k si mi jk jd) ((st.keyData ++ [k]).getD b []) u2 →
    fwdP (insNodes st k si mi jk jd)
      (pairAt (insNodes st k si mi jk jd) ((st.keyData ++ [k]).getD a []) u1) →
    ∀ β : Nat, (β : Int) < bitn (insNodes st k si mi jk jd)
        (pairAt (insNodes st k si mi jk jd)
          ((st.keyData ++ [k]).getD a []) u1).2 →
      bitAt ((st.keyData ++ [k]).getD a []) β =
        bitAt ((st.keyData ++ [k]).getD b []) β := by
  intro a b j1 j2 u1 u2 ha1 ha2 hb1 hb2 hsa hsb hu1 hu2 hshp hfwd β hβ
  have hL0 : 0 < st.nodes.length := by have := hinv.two_le; omega
  by_cases hab : a = b
  · subst hab
    rfl
  by_cases hP2 : (pairAt (insNodes st k si mi jk jd)
      ((st.keyData ++ [k]).getD a []) u1).2 = st.nodes.length
  · -- the shared pair leads into the new node: its bit is the differing bit
    have hbm : bitn (insNodes st k si mi jk jd)
        (pairAt (insNodes st k si mi jk jd)
          ((st.keyData ++ [k]).getD a []) u1).2 = (insD st k jk : Int) := by
      rw [hP2]
      exact bitn_ins_m hinv
    rw [hbm] at hβ
    have hβd : β < insD st k jk := by exact_mod_cast hβ
    rw [ins_side_dbit hinv hk hnew hs1 hs2 ha1 ha2 hsa hu1 hP2 β hβd,
      ins_side_dbit hinv hk hnew hs1 hs2 hb1 hb2 hsb hu2
        (by rw [← hshp]; exact hP2) β hβd]
  · by_cases hP1 : (pairAt (insNodes st k si mi jk jd)
        ((st.keyData ++ [k]).getD a []) u1).1 = st.nodes.length
    · -- the shared pair leaves the new node forward into the old stop node
      have hA := ins_side_t hinv hk hnew hs1 hs2 ha1 ha2 hsa hu1 hP1 hP2
      have hB := ins_side_t hinv hk hnew hs1 hs2 hb1 hb2 hsb hu2
        (by rw [← hshp]; exact hP1) (by rw [← hshp]; exact hP2)
      have hbt : bitn (insNodes st k si mi jk jd)
          (pairAt (insNodes st k si mi jk jd)
            ((st.keyData ++ [k]).getD a []) u1).2 =
          bitn st.nodes (insT st k jd) := by
        rw [hA.1, bitn_ins_lt hinv (ins_t_lt hinv)]
      rw [hbt] at hβ
      rw [hA.2 β hβ, hB.2 β hβ]
    · -- the shared pair is an old pair
      have hvN : ValidN (insNodes st k si mi jk jd) := ins_valid hinv
      have hlenN : 0 < (insNodes st k si mi jk jd).length := by
        rw [ins_len]
        omega
      have hP1lt : (pairAt (insNodes st k si mi jk jd)
          ((st.keyData ++ [k]).getD a []) u1).1 < st.nodes.length := by
        have h := (pairAt_lt hvN hlenN ((st.keyData ++ [k]).getD a []) u1).1
        rw [ins_len] at h
        omega
      have hP2lt : (pairAt (insNodes st k si mi jk jd)
          ((st.keyData ++ [k]).getD a []) u1).2 < st.nodes.length := by
        have h := (pairAt_lt hvN hlenN ((st.keyData ++ [k]).getD a []) u1).2
        rw [ins_len] at h
        omega
      rw [bitn_ins_lt hinv hP2lt] at hβ
      rcases Nat.lt_or_ge a st.nodes.length with haL | haG
      · have hKa : (st.keyData ++ [k]).getD a [] = st.keyData.getD a [] :=
          kd_getD_append_lt (by rw [hinv.len_kd]; exact haL) k
        rw [hKa] at hsa hshp hfwd hβ hP1 hP2 hP1lt hP2lt ⊢
        obtain ⟨ja, hstopa, _⟩ := hinv.p1 a ha1 haL
        obtain ⟨wa, hwa, hpea⟩ := ins_stored_old_pair hinv hk hnew hs1 hs2
          ha1 haL hstopa hsa hu1 hP1 hP2
        rcases Nat.lt_or_ge b st.nodes.length with hbL | hbG
        · -- both keys were already stored: use the old invariant
          have hKb : (st.keyData ++ [k]).getD b [] = st.keyData.getD b [] :=
            kd_getD_append_lt (by rw [hinv.len_kd]; exact hbL) k
          rw [hKb] at hsb hshp ⊢
          obtain ⟨jb, hstopb, _⟩ := hinv.p1 b hb1 hbL
          obtain ⟨wb, hwb, hpeb⟩ := ins_stored_old_pair hinv hk hnew hs1 hs2
            hb1 hbL hstopb hsb hu2 (by rw [← hshp]; exact hP1)
            (by rw [← hshp]; exact hP2)
          have hfwdold : fwdP st.nodes
              (pairAt st.nodes (st.keyData.getD a []) wa) := by
            rw [hpea]
            unfold fwdP at hfwd ⊢
            rw [bitn_ins_lt hinv hP1lt, bitn_ins_lt hinv hP2lt] at hfwd
            exact hfwd
          refine hinv.pagree a b ja jb wa wb ha1 haL hb1 hbL hstopa hstopb
            hwa hwb (hpea.trans (hshp.trans hpeb.symm)) hfwdold β ?_
          rw [hpea]
          exact hβ
        · -- the other key is the inserted one: chain through the closest key
          have hbe : b = st.nodes.length := by omega
          subst hbe
          have hKb : (st.keyData ++ [k]).getD st.nodes.length [] = k := by
            rw [show st.nodes.length = st.keyData.length
              from hinv.len_kd.symm]
            exact kd_getD_append_self st.keyData k
          rw [hKb] at hsb hshp ⊢
          obtain ⟨huk, hkpe, hbnd⟩ := ins_k_old_pair hinv hs1 hs2 hsb hu2
            (by rw [← hshp]; exact hP1) (by rw [← hshp]; exact hP2)
          have hkeq : pairAt st.nodes (st.keyData.getD a []) wa =
              pairAt st.nodes k u2 := hpea.trans (hshp.trans hkpe.symm)
          have hfwdold : fwdP st.nodes (pairAt st.nodes k u2) := by
            rw [hkpe, ← hshp]
            unfold fwdP at hfwd ⊢
            rw [bitn_ins_lt hinv hP1lt, bitn_ins_lt hinv hP2lt] at hfwd
            exact hfwd
          have hβ2 : (β : Int) < bitn st.nodes (pairAt st.nodes k u2).2 := by
            rw [show (pairAt st.nodes k u2).2 =
              (pairAt st.nodes (st.keyData.getD a []) wa).2
              from by rw [hkeq]]
            rw [← hpea] at hβ
            exact hβ
          exact ins_k_chain hinv hk hnew hs1 ha1 haL hstopa hwa
            (by have := ins_jd_le hs1 hs2; omega) hkeq hfwdold hbnd β hβ2
      · -- the first key is the inserted one
        have hae : a = st.nodes.length := by omega
        subst hae
        have hKa : (st.keyData ++ [k]).getD st.nodes.length [] = k := by
          rw [show st.nodes.length = st.keyData.length from hinv.len_kd.symm]
          exact kd_getD_append_self st.keyData k
        rw [hKa] at hsa hshp hfwd hβ hP1 hP2 hP1lt hP2lt ⊢
        have hbL : b < st.nodes.length := by omega
        have hKb : (st.keyData ++ [k]).getD b [] = st.keyData.getD b [] :=
          kd_getD_append_lt (by rw [hinv.len_kd]; exact hbL) k
        rw [hKb] at hsb hshp ⊢
        obtain ⟨huk, hkpe, hbnd⟩ := ins_k_old_pair hinv hs1 hs2 hsa hu1
          hP1 hP2
        obtain ⟨jb, hstopb, _⟩ := hinv.p1 b hb1 hbL
        obtain ⟨wb, hwb, hpeb⟩ := ins_stored_old_pair hinv hk hnew hs1 hs2
          hb1 hbL hstopb hsb hu2 (by rw [← hshp]; exact hP1)
          (by rw [← hshp]; exact hP2)
        have hkeq : pairAt st.nodes (st.keyData.getD b []) wb =
            pairAt st.nodes k u1 := hpeb.trans (hshp.symm.trans hkpe.symm)
        have hfwdold : fwdP st.nodes (pairAt st.nodes k u1) := by
          rw [hkpe]
          unfold fwdP at hfwd ⊢
          rw [bitn_ins_lt hinv hP1lt, bitn_ins_lt hinv hP2lt] at hfwd
          exact hfwd
        have hβ2 : (β : Int) < bitn st.nodes (pairAt st.nodes k u1).2 := by
          rw [show (pairAt st.nodes k u1).2 =
            (pairAt (insNodes st k si mi jk jd) k u1).2 from by rw [hkpe]]
          exact hβ
        exact (ins_k_chain hinv hk hnew hs1 hb1 hbL hstopb hwb
          (by have := ins_jd_le hs1 hs2; omega) hkeq hfwdold hbnd β hβ2).symm

/-- Any new walk touching the new node is a crossing walk, and the touching
pair is one of the three freshly created pairs. -/
theorem ins_any_at_L {st : PatriciaTrieBuilder} {k : List Nat}
    {si mi jk jd : Nat} (hinv : TrieInv st) (hk : KeyOK k)
    (hnew : ∀ i, 1 ≤ i → i < st.nodes.length → st.keyData.getD i [] ≠ k)
    (hs1 : StopW st.nodes k jk)
    (hs2 : Stop2W st.nodes k (insD st k jk) jd)
    {q : List Nat} {jq jv u : Nat}
    (hstopq : StopW st.nodes q jq)
    (hstopv : StopW (insNodes st k si mi jk jd) q jv)
    (hu : u ≤ jv)
    (htch : (pairAt (insNodes st k si mi jk jd) q u).1 = st.nodes.length ∨
      (pairAt (insNodes st k si mi jk jd) q u).2 = st.nodes.length) :
    (∃ i1, i1 ≤ jq ∧ pairAt st.nodes q i1 = (insP st k jd, insT st k jd)) ∧
    (pairAt (insNodes st k si mi jk jd) q u =
        (insP st k jd, st.nodes.length) ∨
      pairAt (insNodes st k si mi jk jd) q u =
        (st.nodes.length, insT st k jd) ∨
      pairAt (insNodes st k si mi jk jd) q u =
        (st.nodes.length, st.nodes.length)) := by
  have hL0 : 0 < st.nodes.length := by have := hinv.two_le; omega
  rcases splice_cases hinv hs2 q hstopq with ⟨hp, hna⟩ | ⟨hc, i1, hi1, hpair⟩
  · obtain ⟨hpairs, hstopA⟩ := splice_nocross hinv hstopq hp hna
    have hjv : jq = jv := stopW_unique hstopA hstopv
    subst hjv
    exfalso
    rw [hpairs u hu] at htch
    rcases htch with h | h
    · have := (pairAt_lt hinv.valid hL0 q u).1
      omega
    · have := (pairAt_lt hinv.valid hL0 q u).2
      omega
  · refine ⟨⟨i1, hi1, hpair⟩, ?_⟩
    obtain ⟨hpre, hat, hgood⟩ := splice_cross_prefix hinv hs2 hstopq hc hi1 hpair
    by_cases hsame : insSameD st k jk q
    · obtain ⟨hstopB, hleafB⟩ :=
        splice_cross_same hinv hs2 hstopq hc hi1 hpair hsame
      have hjv := stopW_unique hstopv hstopB
      subst hjv
      rcases Nat.lt_or_ge u i1 with hult | huge
      · exfalso
        rw [hpre u hult] at htch
        rcases htch with h | h
        · have := (pairAt_lt hinv.valid hL0 q u).1
          omega
        · have := (pairAt_lt hinv.valid hL0 q u).2
          omega
      · rcases Nat.eq_or_lt_of_le huge with hie | hgt
        · left
          have hieq : u = i1 := by omega
          rw [hieq]
          exact hat
        · right
          right
          have hieq : u = i1 + 1 := by omega
          rw [hieq]
          show ((pairAt (insNodes st k si mi jk jd) q i1).2,
            childOf (insNodes st k si mi jk jd) q
              (pairAt (insNodes st k si mi jk jd) q i1).2) = _
          rw [hat]
          show (st.nodes.length,
            childOf (insNodes st k si mi jk jd) q st.nodes.length) = _
          rw [childOf_ins_m_same hinv hsame]
    · by_cases hdlt : (insD st k jk : Int) < bitn st.nodes (insT st k jd)
      · obtain ⟨hstopB, hat1, hshift⟩ :=
          splice_cross_diff_fwd hinv hs2 hstopq hc hi1 hpair hsame hdlt
        have hjv := stopW_unique hstopv hstopB
        subst hjv
        rcases Nat.lt_or_ge u i1 with hult | huge
        · exfalso
          rw [hpre u hult] at htch
          rcases htch with h | h
          · have := (pairAt_lt hinv.valid hL0 q u).1
            omega
          · have := (pairAt_lt hinv.valid hL0 q u).2
            omega
        · rcases Nat.eq_or_lt_of_le huge with hie | hgt
          · left
            have hieq : u = i1 := by omega
            rw [hieq]
            exact hat
          · rcases Nat.eq_or_lt_of_le hgt with hie2 | hgt2
            · right
              left
              have hieq : u = i1 + 1 := by omega
              rw [hieq]
              exact hat1
            · exfalso
              obtain ⟨dd, hdd⟩ : ∃ dd, u = i1 + 2 + dd := ⟨u - i1 - 2, by omega⟩
              have hsh := hshift dd (by omega)
              rw [hdd, hsh] at htch
              rcases htch with h | h
              · have := (pairAt_lt hinv.valid hL0 q (i1 + 1 + dd)).1
                omega
              · have := (pairAt_lt hinv.valid hL0 q (i1 + 1 + dd)).2
                omega
      · obtain ⟨hstopB, hat1, hjqeq⟩ :=
          splice_cross_diff_back hinv hk hnew hs1 hs2 hstopq hc hi1 hpair
            hsame hdlt
        have hjv := stopW_unique hstopv hstopB
        subst hjv
        rcases Nat.lt_or_ge u i1 with hult | huge
        · exfalso
          rw [hpre u hult] at htch
          rcases htch with h | h
          · have := (pairAt_lt hinv.valid hL0 q u).1
            omega
          · have := (pairAt_lt hinv.valid hL0 q u).2
            omega
        · rcases Nat.eq_or_lt_of_le huge with hie | hgt
          · left
            have hieq : u = i1 := by omega
            rw [hieq]
            exact hat
          · right
            left
            have hieq : u = i1 + 1 := by omega
            rw [hieq]
            exact hat1

/-- A pair of any new walk that avoids the new node was already a pair of
the old walk. -/
theorem ins_any_old_pair {st : PatriciaTrieBuilder} {k : List Nat}
    {si mi jk jd : Nat} (hinv : TrieInv st) (hk : KeyOK k)
    (hnew : ∀ i, 1 ≤ i → i < st.nodes.length → st.keyData.getD i [] ≠ k)
    (hs1 : StopW st.nodes k jk)
    (hs2 : Stop2W st.nodes k (insD st k jk) jd)
    {q : List Nat} {jq jv u : Nat}
    (hstopq : StopW st.nodes q jq)
    (hstopv : StopW (insNodes st k si mi jk jd) q jv)
    (hu : u ≤ jv)
    (hn1 : (pairAt (insNodes st k si mi jk jd) q u).1 ≠ st.nodes.length)
    (hn2 : (pairAt (insNodes st k si mi jk jd) q u).2 ≠ st.nodes.length) :
    ∃ w, w ≤ jq ∧ pairAt st.nodes q w =
      pairAt (insNodes st k si mi jk jd) q u := by
  rcases splice_cases hinv hs2 q hstopq with ⟨hp, hna⟩ | ⟨hc, i1, hi1, hpair⟩
  · obtain ⟨hpairs, hstopA⟩ := splice_nocross hinv hstopq hp hna
    have hjv : jq = jv := stopW_unique hstopA hstopv
    subst hjv
    exact ⟨u, hu, (hpairs u hu).symm⟩
  · obtain ⟨hpre, hat, hgood⟩ := splice_cross_prefix hinv hs2 hstopq hc hi1 hpair
    by_cases hsame : insSameD st k jk q
    · obtain ⟨hstopB, hleafB⟩ :=
        splice_cross_same hinv hs2 hstopq hc hi1 hpair hsame
      have hjv := stopW_unique hstopv hstopB
      subst hjv
      rcases Nat.lt_or_ge u i1 with hult | huge
      · exact ⟨u, by omega, (hpre u hult).symm⟩
      · exfalso
        rcases Nat.eq_or_lt_of_le huge with hie | hgt
        · apply hn2
          have hieq : u = i1 := by omega
          rw [hieq, hat]
        · apply hn2
          have hieq : u = i1 + 1 := by omega
          rw [hieq]
          exact hleafB
    · by_cases hdlt : (insD st k jk : Int) < bitn st.nodes (insT st k jd)
      · obtain ⟨hstopB, hat1, hshift⟩ :=
          splice_cross_diff_fwd hinv hs2 hstopq hc hi1 hpair hsame hdlt
        have hjv := stopW_unique hstopv hstopB
        subst hjv
        rcases Nat.lt_or_ge u i1 with hult | huge
        · exact ⟨u, by omega, (hpre u hult).symm⟩
        · rcases Nat.eq_or_lt_of_le huge with hie | hgt
          · exfalso
            apply hn2
            have hieq : u = i1 := by omega
            rw [hieq, hat]
          · rcases Nat.eq_or_lt_of_le hgt with hie2 | hgt2
            · exfalso
              apply hn1
              have hieq : u = i1 + 1 := by omega
              rw [hieq, hat1]
            · obtain ⟨dd, hdd⟩ : ∃ dd, u = i1 + 2 + dd := ⟨u - i1 - 2, by omega⟩
              have hsh := hshift dd (by omega)
              rw [hdd, hsh]
              exact ⟨i1 + 1 + dd, by omega, rfl⟩
      · obtain ⟨hstopB, hat1, hjqeq⟩ :=
          splice_cross_diff_back hinv hk hnew hs1 hs2 hstopq hc hi1 hpair
            hsame hdlt
        have hjv := stopW_unique hstopv hstopB
        subst hjv
        rcases Nat.lt_or_ge u i1 with hult | huge
        · exact ⟨u, by omega, (hpre u hult).symm⟩
        · exfalso
          rcases Nat.eq_or_lt_of_le huge with hie | hgt
          · apply hn2
            have hieq : u = i1 := by omega
            rw [hieq, hat]
          · apply hn1
            have hieq : u = i1 + 1 := by omega
            rw [hieq, hat1]

/-- If the empty query's new walk ends at the sentinel, so did its old walk. -/
theorem ins_z_leaf {st : PatriciaTrieBuilder} {k : List Nat}
    {si mi jk jd : Nat} (hinv : TrieInv st) (hk : KeyOK k)
    (hnew : ∀ i, 1 ≤ i → i < st.nodes.length → st.keyData.getD i [] ≠ k)
    (hs1 : StopW st.nodes k jk)
    (hs2 : Stop2W st.nodes k (insD st k jk) jd)
    {jz0 jz : Nat} (hstopz : StopW st.nodes [] jz0)
    (hstopz' : StopW (insNodes st k si mi jk jd) [] jz)
    (hleafz' : (pairAt (insNodes st k si mi jk jd) [] jz).2 = 0) :
    (pairAt st.nodes [] jz0).2 = 0 := by
  rcases splice_cases hinv hs2 [] hstopz with ⟨hp, hna⟩ | ⟨hc, i1, hi1, hpair⟩
  · obtain ⟨hpairs, hstopA⟩ := splice_nocross hinv hstopz hp hna
    have hjv : jz0 = jz := stopW_unique hstopA hstopz'
    subst hjv
    rw [hpairs jz0 (le_refl _)] at hleafz'
    exact hleafz'
  · by_cases hsame : insSameD st k jk []
    · obtain ⟨hstopB, hleafB⟩ :=
        splice_cross_same hinv hs2 hstopz hc hi1 hpair hsame
      have hjv := stopW_unique hstopz' hstopB
      subst hjv
      rw [hleafB] at hleafz'
      have := hinv.two_le
      omega
    · by_cases hdlt : (insD st k jk : Int) < bitn st.nodes (insT st k jd)
      · obtain ⟨hstopB, hat1, hshift⟩ :=
          splice_cross_diff_fwd hinv hs2 hstopz hc hi1 hpair hsame hdlt
        have hjv := stopW_unique hstopz' hstopB
        subst hjv
        have hi1lt : i1 < jz0 := by
          rcases Nat.eq_or_lt_of_le hi1 with he | h
          · exfalso
            apply hstopz.2
            rw [← he, hpair]
            unfold fwdP
            rw [show ((insP st k jd, insT st k jd) : Nat × Nat).1 =
              insP st k jd from rfl,
              show ((insP st k jd, insT st k jd) : Nat × Nat).2 =
              insT st k jd from rfl]
            have := ins_pbit hinv hs2
            omega
          · exact h
        obtain ⟨dd, hdd⟩ : ∃ dd, jz0 = i1 + 1 + dd := ⟨jz0 - i1 - 1, by omega⟩
        rw [show jz0 + 1 = i1 + 2 + dd by omega, hshift dd (by omega), ← hdd]
          at hleafz'
        exact hleafz'
      · obtain ⟨hstopB, hat1, hjz0eq⟩ :=
          splice_cross_diff_back hinv hk hnew hs1 hs2 hstopz hc hi1 hpair
            hsame hdlt
        have hjv := stopW_unique hstopz' hstopB
        subst hjv
        rw [hat1, show ((st.nodes.length, insT st k jd) : Nat × Nat).2 =
          insT st k jd from rfl] at hleafz'
        rw [hjz0eq, hpair, show ((insP st k jd, insT st k jd) : Nat × Nat).2 =
          insT st k jd from rfl]
        exact hleafz'

/-- If the empty query's new walk ends at the sentinel while crossing the
replaced pair, the inserted key is all-zero below the differing bit. -/
theorem ins_z_k_zero {st : PatriciaTrieBuilder} {k : List Nat}
    {si mi jk jd : Nat} (hinv : TrieInv st) (hk : KeyOK k)
    (hnew : ∀ i, 1 ≤ i → i < st.nodes.length → st.keyData.getD i [] ≠ k)
    (hs1 : StopW st.nodes k jk)
    (hs2 : Stop2W st.nodes k (insD st k jk) jd)
    {jz0 jz : Nat} (hstopz : StopW st.nodes [] jz0)
    (hstopz' : StopW (insNodes st k si mi jk jd) [] jz)
    (hleafz' : (pairAt (insNodes st k si mi jk jd) [] jz).2 = 0)
    {i1 : Nat} (hi1 : i1 ≤ jz0)
    (hpair : pairAt st.nodes [] i1 = (insP st k jd, insT st k jd)) :
    ∀ β, β < insD st k jk → bitAt k β = 0 := by
  intro β hβ
  have hz0 : (pairAt st.nodes [] jz0).2 = 0 :=
    ins_z_leaf hinv hk hnew hs1 hs2 hstopz hstopz' hleafz'
  have hfdb : bitAt k (insD st k jk) ≠ bitAt (insKc st k jk) (insD st k jk) ∧
      (∀ γ, γ < insD st k jk → bitAt k γ = bitAt (insKc st k jk) γ) ∧
      insD st k jk < max k.length (insKc st k jk).length * 8 :=
    ins_fdb hinv hk hnew
  have hkagree : bitAt k β = bitAt (insKc st k jk) β := hfdb.2.1 β hβ
  rcases Nat.eq_zero_or_pos (insC st k jk) with hc0 | hc1
  · have hkc : insKc st k jk = [] := by
      unfold insKc
      rw [hc0, hinv.kd0]
    rw [hkagree, hkc, bitAt_nil]
  · by_cases hnf : fwdP st.nodes (pairAt st.nodes k jd)
    · have hdlt : (insD st k jk : Int) < bitn st.nodes (insT st k jd) :=
        ins_davoid hinv hk hnew hs1 hs2 hnf
      have hrep := ins_kc_replay hinv hs1
      have hkcz := hinv.invz jz0 hstopz hz0 (insC st k jk) jk jd i1 hc1
        (ins_c_lt hinv) hrep.2 (ins_jd_le hs1 hs2) hi1
        ((show pairAt st.nodes (st.keyData.getD (insC st k jk) []) jd =
            pairAt st.nodes k jd from hrep.1 jd (ins_jd_le hs1 hs2)).trans
          (ins_k_pair.trans hpair.symm))
        (by rw [hpair]
            show fwdP st.nodes (insP st k jd, insT st k jd)
            unfold fwdP
            show bitn st.nodes (insP st k jd) < bitn st.nodes (insT st k jd)
            have := ins_pbit hinv hs2
            omega)
        β
        (by rw [hpair, show ((insP st k jd, insT st k jd) : Nat × Nat).2 =
            insT st k jd from rfl]
            have hcast : (β : Int) < (insD st k jk : Int) := by
              exact_mod_cast hβ
            omega)
      rw [hkagree]
      exact hkcz
    · obtain ⟨hjk, hct⟩ := ins_back_c hs1 hs2 hnf
      exfalso
      rcases Nat.eq_or_lt_of_le hi1 with he | hlt
      · rw [← he, hpair, show ((insP st k jd, insT st k jd) : Nat × Nat).2 =
          insT st k jd from rfl] at hz0
        rw [hz0] at hct
        omega
      · apply hnf
        have hfp := hstopz.1 i1 hlt
        rw [hpair] at hfp
        rw [show pairAt st.nodes k jd = (insP st k jd, insT st k jd)
          from ins_k_pair]
        exact hfp

/-- Preservation of the sentinel-walk invariant across an insertion. -/
theorem ins_invz {st : PatriciaTrieBuilder} {k : List Nat}
    {si mi jk jd : Nat} (hinv : TrieInv st) (hk : KeyOK k)
    (hnew : ∀ i, 1 ≤ i → i < st.nodes.length → st.keyData.getD i [] ≠ k)
    (hs1 : StopW st.nodes k jk)
    (hs2 : Stop2W st.nodes k (insD st k jk) jd) :
    ∀ jz, StopW (insNodes st k si mi jk jd) [] jz →
    (pairAt (insNodes st k si mi jk jd) [] jz).2 = 0 →
    ∀ i ji ti tz, 1 ≤ i → i < st.nodes.length + 1 →
    StopW (insNodes st k si mi jk jd) ((st.keyData ++ [k]).getD i []) ji →
    ti ≤ ji → tz ≤ jz →
    pairAt (insNodes st k si mi jk jd) ((st.keyData ++ [k]).getD i []) ti =
      pairAt (insNodes st k si mi jk jd) [] tz →
    fwdP (insNodes st k si mi jk jd)
      (pairAt (insNodes st k si mi jk jd) [] tz) →
    ∀ b : Nat, (b : Int) < bitn (insNodes st k si mi jk jd)
        (pairAt (insNodes st k si mi jk jd) [] tz).2 →
      bitAt ((st.keyData ++ [k]).getD i []) b = 0 := by
  intro jz hstopz' hleafz' i ji ti tz h1 h2 hstopi' hti htz hshp hfwd b hb
  have hL0 : 0 < st.nodes.length := by have := hinv.two_le; omega
  obtain ⟨jz0, hjz0lt, hstopz⟩ := stopW_exists hinv.valid hL0 []
  have hz0 : (pairAt st.nodes [] jz0).2 = 0 :=
    ins_z_leaf hinv hk hnew hs1 hs2 hstopz hstopz' hleafz'
  by_cases hP2 : (pairAt (insNodes st k si mi jk jd) [] tz).2 =
      st.nodes.length
  · -- the shared pair leads into the new node
    have hbm : bitn (insNodes st k si mi jk jd)
        (pairAt (insNodes st k si mi jk jd) [] tz).2 =
        (insD st k jk : Int) := by
      rw [hP2]
      exact bitn_ins_m hinv
    rw [hbm] at hb
    have hbd : b < insD st k jk := by exact_mod_cast hb
    have hiagree := ins_side_dbit hinv hk hnew hs1 hs2 h1 h2 hstopi' hti
      (by rw [hshp]; exact hP2) b hbd
    obtain ⟨⟨i1, hi1, hpairz⟩, _⟩ := ins_any_at_L hinv hk hnew hs1 hs2
      hstopz hstopz' htz (Or.inr hP2)
    have hk0 := ins_z_k_zero hinv hk hnew hs1 hs2 hstopz hstopz' hleafz'
      hi1 hpairz b hbd
    rw [hiagree, hk0]
  · by_cases hP1 : (pairAt (insNodes st k si mi jk jd) [] tz).1 =
        st.nodes.length
    · -- the shared pair leaves the new node forward into the old stop node
      have hA := ins_side_t hinv hk hnew hs1 hs2 h1 h2 hstopi' hti
        (by rw [hshp]; exact hP1) (by rw [hshp]; exact hP2)
      have hteq : (pairAt (insNodes st k si mi jk jd) [] tz).2 =
          insT st k jd := by
        rw [← hshp]
        exact hA.1
      have hbt : bitn (insNodes st k si mi jk jd)
          (pairAt (insNodes st k si mi jk jd) [] tz).2 =
          bitn st.nodes (insT st k jd) := by
        rw [hteq, bitn_ins_lt hinv (ins_t_lt hinv)]
      rw [hbt] at hb
      rw [hA.2 b hb]
      obtain ⟨⟨i1, hi1, hpairz⟩, _⟩ := ins_any_at_L hinv hk hnew hs1 hs2
        hstopz hstopz' htz (Or.inl hP1)
      rcases Nat.eq_zero_or_pos (insC st k jk) with hc0 | hc1
      · have hkc : insKc st k jk = [] := by
          unfold insKc
          rw [hc0, hinv.kd0]
        rw [hkc, bitAt_nil]
      · have hrep := ins_kc_replay hinv hs1
        have hfwdT : fwdP st.nodes (pairAt st.nodes [] i1) := by
          rw [hpairz]
          show fwdP st.nodes (insP st k jd, insT st k jd)
          unfold fwdP
          show bitn st.nodes (insP st k jd) < bitn st.nodes (insT st k jd)
          have hpb := ins_pbit hinv hs2
          have hdlt : (insD st k jk : Int) <
              bitn st.nodes (insT st k jd) := by
            unfold fwdP at hfwd
            rw [hP1, bitn_ins_m hinv, hbt] at hfwd
            exact hfwd
          omega
        have hkcz := hinv.invz jz0 hstopz hz0 (insC st k jk) jk jd i1 hc1
          (ins_c_lt hinv) hrep.2 (ins_jd_le hs1 hs2) hi1
          ((show pairAt st.nodes (st.keyData.getD (insC st k jk) []) jd =
              pairAt st.nodes k jd from hrep.1 jd (ins_jd_le hs1 hs2)).trans
            (ins_k_pair.trans hpairz.symm))
          hfwdT b
          (by rw [hpairz, show ((insP st k jd, insT st k jd) :
              Nat × Nat).2 = insT st k jd from rfl]
              exact hb)
        exact hkcz
    · -- the shared pair is an old pair
      have hvN : ValidN (insNodes st k si mi jk jd) := ins_valid hinv
      have hlenN : 0 < (insNodes st k si mi jk jd).length := by
        rw [ins_len]
        omega
      have hP1lt : (pairAt (insNodes st k si mi jk jd) [] tz).1 <
          st.nodes.length := by
        have h := (pairAt_lt hvN hlenN [] tz).1
        rw [ins_len] at h
        omega
      have hP2lt : (pairAt (insNodes st k si mi jk jd) [] tz).2 <
          st.nodes.length := by
        have h := (pairAt_lt hvN hlenN [] tz).2
        rw [ins_len] at h
        omega
      rw [bitn_ins_lt hinv hP2lt] at hb
      obtain ⟨wz, hwz, hpez⟩ := ins_any_old_pair hinv hk hnew hs1 hs2
        hstopz hstopz' htz hP1 hP2
      have hfwdold : fwdP st.nodes (pairAt st.nodes [] wz) := by
        rw [hpez]
        unfold fwdP at hfwd ⊢
        rw [bitn_ins_lt hinv hP1lt, bitn_ins_lt hinv hP2lt] at hfwd
        exact hfwd
      have hbz : (b : Int) < bitn st.nodes (pairAt st.nodes [] wz).2 := by
        rw [show (pairAt st.nodes [] wz).2 =
          (pairAt (insNodes st k si mi jk jd) [] tz).2 from by rw [hpez]]
        exact hb
      rcases Nat.lt_or_ge i st.nodes.length with hiL | hiG
      · -- the key was already stored: use the old invariant
        have hKi : (st.keyData ++ [k]).getD i [] = st.keyData.getD i [] :=
          kd_getD_append_lt (by rw [hinv.len_kd]; exact hiL) k
        rw [hKi] at hstopi' hshp ⊢
        obtain ⟨jiold, hstopiold, _⟩ := hinv.p1 i h1 hiL
        obtain ⟨wi, hwi, hpei⟩ := ins_stored_old_pair hinv hk hnew hs1 hs2
          h1 hiL hstopiold hstopi' hti (by rw [hshp]; exact hP1)
          (by rw [hshp]; exact hP2)
        exact hinv.invz jz0 hstopz hz0 i jiold wi wz h1 hiL hstopiold hwi
          hwz (hpei.trans (hshp.trans hpez.symm)) hfwdold b hbz
      · -- the key is the inserted one: chain through the closest key
        have hie : i = st.nodes.length := by omega
        subst hie
        have hKi : (st.keyData ++ [k]).getD st.nodes.length [] = k := by
          rw [show st.nodes.length = st.keyData.length from hinv.len_kd.symm]
          exact kd_getD_append_self st.keyData k
        rw [hKi] at hstopi' hshp ⊢
        obtain ⟨hultb, hkpe, hbnd⟩ := ins_k_old_pair hinv hs1 hs2 hstopi'
          hti (by rw [hshp]; exact hP1) (by rw [hshp]; exact hP2)
        have hkeq : pairAt st.nodes k ti = pairAt st.nodes [] wz :=
          hkpe.trans (hshp.trans hpez.symm)
        have hbd : b < insD st k jk := by
          have hh : bitn st.nodes (pairAt st.nodes [] wz).2 <
              (insD st k jk : Int) := by
            rw [← hkeq]
            exact hbnd
          have h2b : (b : Int) < (insD st k jk : Int) := lt_trans hbz hh
          exact_mod_cast h2b
        have hfdb : bitAt k (insD st k jk) ≠
            bitAt (insKc st k jk) (insD st k jk) ∧
            (∀ γ, γ < insD st k jk →
              bitAt k γ = bitAt (insKc st k jk) γ) ∧
            insD st k jk < max k.length (insKc st k jk).length * 8 :=
          ins_fdb hinv hk hnew
        have hkagree : bitAt k b = bitAt (insKc st k jk) b := hfdb.2.1 b hbd
        rcases Nat.eq_zero_or_pos (insC st k jk) with hc0 | hc1
        · have hkc : insKc st k jk = [] := by
            unfold insKc
            rw [hc0, hinv.kd0]
          rw [hkagree, hkc, bitAt_nil]
        · have hrep := ins_kc_replay hinv hs1
          have htile : ti ≤ jk := by
            have := ins_jd_le hs1 hs2
            omega
          have hkcz := hinv.invz jz0 hstopz hz0 (insC st k jk) jk ti wz hc1
            (ins_c_lt hinv) hrep.2 htile hwz
            ((show pairAt st.nodes (st.keyData.getD (insC st k jk) []) ti =
                pairAt st.nodes k ti from hrep.1 ti htile).trans hkeq)
            hfwdold b hbz
          rw [hkagree]
          exact hkcz

/-- The invariant bundle is preserved by one insertion. -/
theorem ins_inv {st : PatriciaTrieBuilder} {k : List Nat} {si mi jk jd : Nat}
    (hinv : TrieInv st) (hk : KeyOK k)
    (hnew : ∀ i, 1 ≤ i → i < st.nodes.length → st.keyData.getD i [] ≠ k)
    (hs1 : StopW st.nodes k jk)
    (hs2 : Stop2W st.nodes k (insD st k jk) jd) :
    TrieInv (insSt st k si mi jk jd) := by
  refine ⟨?_, ?_, ?_, ?_, ?_, ?_, ?_, ?_, ?_, ?_, ?_, ?_, ?_⟩
  · show (st.keyData ++ [k]).length = (insNodes st k si mi jk jd).length
    rw [List.length_append, ins_len, hinv.len_kd]
    rfl
  · show 2 ≤ (insNodes st k si mi jk jd).length
    rw [ins_len]
    have := hinv.two_le
    omega
  · exact ins_root_bit hinv
  · show (st.keyData ++ [k]).getD 0 [] = []
    rw [kd_getD_append_lt (by rw [hinv.len_kd]; have := hinv.two_le; omega) k]
    exact hinv.kd0
  · show ∀ i, 1 ≤ i → i < (insNodes st k si mi jk jd).length →
      0 ≤ bitn (insNodes st k si mi jk jd) i
    intro i ha hb
    rw [ins_len] at hb
    exact ins_bits_nn hinv i ha hb
  · exact ins_valid hinv
  · exact ins_dslots hinv
  · exact ins_ufp hinv hs2
  · show ∀ i, 1 ≤ i → i < (insNodes st k si mi jk jd).length →
      KeyOK ((st.keyData ++ [k]).getD i [])
    intro i ha hb
    rw [ins_len] at hb
    rcases Nat.lt_or_ge i st.nodes.length with hl | hg
    · rw [kd_getD_append_lt (by rw [hinv.len_kd]; exact hl) k]
      exact hinv.keys_ok i ha hl
    · have hie : i = st.nodes.length := by omega
      subst hie
      rw [show st.nodes.length = st.keyData.length from hinv.len_kd.symm,
        kd_getD_append_self]
      exact hk
  · show ∀ i, 1 ≤ i → i < (insNodes st k si mi jk jd).length → _
    intro i ha hb
    rw [ins_len] at hb
    exact ins_p1 hinv hk hnew hs1 hs2 i ha hb
  · exact ins_p2 hinv hk hnew hs1 hs2
  · intro a b j1 j2 u1 u2 ha1 ha2 hb1 hb2
    rw [show (insSt st k si mi jk jd).nodes.length =
      st.nodes.length + 1 from ins_len st k si mi jk jd] at ha2 hb2
    exact ins_pagree hinv hk hnew hs1 hs2 a b j1 j2 u1 u2 ha1 ha2 hb1 hb2
  · intro jz hsz hlz i ji ti tz h1 h2
    rw [show (insSt st k si mi jk jd).nodes.length =
      st.nodes.length + 1 from ins_len st k si mi jk jd] at h2
    exact ins_invz hinv hk hnew hs1 hs2 jz hsz hlz i ji ti tz h1 h2

/-- One insertion into a valid state succeeds and preserves the invariant. -/
theorem insert_step {st : PatriciaTrieBuilder} {k : List Nat} (si mi : Nat)
    (hinv : TrieInv st) (hk : KeyOK k)
    (hnew : ∀ i, 1 ≤ i → i < st.nodes.length → st.keyData.getD i [] ≠ k) :
    ∃ st2, insertKey st k si mi = .ok st2 ∧ TrieInv st2 ∧
      st2.keyData = st.keyData ++ [k] := by
  have hL : 0 < st.nodes.length := by have := hinv.two_le; omega
  obtain ⟨jk, hjkl, hs1⟩ := stopW_exists hinv.valid hL k
  obtain ⟨jd, hjdle, hs2⟩ := stop2W_exists (insD st k jk) hs1
  exact ⟨insSt st k si mi jk jd, insertKey_ok si mi hinv hk hnew hs1 hs2,
    ins_inv hinv hk hnew hs1 hs2, rfl⟩

/-- Lookup of a stored key returns exactly its node. -/
theorem find_stored {st : PatriciaTrieBuilder} (hinv : TrieInv st)
    {i : Nat} (h1 : 1 ≤ i) (h2 : i < st.nodes.length)
    (hdist : ∀ i2, 1 ≤ i2 → i2 < st.nodes.length → i2 ≠ i →
      st.keyData.getD i2 [] ≠ st.keyData.getD i []) :
    findNodeByKey st (st.keyData.getD i []) = some i := by
  have hL : 0 < st.nodes.length := by have := hinv.two_le; omega
  have hok := hinv.keys_ok i h1 h2
  obtain ⟨j, hstop, hleaf⟩ := hinv.p1 i h1 h2
  unfold findNodeByKey
  rw [if_neg (by
    intro hnil
    rw [hnil] at hok
    exact absurd rfl hok.1)]
  rw [walkLoop1_eq_of_stopW hstop
    (by have := stopW_lt_len hinv.valid hL hstop.1; omega)]
  show (if st.keyData.getD (pairAt st.nodes (st.keyData.getD i []) j).2 [] =
    st.keyData.getD i [] then some (pairAt st.nodes
      (st.keyData.getD i []) j).2 else none) = some i
  rw [hleaf, if_pos rfl]

/-- Lookup of an absent key reports not found. -/
theorem find_absent {st : PatriciaTrieBuilder} (hinv : TrieInv st)
    {q : List Nat}
    (habs : ∀ i, 1 ≤ i → i < st.nodes.length → st.keyData.getD i [] ≠ q) :
    findNodeByKey st q = none := by
  have hL : 0 < st.nodes.length := by have := hinv.two_le; omega
  unfold findNodeByKey
  by_cases hnil : q = []
  · rw [if_pos hnil]
  · rw [if_neg hnil]
    obtain ⟨jq, hjql, hstop⟩ := stopW_exists hinv.valid hL q
    rw [walkLoop1_eq_of_stopW hstop (by omega)]
    show (if st.keyData.getD (pairAt st.nodes q jq).2 [] = q
      then some (pairAt st.nodes q jq).2 else none) = none
    rw [if_neg ?_]
    have hlt : (pairAt st.nodes q jq).2 < st.nodes.length :=
      (pairAt_lt hinv.valid hL q jq).2
    rcases Nat.eq_zero_or_pos (pairAt st.nodes q jq).2 with hz | hpos
    · rw [hz, hinv.kd0]
      exact fun he => hnil he.symm
    · exact habs (pairAt st.nodes q jq).2 hpos hlt

/-- Folding the remaining insertions over a valid state succeeds and stores
exactly the processed keys after the sentinel. -/
theorem build_fold (l : List ((List Nat) × Nat × Nat)) :
    ∀ (st : PatriciaTrieBuilder) (done : List (List Nat)),
    TrieInv st → st.keyData = [] :: done →
    (∀ t ∈ l, KeyOK t.1) →
    (done ++ l.map (fun t => t.1)).Nodup →
    ∃ st2, l.foldlM (fun st3 t => insertKey st3 t.1 t.2.1 t.2.2) st =
        .ok st2 ∧
      TrieInv st2 ∧ st2.keyData = [] :: (done ++ l.map (fun t => t.1)) := by
  induction l with
  | nil =>
    intro st done hinv hkd _ _
    refine ⟨st, rfl, hinv, ?_⟩
    rw [List.map_nil, List.append_nil]
    exact hkd
  | cons t l2 ih =>
    intro st done hinv hkd hoks hnd
    have hknew : ∀ i, 1 ≤ i → i < st.nodes.length →
        st.keyData.getD i [] ≠ t.1 := by
      intro i hi1 hi2 he
      have hilen : i < st.keyData.length := by
        rw [hinv.len_kd]
        exact hi2
      have hmem : st.keyData.getD i [] ∈ done := by
        rw [hkd] at hilen ⊢
        rw [List.getD_eq_getElem?_getD, List.getElem?_eq_getElem hilen]
        have hi0 : i - 1 < done.length := by
          simp only [List.length_cons] at hilen
          omega
        have : ([] :: done)[i] = done[i - 1] := by
          rcases i with _ | i2
          · omega
          · rfl
        rw [this]
        exact List.getElem_mem hi0
      have hdisj := List.disjoint_of_nodup_append hnd
      exact hdisj hmem (by rw [he]; exact List.mem_cons_self t.1 _)
    obtain ⟨st2, hstep, hinv2, hkd2⟩ := insert_step t.2.1 t.2.2 hinv
      (hoks t (List.mem_cons_self t l2)) hknew
    have hkd2' : st2.keyData = [] :: (done ++ [t.1]) := by
      rw [hkd2, hkd]
      rfl
    have hnd2 : ((done ++ [t.1]) ++ l2.map (fun t2 => t2.1)).Nodup := by
      have he : (done ++ [t.1]) ++ l2.map (fun t2 => t2.1) =
          done ++ (t :: l2).map (fun t2 => t2.1) := by
        simp
      rw [he]
      exact hnd
    obtain ⟨st3, hfold, hinv3, hkd3⟩ := ih st2 (done ++ [t.1]) hinv2 hkd2'
      (fun t2 ht2 => hoks t2 (List.mem_cons_of_mem t ht2)) hnd2
    refine ⟨st3, ?_, hinv3, ?_⟩
    · rw [List.foldlM_cons, hstep]
      exact hfold
    · rw [hkd3]
      simp

/-- Building from a non-empty key list succeeds and yields a valid state
storing the keys after the sentinel entry. -/
theorem buildFromKeys_builds (keys : List (List Nat)) (sIdx mIdx : List Nat)
    (hl1 : keys.length = sIdx.length) (hl2 : keys.length = mIdx.length)
    (hne : keys ≠ [])
    (hok : ∀ kk ∈ keys, KeyOK kk) (hnd : keys.Nodup) :
    ∃ st2, buildFromKeys keys sIdx mIdx = .ok st2 ∧ TrieInv st2 ∧
      st2.keyData = [] :: keys := by
  unfold buildFromKeys
  rw [if_neg (by push_neg; exact ⟨hl1, hl2⟩)]
  rcases keys with _ | ⟨k0, kt⟩
  · exact absurd rfl hne
  rcases sIdx with _ | ⟨s0, stl⟩
  · simp at hl1
  rcases mIdx with _ | ⟨m0, mtl⟩
  · simp at hl2
  simp only [List.length_cons] at hl1 hl2
  rw [show (s0 :: stl).zip (m0 :: mtl) = (s0, m0) :: stl.zip mtl from rfl,
    show (k0 :: kt).zip ((s0, m0) :: stl.zip mtl) =
      (k0, s0, m0) :: kt.zip (stl.zip mtl) from rfl,
    List.foldlM_cons]
  have hok0 : KeyOK k0 := hok k0 (List.mem_cons_self k0 kt)
  rw [show insertKey initialTrieState (k0, s0, m0).1 (k0, s0, m0).2.1
      (k0, s0, m0).2.2 = .ok (firstState k0 s0 m0)
    from insertKey_first k0 s0 m0 hok0]
  have hbind : ∀ (x : PatriciaTrieBuilder)
      (g : PatriciaTrieBuilder → Except String PatriciaTrieBuilder),
      (Except.ok x >>= g) = g x := fun x g => rfl
  rw [hbind]
  have hmapfst : (kt.zip (stl.zip mtl)).map (fun t => t.1) = kt := by
    apply List.map_fst_zip
    rw [List.length_zip]
    omega
  obtain ⟨st2, hfold, hinv2, hkd2⟩ := build_fold (kt.zip (stl.zip mtl))
    (firstState k0 s0 m0) [k0] (firstState_inv k0 s0 m0 hok0) rfl
    (fun t2 ht2 => hok t2.1
      (List.mem_cons_of_mem k0 (List.mem_zip ht2).1))
    (by rw [hmapfst]; exact hnd)
  refine ⟨st2, hfold, hinv2, ?_⟩
  rw [hkd2, hmapfst]
  rfl

/-- C1: for every pairwise-distinct list of non-empty, NUL-free byte keys
inserted in order by `buildFromKeys`, the `findNode`-style lookup walk
(`findNodeByKey`) returns for each inserted key exactly the node created for
that key (key `i` creates node `i + 1`), and reports not found for every
query key that is not in the list. -/
theorem patricia_build_find_correct
    (keys : List (List Nat)) (sIdx mIdx : List Nat)
    (hl1 : keys.length = sIdx.length) (hl2 : keys.length = mIdx.length)
    (hne : keys ≠ [])
    (hok : ∀ kk ∈ keys, kk ≠ [] ∧ ∀ c ∈ kk, c ≠ 0 ∧ c < 256)
    (hnd : keys.Nodup) :
    ∃ st2, buildFromKeys keys sIdx mIdx = Except.ok st2 ∧
      (∀ i, i < keys.length →
        findNodeByKey st2 (keys.getD i []) = some (i + 1)) ∧
      (∀ q, q ∉ keys → findNodeByKey st2 q = none) := by
  obtain ⟨st2, hbuild, hinv2, hkd2⟩ :=
    buildFromKeys_builds keys sIdx mIdx hl1 hl2 hne hok hnd
  have hL : st2.nodes.length = keys.length + 1 := by
    rw [← hinv2.len_kd, hkd2]
    rfl
  have hgd : ∀ j, st2.keyData.getD (j + 1) [] = keys.getD j [] := by
    intro j
    rw [hkd2]
    rfl
  have hgde : ∀ j (hj : j < keys.length),
      keys.getD j [] = keys.get ⟨j, hj⟩ := by
    intro j hj
    rw [List.getD_eq_getElem?_getD, List.getElem?_eq_getElem hj]
    rfl
  refine ⟨st2, hbuild, ?_, ?_⟩
  · intro i hi
    rw [← hgd i]
    apply find_stored hinv2 (by omega) (by rw [hL]; omega)
    intro i2 h1 h2 hne2 he
    rw [hL] at h2
    have hi2b : i2 - 1 < keys.length := by omega
    have hi2e : i2 = (i2 - 1) + 1 := by omega
    rw [hi2e, hgd (i2 - 1), hgd i, hgde (i2 - 1) hi2b, hgde i hi] at he
    have := List.nodup_iff_injective_get.mp hnd he
    rw [Fin.mk.injEq] at this
    omega
  · intro q hq
    apply find_absent hinv2
    intro i h1 h2 he
    rw [hL] at h2
    have hib : i - 1 < keys.length := by omega
    have hie : i = (i - 1) + 1 := by omega
    rw [hie, hgd (i - 1), hgde (i - 1) hib] at he
    apply hq
    rw [← he]
    exact List.get_mem keys (i - 1) (by omega)

theorem patricia_build_find_correct_witness :
    ([[1], [2]] : List (List Nat)).length = ([10, 20] : List Nat).length ∧
    ([[1], [2]] : List (List Nat)) ≠ [] ∧
    ([[1], [2]] : List (List Nat)).Nodup ∧
    (∀ kk ∈ ([[1], [2]] : List (List Nat)),
      kk ≠ [] ∧ ∀ c ∈ kk, c ≠ 0 ∧ c < 256) ∧
    ∃ st2, buildFromKeys [[1], [2]] [10, 20] [30, 40] = Except.ok st2 ∧
      (∀ i, i < ([[1], [2]] : List (List Nat)).length →
        findNodeByKey st2 (([[1], [2]] : List (List Nat)).getD i []) =
          some (i + 1)) ∧
      (∀ q, q ∉ ([[1], [2]] : List (List Nat)) →
        findNodeByKey st2 q = none) :=
  ⟨rfl, by decide, by decide, by decide,
    patricia_build_find_correct [[1], [2]] [10, 20] [30, 40] rfl rfl
      (by decide) (by decide) (by decide)⟩

end Prius
